import Mathlib

set_option linter.unusedVariables false
set_option maxRecDepth 8000

/-! Shallow embedding of the capability engine (repository capability-v5).

The Rust sources under src/capability_engine/src are translated definition by
definition.  Machine integers (u64, u16, u8) are modelled as Nat; the code
never relies on wrap-around (debug builds would abort), and the explicit
casts in domain.rs (value as u16, value as u8) are rendered as % 2 ^ 16 and
% 2 ^ 8.  Bit-set types declared with the bitflags proc-macro (Rights,
Attributes, VectorVisibility) are modelled as structures of Bools, one per
declared flag; the 13-flag MonitorAPI mask is kept as a raw Nat bitmask.
Rc/RefCell pointer graphs are modelled as id-indexed heaps: a CapaRef is a
Nat id into the heap, a WeakRef is an Option Nat (none models Weak::new()
and cleared back-references); heaps never free nodes, so upgrading is a
plain lookup.  Recursive graph walks take an explicit fuel argument. -/

/- ———————————————— core/memory_region.rs : value types ———————————————— -/

/-- RegionKind (memory_region.rs): Carve or Alias. -/
inductive RegionKind where
  | Carve
  | Alias
deriving DecidableEq, Repr

/-- Region Status (memory_region.rs): Exclusive or Aliased. -/
inductive RStatus where
  | Exclusive
  | Aliased
deriving DecidableEq, Repr

/-- bitflags Rights: READ | WRITE | EXECUTE, modelled one Bool per flag. -/
structure Rights where
  read : Bool
  write : Bool
  execute : Bool
deriving DecidableEq, Repr

/-- bitflags contains: self.bits & other.bits == other.bits. -/
def Rights.contains (a b : Rights) : Bool :=
  (!b.read || a.read) && (!b.write || a.write) && (!b.execute || a.execute)

/-- bitflags union: self.bits | other.bits. -/
def Rights.union (a b : Rights) : Rights :=
  ⟨a.read || b.read, a.write || b.write, a.execute || b.execute⟩

def Rights.RWX : Rights := ⟨true, true, true⟩

def Rights.R : Rights := ⟨true, false, false⟩

def Rights.RW : Rights := ⟨true, true, false⟩

/-- bitflags Attributes: HASH | CLEAN | VITAL. -/
structure Attributes where
  hash : Bool
  clean : Bool
  vital : Bool
deriving DecidableEq, Repr

def Attributes.NONE : Attributes := ⟨false, false, false⟩

/-- bitflags is_empty: bits == 0. -/
def Attributes.is_empty (a : Attributes) : Bool :=
  !a.hash && !a.clean && !a.vital

/-- bitflags intersects: self.bits & other.bits != 0. -/
def Attributes.intersects (a b : Attributes) : Bool :=
  (a.hash && b.hash) || (a.clean && b.clean) || (a.vital && b.vital)

/-- The mask VITAL | CLEAN used by Engine::send. -/
def Attributes.vital_clean : Attributes := ⟨false, true, true⟩

/-- bitflags contains for Attributes. -/
def Attributes.contains (a b : Attributes) : Bool :=
  (!b.hash || a.hash) && (!b.clean || a.clean) && (!b.vital || a.vital)

/-- Remapped (memory_region.rs): Identity or Remapped(gpa). -/
inductive Remapped where
  | Identity
  | Remapped (gpa : Nat)
deriving DecidableEq, Repr

/-- Access (memory_region.rs): start, size, rights. -/
structure Access where
  start : Nat
  size : Nat
  rights : Rights
deriving DecidableEq, Repr

def Access.new (start size : Nat) (rights : Rights) : Access :=
  ⟨start, size, rights⟩

/-- Access::end. -/
def Access.end_addr (a : Access) : Nat := a.start + a.size

/-- Access::contained: self inside other, rights a subset. -/
def Access.contained (self other : Access) : Bool :=
  decide (other.start ≤ self.start) &&
  decide (self.start + self.size ≤ other.start + other.size) &&
  other.rights.contains self.rights

/-- Access::intersect: the half-open ranges overlap. -/
def Access.intersect (self other : Access) : Bool :=
  (decide (self.start ≤ other.start) && decide (other.start < self.start + self.size)) ||
  (decide (other.start ≤ self.start) && decide (self.start < other.start + other.size))

/-- MemoryRegion (memory_region.rs). -/
structure MemoryRegion where
  kind : RegionKind
  status : RStatus
  access : Access
  attributes : Attributes
  remapped : Remapped
deriving DecidableEq, Repr

/-- ViewRegion (memory_region.rs): an access window plus its remap. -/
structure ViewRegion where
  access : Access
  remap : Remapped
deriving DecidableEq, Repr

def ViewRegion.new (access : Access) (remap : Remapped) : ViewRegion :=
  ⟨access, remap⟩

/-- ViewRegion::active_start: the gva when remapped, else the physical start. -/
def ViewRegion.active_start (v : ViewRegion) : Nat :=
  match v.remap with
  | .Remapped gva => gva
  | .Identity => v.access.start

def ViewRegion.active_end (v : ViewRegion) : Nat :=
  v.active_start + v.access.size

/-- ViewRegion::contains_remap. -/
def ViewRegion.contains_remap (self other : ViewRegion) : Bool :=
  decide (self.active_start ≤ other.active_start) &&
  decide (other.active_end ≤ self.active_end) &&
  self.access.rights.contains other.access.rights

/-- ViewRegion::contiguous: meets in active and physical space, equal rights. -/
def ViewRegion.contiguous (self other : ViewRegion) : Bool :=
  decide (self.active_end = other.active_start) &&
  decide (self.access.end_addr = other.access.start) &&
  decide (self.access.rights = other.access.rights)

/-- ViewRegion::overlap_remap: other starts inside self in active space. -/
def ViewRegion.overlap_remap (self other : ViewRegion) : Bool :=
  decide (self.active_start ≤ other.active_start) &&
  decide (other.active_start < self.active_end)

/-- ViewRegion::overlap: other starts inside self in physical space. -/
def ViewRegion.overlap (self other : ViewRegion) : Bool :=
  decide (self.access.start ≤ other.access.start) &&
  decide (other.access.start < self.access.end_addr)

/-- ViewRegion::compatible (memory_region.rs): the two views may coexist
inside one domain without creating an ambiguous gva mapping. -/
def ViewRegion.compatible (self other : ViewRegion) : Bool :=
  if decide (self.active_start ≤ other.active_start) && !(self.overlap_remap other) then
    true
  else if decide (other.active_start ≤ self.active_start) && !(other.overlap_remap self) then
    true
  else
    let fs := if decide (self.active_start ≤ other.active_start) then (self, other)
              else (other, self)
    match fs.1.remap, fs.2.remap with
    | .Identity, .Identity => true
    | .Remapped x, .Remapped y =>
      if decide (fs.2.access.start < fs.1.access.start) then false
      else decide (y - x = fs.2.access.start - fs.1.access.start)
    | _, _ => false

/- ———————————————— core/capability.rs : error type ———————————————— -/

/-- CapaError (capability.rs). -/
inductive CapaError where
  | InvalidAccess
  | InvalidAttributes
  | ChildNotFound
  | InvalidLocalCapa
  | WrongCapaType
  | CallNotAllowed
  | DomainUnsealed
  | DomainSealed
  | InsufficientRights
  | InvalidChildCapa
  | CapaNotOwned
  | RevokeOnRootCapa
  | DoubleRemapping
  | IncompatibleRemap
  | InvalidField
  | InvalidValue
  | ParserDomain
  | ParserRegion
  | ParserStatus
  | ParserMonitor
  | ParserCapability
deriving DecidableEq, Repr

/-- Errors of a fueled execution: a CapaError of the code, or fuel ran out
(the latter never occurs in the Rust code, whose recursion is bounded by the
acyclic Rc ownership graph). -/
inductive RunErr where
  | fuelOut
  | capa (e : CapaError)
deriving DecidableEq, Repr

/- ———————————————— memory_region.rs : ViewRegion::merge_at ———————————————— -/

/-- ViewRegion::merge_at (memory_region.rs).  The Rust code mutates the
vector in place at indices curr and curr+1; here the list around position
curr is decomposed, rebuilt, and returned together with the next index.
The final catch-all arm covers out-of-range indices that the Rust code
would never reach from its caller (the loop guarantees curr < len and the
first branch handles curr = len - 1). -/
def ViewRegion.merge_at (curr : Nat) (regions : List ViewRegion) :
    Except CapaError (Nat × List ViewRegion) :=
  if curr = regions.length - 1 then .ok (regions.length, regions)
  else
    match regions.drop curr with
    | current :: other :: rest =>
      -- Case 1: contained.
      if current.contains_remap other then
        if !(decide (current.access.start ≤ other.access.start) &&
             decide (other.access.end_addr ≤ current.access.end_addr)) then
          .error CapaError.DoubleRemapping
        else
          .ok (curr, regions.take curr ++ current :: rest)
      -- Case 2: contiguous.
      else if current.contiguous other then
        let fused := ViewRegion.new
          (Access.new current.access.start (current.access.size + other.access.size)
            current.access.rights)
          current.remap
        .ok (curr, regions.take curr ++ fused :: rest)
      -- Case 3: overlap in active space.
      else if current.overlap_remap other then
        if !(current.overlap other) then
          .error CapaError.DoubleRemapping
        else
          let middle_remap := match current.remap with
            | .Identity => Remapped.Identity
            | .Remapped x => Remapped.Remapped (other.access.start - current.access.start + x)
          let middle := ViewRegion.new
            (Access.new other.access.start
              (min current.access.end_addr other.access.end_addr - other.access.start)
              (current.access.rights.union other.access.rights))
            middle_remap
          let remainder := max current.access.end_addr other.access.end_addr
          let rights := if remainder = current.access.end_addr then current.access.rights
                        else other.access.rights
          let left := ViewRegion.new
            (Access.new current.access.start (middle.access.start - current.access.start)
              current.access.rights)
            current.remap
          let oth := ViewRegion.new
            (Access.new middle.access.end_addr (remainder - middle.access.end_addr) rights)
            (match other.remap with
             | .Identity => Remapped.Identity
             | .Remapped x => Remapped.Remapped (x + middle.access.size))
          if left.access.size = 0 then
            .ok (curr, regions.take curr ++ middle :: oth :: rest)
          else
            .ok (curr, regions.take curr ++ left :: middle :: oth :: rest)
      else
        .ok (curr + 1, regions)
    | _ => .ok (regions.length, regions)

/-- The iteration of Capability::<Domain>::coalesce_view_regions
(capability.rs): run merge_at from curr until it returns the length. -/
def coalesceLoop : Nat → Nat → List ViewRegion → Except RunErr (List ViewRegion)
  | 0, _, _ => .error RunErr.fuelOut
  | fuel + 1, curr, regions =>
    if curr < regions.length then
      match ViewRegion.merge_at curr regions with
      | .error e => .error (RunErr.capa e)
      | .ok (next, rs) => coalesceLoop fuel next rs
    else .ok regions

/-- Capability::<Domain>::coalesce_view_regions, with fuel. -/
def coalesce_view_regions (fuel : Nat) (regions : List ViewRegion) :
    Except RunErr (List ViewRegion) :=
  coalesceLoop fuel 0 regions

/- ———————————————— core/domain.rs : policies ———————————————— -/

/-- MonitorAPI (domain.rs): a 13-flag u16 bitmask, kept as a raw Nat mask. -/
abbrev MonitorAPI := Nat

def MonitorAPI.CREATE : MonitorAPI := 0b001

def MonitorAPI.SET : MonitorAPI := 0b010

def MonitorAPI.GET : MonitorAPI := 0b100

def MonitorAPI.SEND : MonitorAPI := 0b1000

def MonitorAPI.SEAL : MonitorAPI := 0b10000

def MonitorAPI.ATTEST : MonitorAPI := 0b100000

def MonitorAPI.ENUMERATE : MonitorAPI := 0b1000000

def MonitorAPI.SWITCH : MonitorAPI := 0b10000000

def MonitorAPI.CARVE : MonitorAPI := 0b100000000

def MonitorAPI.ALIAS : MonitorAPI := 0b1000000000

def MonitorAPI.REVOKE : MonitorAPI := 0b10000000000

def MonitorAPI.GETCHAN : MonitorAPI := 0b100000000000

def MonitorAPI.RECEIVE : MonitorAPI := 0b1000000000000

/-- bitflags all(): the union of the 13 declared flags. -/
def MonitorAPI.all : MonitorAPI := 0b1111111111111

/-- bitflags contains: self.bits & other.bits == other.bits. -/
def MonitorAPI.hasBits (self other : MonitorAPI) : Bool :=
  self &&& other == other

/-- bitflags from_bits: none when a bit outside the declared flags is set. -/
def MonitorAPI.from_bits (v : Nat) : Option MonitorAPI :=
  if MonitorAPI.all &&& v == v then some v else none

/-- bitflags VectorVisibility: ALLOWED | VISIBLE. -/
structure VectorVisibility where
  allowed : Bool
  visible : Bool
deriving DecidableEq, Repr

def VectorVisibility.empty : VectorVisibility := ⟨false, false⟩

def VectorVisibility.allFlags : VectorVisibility := ⟨true, true⟩

def VectorVisibility.contains (a b : VectorVisibility) : Bool :=
  (!b.allowed || a.allowed) && (!b.visible || a.visible)

def VectorVisibility.bits (a : VectorVisibility) : Nat :=
  (if a.allowed then 0b1 else 0) + (if a.visible then 0b10 else 0)

/-- bitflags from_bits on a u8 value: ALLOWED = bit 0, VISIBLE = bit 1,
none when any other bit is set. -/
def VectorVisibility.from_bits (v : Nat) : Option VectorVisibility :=
  if v &&& 0b11 == v then some ⟨v.testBit 0, v.testBit 1⟩ else none

/-- Domain Status (domain.rs). -/
inductive DStatus where
  | Unsealed
  | Sealed
  | Revoked
deriving DecidableEq, Repr

/-- FieldType (domain.rs). -/
inductive FieldType where
  | Register
  | Cores
  | Api
  | InterruptVisibility
  | InterruptRead
  | InterruptWrite
deriving DecidableEq, Repr

/-- VectorPolicy (domain.rs). -/
structure VectorPolicy where
  visibility : VectorVisibility
  read_set : Nat
  write_set : Nat
deriving DecidableEq, Repr

/-- VectorPolicy::contains: only visibility is compared. -/
def VectorPolicy.contains (a b : VectorPolicy) : Bool :=
  a.visibility.contains b.visibility

def NB_INTERRUPTS : Nat := 256

/-- A default vector policy, used only as the out-of-range fallback of list
indexing (the Rust arrays always have length 256). -/
def VectorPolicy.fallback : VectorPolicy := ⟨VectorVisibility.empty, 0, 0⟩

/-- InterruptPolicy (domain.rs): an array of 256 vector policies, modelled
as a list whose length is 256 in every state the engine builds. -/
structure InterruptPolicy where
  vectors : List VectorPolicy
deriving DecidableEq, Repr

/-- InterruptPolicy::default_none. -/
def InterruptPolicy.default_none : InterruptPolicy :=
  ⟨List.replicate NB_INTERRUPTS ⟨VectorVisibility.empty, 2 ^ 64 - 1, 2 ^ 64 - 1⟩⟩

/-- InterruptPolicy::default_all. -/
def InterruptPolicy.default_all : InterruptPolicy :=
  ⟨List.replicate NB_INTERRUPTS ⟨VectorVisibility.allFlags, 0, 0⟩⟩

/-- InterruptPolicy::contains: pointwise over the 256 vectors. -/
def InterruptPolicy.contains (a b : InterruptPolicy) : Bool :=
  (List.range NB_INTERRUPTS).all fun i =>
    (a.vectors.getD i VectorPolicy.fallback).contains (b.vectors.getD i VectorPolicy.fallback)

/-- InterruptPolicy::set (domain.rs).  The u8 cast of the Rust call
VectorVisibility::from_bits(value as u8) is the % 2 ^ 8. -/
def InterruptPolicy.set (self : InterruptPolicy) (tpe : FieldType) (field : Nat) (value : Nat) :
    Except CapaError InterruptPolicy :=
  if NB_INTERRUPTS ≤ field then .error CapaError.InvalidField
  else
    let old := self.vectors.getD field VectorPolicy.fallback
    match tpe with
    | .InterruptVisibility =>
      match VectorVisibility.from_bits (value % 2 ^ 8) with
      | none => .error CapaError.InvalidValue
      | some vis => .ok ⟨self.vectors.set field { old with visibility := vis }⟩
    | .InterruptRead => .ok ⟨self.vectors.set field { old with read_set := value }⟩
    | .InterruptWrite => .ok ⟨self.vectors.set field { old with write_set := value }⟩
    | _ => .error CapaError.InvalidField

/-- Policies (domain.rs). -/
structure Policies where
  cores : Nat
  api : MonitorAPI
  interrupts : InterruptPolicy
deriving DecidableEq, Repr

def Policies.new (cores : Nat) (api : MonitorAPI) (interrupts : InterruptPolicy) : Policies :=
  ⟨cores, api, interrupts⟩

/-- Modelled from the spec: is_core_subset is declared at the crate root,
which is missing from src/ (the lib.rs present is a stale revision; only the
two callers remain).  The spec describes the check as a cores-bitmask subset
(create requires cores to be a subset of the caller cores; I7 lists the
cores bitmask subset), so: every bit of child is also set in parent. -/
def is_core_subset (parent child : Nat) : Bool :=
  parent &&& child == child

/-- Policies::contains: is the other a subset of self. -/
def Policies.contains (self other : Policies) : Bool :=
  is_core_subset self.cores other.cores &&
  self.api.hasBits other.api &&
  self.interrupts.contains other.interrupts

/- ———————————————— core/domain.rs : handle table and Domain ———————————————— -/

/-- LocalCapa (domain.rs): a local handle. -/
abbrev LocalCapa := Nat

/-- CapaWrapper (domain.rs): a handle-table entry, a reference to a region
node or to a domain node.  CapaRef pointers are heap ids. -/
inductive CapaWrapper where
  | Region (id : Nat)
  | Domain (id : Nat)
deriving DecidableEq, Repr

def CapaWrapper.as_domain : CapaWrapper → Except CapaError Nat
  | .Domain d => .ok d
  | _ => .error CapaError.WrongCapaType

def CapaWrapper.as_region : CapaWrapper → Except CapaError Nat
  | .Region r => .ok r
  | _ => .error CapaError.WrongCapaType

/-- Insertion into a key-sorted association list: the model of
BTreeMap::insert.  Iteration order of the store is list order, which the
sorted insert keeps equal to ascending key order. -/
def btreeInsert (k : Nat) (v : CapaWrapper) :
    List (Nat × CapaWrapper) → List (Nat × CapaWrapper)
  | [] => [(k, v)]
  | (k0, v0) :: t =>
    if k < k0 then (k, v) :: (k0, v0) :: t
    else if k = k0 then (k, v) :: t
    else (k0, v0) :: btreeInsert k v t

/-- CapabilityStore (domain.rs): BTreeMap as a key-sorted association list,
free handles as a FIFO list whose head is the front of the VecDeque. -/
structure CapabilityStore where
  capabilities : List (Nat × CapaWrapper)
  next_handle : LocalCapa
  free_handles : List LocalCapa
deriving DecidableEq, Repr

def CapabilityStore.new : CapabilityStore :=
  ⟨[], 1, []⟩

/-- CapabilityStore::install_capability: reuse the oldest freed handle if
any, else take next_handle and bump it. -/
def CapabilityStore.install_capability (s : CapabilityStore) (cap : CapaWrapper) :
    LocalCapa × CapabilityStore :=
  match s.free_handles with
  | recycled :: rest =>
    (recycled, { s with capabilities := btreeInsert recycled cap s.capabilities,
                        free_handles := rest })
  | [] =>
    (s.next_handle, { s with capabilities := btreeInsert s.next_handle cap s.capabilities,
                             next_handle := s.next_handle + 1 })

/-- CapabilityStore::remove: push the handle on the free list and return the
entry, or InvalidLocalCapa. -/
def CapabilityStore.remove (s : CapabilityStore) (handle : LocalCapa) :
    Except CapaError (CapaWrapper × CapabilityStore) :=
  match s.capabilities.lookup handle with
  | some cap =>
    .ok (cap, { s with capabilities := s.capabilities.filter (fun p => p.1 ≠ handle),
                       free_handles := s.free_handles ++ [handle] })
  | none => .error CapaError.InvalidLocalCapa

/-- CapabilityStore::get. -/
def CapabilityStore.get (s : CapabilityStore) (handle : LocalCapa) :
    Except CapaError CapaWrapper :=
  match s.capabilities.lookup handle with
  | some cap => .ok cap
  | none => .error CapaError.InvalidLocalCapa

/-- CapabilityStore::reset. -/
def CapabilityStore.reset (s : CapabilityStore) : CapabilityStore :=
  CapabilityStore.new

/-- The region ids installed in the store, in table iteration order; the
basis of foreach_region_mut (domain.rs) and of the view computations. -/
def CapabilityStore.regionIds (s : CapabilityStore) : List Nat :=
  s.capabilities.filterMap fun p =>
    match p.2 with
    | .Region r => some r
    | _ => none

/-- Domain (domain.rs).  The id comes from the global NEXT_ID counter,
threaded through the engine state. -/
structure DomainData where
  id : Nat
  status : DStatus
  capabilities : CapabilityStore
  policies : Policies
deriving DecidableEq, Repr

def DomainData.is_sealed (d : DomainData) : Bool :=
  d.status == DStatus.Sealed

/-- Domain::operation_allowed: the api policy has the bit of the call. -/
def DomainData.operation_allowed (d : DomainData) (apicall : MonitorAPI) : Bool :=
  d.policies.api.hasBits apicall

/-- Domain::is_domain. -/
def DomainData.is_domain (d : DomainData) (capa : LocalCapa) : Except CapaError Bool :=
  match d.capabilities.get capa with
  | .ok (.Domain _) => .ok true
  | .ok _ => .ok false
  | .error e => .error e

/-- Domain::set_policy (domain.rs). The Api arm casts value to u16 before
from_bits, hence the % 2 ^ 16; Cores stores value as u64 unchanged. -/
def DomainData.set_policy (d : DomainData) (tpe : FieldType) (field : Nat) (value : Nat) :
    Except CapaError DomainData :=
  if d.is_sealed then .error CapaError.DomainSealed
  else
    match tpe with
    | .Register => .error CapaError.InvalidField
    | .Cores => .ok { d with policies := { d.policies with cores := value } }
    | .Api =>
      match MonitorAPI.from_bits (value % 2 ^ 16) with
      | none => .error CapaError.InvalidValue
      | some m => .ok { d with policies := { d.policies with api := m } }
    | .InterruptVisibility | .InterruptRead | .InterruptWrite =>
      match d.policies.interrupts.set tpe field value with
      | .error e => .error e
      | .ok ip => .ok { d with policies := { d.policies with interrupts := ip } }

/-- Domain::get_policy (domain.rs). -/
def DomainData.get_policy (d : DomainData) (tpe : FieldType) (field : Nat) :
    Except CapaError Nat :=
  match tpe with
  | .Register => .error CapaError.InvalidField
  | .Api => .ok d.policies.api
  | .Cores => .ok d.policies.cores
  | .InterruptWrite =>
    if NB_INTERRUPTS ≤ field then .error CapaError.InvalidField
    else .ok (d.policies.interrupts.vectors.getD field VectorPolicy.fallback).write_set
  | .InterruptRead =>
    if NB_INTERRUPTS ≤ field then .error CapaError.InvalidField
    else .ok (d.policies.interrupts.vectors.getD field VectorPolicy.fallback).read_set
  | .InterruptVisibility =>
    if NB_INTERRUPTS ≤ field then .error CapaError.InvalidField
    else .ok (d.policies.interrupts.vectors.getD field VectorPolicy.fallback).visibility.bits

/- ———————————— a stable sort that the kernel can evaluate ———————————— -/

/-- Insert x after every element y with le y x (so after equal keys):
the insertion step of a stable insertion sort. -/
def insertSorted {α : Type} (le : α → α → Bool) (x : α) : List α → List α
  | [] => [x]
  | y :: t => if le y x then y :: insertSorted le x t else x :: y :: t

/-- A stable sort by a boolean comparator, processing the input left to
right; models the stable Rust slice sorts (sort_by, sort_by_key).  It is
structurally recursive so that concrete states evaluate inside proofs. -/
def stableSort {α : Type} (le : α → α → Bool) (l : List α) : List α :=
  l.foldl (fun acc x => insertSorted le x acc) []

/- ———————————— capability.rs : region-node algebra (pure part) ———————————— -/

/-- Capability::<MemoryRegion>::contained (capability.rs), phrased on the
node payload plus the payloads of its children: the access is inside the
node and intersects no carve child, nor any alias child when strict. -/
def regionContained (self : MemoryRegion) (children : List MemoryRegion)
    (access : Access) (strict : Bool) : Bool :=
  if !(access.contained self.access) then false
  else children.all fun c =>
    if !strict && c.kind == RegionKind.Alias then true
    else !(c.access.intersect access)

/-- The child payload alias_carve_logic builds (capability.rs): remap
shifted per the parent remap, status Aliased for an alias and inherited for
a carve, empty attributes. -/
def aliasCarveChild (self : MemoryRegion) (access : Access) (kind_op : RegionKind) :
    MemoryRegion :=
  { kind := kind_op
    status := if kind_op == RegionKind.Alias then RStatus.Aliased else self.status
    access := access
    attributes := Attributes.NONE
    remapped :=
      match self.remapped with
      | .Identity => Remapped.Identity
      | .Remapped s => Remapped.Remapped (s + (access.start - self.access.start)) }

/-- Capability::<MemoryRegion>::view (capability.rs), phrased on the node
payload plus the payloads of its children.  Children are sorted by start
(stable, as Rust sort_by); aliases are skipped; each carve closes the
pending segment and the tail is emitted last. -/
def regionView (self : MemoryRegion) (children : List MemoryRegion) : List ViewRegion :=
  let base := self.access.start
  let sorted := stableSort (fun a b => decide (a.access.start ≤ b.access.start)) children
  let step := fun (acc : Nat × List ViewRegion) (c : MemoryRegion) =>
    let start := acc.1
    let views := acc.2
    if c.kind == RegionKind.Alias then (start, views)
    else if decide (start ≤ c.access.start) then
      let r := match self.remapped with
        | .Identity => Remapped.Identity
        | .Remapped x => Remapped.Remapped (x + (start - base))
      let views := if c.access.start ≠ start then
          views ++ [ViewRegion.new (Access.new start (c.access.start - start) self.access.rights) r]
        else views
      (c.access.end_addr, views)
    else (start, views)
  let fin := sorted.foldl step (self.access.start, [])
  if fin.1 < self.access.end_addr then
    let r := match self.remapped with
      | .Identity => Remapped.Identity
      | .Remapped x => Remapped.Remapped (x + (fin.1 - base))
    fin.2 ++ [ViewRegion.new (Access.new fin.1 (self.access.end_addr - fin.1) self.access.rights) r]
  else fin.2

/-- Capability::<MemoryRegion>::view_raw: a single view for the full node. -/
def regionViewRaw (self : MemoryRegion) : List ViewRegion :=
  [ViewRegion.new self.access self.remapped]

/- ———————————————— engine heap : nodes and state ———————————————— -/

/-- A region capability node (Capability<MemoryRegion> behind Rc/RefCell):
payload, Ownership (owner weak-ref + handle), parent weak-ref, children. -/
structure RegionNode where
  data : MemoryRegion
  ownerDom : Option Nat
  ownerHandle : LocalCapa
  parent : Option Nat
  children : List Nat
deriving DecidableEq, Repr

/-- A domain capability node (Capability<Domain> behind Rc/RefCell). -/
structure DomNode where
  data : DomainData
  ownerDom : Option Nat
  ownerHandle : LocalCapa
  parent : Option Nat
  children : List Nat
deriving DecidableEq, Repr

/-- The whole engine state: both heaps, the heap-id allocator (models Rc
allocation; nodes are never removed, a dropped node merely becomes
unreachable), the global NEXT_ID domain-id counter, and the root domain. -/
structure EngineState where
  regions : List (Nat × RegionNode)
  doms : List (Nat × DomNode)
  nextNode : Nat
  nextDomainId : Nat
  root : Nat
deriving DecidableEq, Repr

def EngineState.getR (s : EngineState) (id : Nat) : Option RegionNode :=
  s.regions.lookup id

def EngineState.getD (s : EngineState) (id : Nat) : Option DomNode :=
  s.doms.lookup id

/-- Replace the value stored at a key of a heap. -/
def hset {α : Type} (k : Nat) (v : α) (l : List (Nat × α)) : List (Nat × α) :=
  l.map fun p => if p.1 = k then (k, v) else p

def EngineState.setR (s : EngineState) (id : Nat) (n : RegionNode) : EngineState :=
  { s with regions := hset id n s.regions }

def EngineState.setD (s : EngineState) (id : Nat) (n : DomNode) : EngineState :=
  { s with doms := hset id n s.doms }

/-- Mutation through a held CapaRef: the borrow (node present) cannot fail
in Rust, so a missing id leaves the state unchanged. -/
def EngineState.modifyR (s : EngineState) (id : Nat) (f : RegionNode → RegionNode) :
    EngineState :=
  match s.getR id with
  | some n => s.setR id (f n)
  | none => s

def EngineState.modifyD (s : EngineState) (id : Nat) (f : DomNode → DomNode) :
    EngineState :=
  match s.getD id with
  | some n => s.setD id (f n)
  | none => s

/-- The payloads of the children of a region node, for the node-local
algebra (contained, view). -/
def EngineState.childData (s : EngineState) (n : RegionNode) : List MemoryRegion :=
  n.children.filterMap fun c => (s.getR c).map (·.data)

/- ———————————— capability.rs : region ops on the heap ———————————— -/

/-- Capability::<MemoryRegion>::alias_carve_logic (capability.rs): check
containment (strict for a carve), build the child payload, allocate the
node (Capability::new + Rc::new: empty ownership, no parent, no children),
and add_child with Weak::new() (push to children, owned stays empty). -/
def capAliasCarveLogic (s : EngineState) (rid : Nat) (access : Access)
    (kind_op : RegionKind) : EngineState × Except CapaError Nat :=
  match s.getR rid with
  | none => (s, .error CapaError.CapaNotOwned)
  | some node =>
    if !(regionContained node.data (s.childData node) access (kind_op == RegionKind.Carve)) then
      (s, .error CapaError.InvalidAccess)
    else
      let region := aliasCarveChild node.data access kind_op
      let newId := s.nextNode
      let child : RegionNode := ⟨region, none, 0, none, []⟩
      let s1 := { s with regions := s.regions ++ [(newId, child)], nextNode := newId + 1 }
      let s2 := s1.modifyR rid fun n => { n with children := n.children ++ [newId] }
      (s2, .ok newId)

/-- Capability::<MemoryRegion>::alias. -/
def capAlias (s : EngineState) (rid : Nat) (access : Access) :
    EngineState × Except CapaError Nat :=
  capAliasCarveLogic s rid access RegionKind.Alias

/-- Capability::<MemoryRegion>::carve. -/
def capCarve (s : EngineState) (rid : Nat) (access : Access) :
    EngineState × Except CapaError Nat :=
  capAliasCarveLogic s rid access RegionKind.Carve

/-- Capability::<MemoryRegion>::view on a heap node id.  A dangling id
yields the empty view; it cannot occur, the table holds the Rc alive. -/
def EngineState.regionViewAt (s : EngineState) (rid : Nat) : List ViewRegion :=
  match s.getR rid with
  | some n => regionView n.data (s.childData n)
  | none => []

def EngineState.regionViewRawAt (s : EngineState) (rid : Nat) : List ViewRegion :=
  match s.getR rid with
  | some n => regionViewRaw n.data
  | none => []

/- ———————————— capability.rs : domain view and conflict check ———————————— -/

/-- Capability::<Domain>::view (capability.rs): the views of every region
in the handle table, sorted by physical start, then coalesced. -/
def domView (fuel : Nat) (s : EngineState) (domId : Nat) :
    Except RunErr (List ViewRegion) :=
  match s.getD domId with
  | none => .error (RunErr.capa CapaError.CapaNotOwned)
  | some dn =>
    let regions := (dn.data.capabilities.regionIds.map (s.regionViewAt ·)).flatten
    let sorted := stableSort (fun a b => decide (a.access.start ≤ b.access.start)) regions
    coalesceLoop fuel 0 sorted

/-- Capability::<Domain>::gva_view_raw: raw views sorted by active start. -/
def gvaViewRaw (s : EngineState) (domId : Nat) : List ViewRegion :=
  match s.getD domId with
  | none => []
  | some dn =>
    let regions := (dn.data.capabilities.regionIds.map (s.regionViewRawAt ·)).flatten
    stableSort (fun a b => decide (a.active_start ≤ b.active_start)) regions

/-- Capability::<Domain>::check_conflict: every raw view of the domain must
be compatible with the incoming view. -/
def checkConflict (s : EngineState) (domId : Nat) (view : ViewRegion) :
    Except CapaError Unit :=
  if (gvaViewRaw s domId).all (fun r => r.compatible view) then .ok ()
  else .error CapaError.IncompatibleRemap

/- ———————————— core/update.rs : OperationUpdate ———————————— -/

/-- OperationUpdate (update.rs).  to_clean keeps the Clean records;
to_change is the WeakKey hash-set of affected domains, kept here as an
insertion-ordered duplicate-free list of weak refs (to_revoke is never
written by add, both the Revoke and the ChangeMemory arms target to_change,
so it is omitted); snap holds the pre-mutation coalesced views. -/
structure OperationUpdate where
  to_clean : List (Nat × Nat)
  to_change : List (Option Nat)
  snap : List (Option Nat × List ViewRegion)
deriving DecidableEq, Repr

def OperationUpdate.new : OperationUpdate := ⟨[], [], []⟩

/-- Hash-set insertion for WeakKey refs. -/
def insertKey (k : Option Nat) (l : List (Option Nat)) : List (Option Nat) :=
  if k ∈ l then l else l ++ [k]

/-- OperationUpdate::add with Update::Clean. -/
def OperationUpdate.addClean (u : OperationUpdate) (start size : Nat) : OperationUpdate :=
  { u with to_clean := u.to_clean ++ [(start, size)] }

/-- OperationUpdate::add with Update::Revoke: the code inserts the weak key
into to_change (remove-then-insert on the hash set). -/
def OperationUpdate.addRevoke (u : OperationUpdate) (k : Option Nat) : OperationUpdate :=
  { u with to_change := insertKey k u.to_change }

/-- OperationUpdate::add with Update::ChangeMemory: inserted into to_change
(the to_revoke guard is vacuous, to_revoke is always empty). -/
def OperationUpdate.addChange (u : OperationUpdate) (k : Option Nat) : OperationUpdate :=
  { u with to_change := insertKey k u.to_change }

/-- OperationUpdate::snapshot (update.rs): compute the view of every domain
in to_change that still upgrades; the CoalescedView regrouping of the
region list cannot fail, every error comes from view itself. -/
def snapshotGo (fuel : Nat) (s : EngineState) (u : OperationUpdate) :
    List (Option Nat) → Except RunErr OperationUpdate
  | [] => .ok u
  | k :: rest =>
    match k with
    | none => snapshotGo fuel s u rest
    | some id =>
      match s.getD id with
      | none => snapshotGo fuel s u rest
      | some _ =>
        match domView fuel s id with
        | .error e => .error e
        | .ok v => snapshotGo fuel s { u with snap := u.snap ++ [(some id, v)] } rest

def OperationUpdate.snapshot (u : OperationUpdate) (fuel : Nat) (s : EngineState) :
    Except RunErr OperationUpdate :=
  snapshotGo fuel s u u.to_change

/-- OperationUpdate::compute (update.rs): the body is commented out, the
function returns Ok(()). -/
def OperationUpdate.compute (u : OperationUpdate) : Except RunErr Unit :=
  .ok ()

/- ———————————— capability.rs : revocation walkers ———————————— -/

/-- Capability::<MemoryRegion>::on_revoke (capability.rs): the read-only dfs
that collects updates.  Per node: Revoke{owner} when VITAL, Clean when
CLEAN, always ChangeMemory{owner}, and for a carve ChangeMemory of the
parent owner (InvalidValue when the parent weak-ref does not upgrade).
The dfs over the children is the error-absorbing fold of the recursion. -/
def regionOnRevoke (fuel : Nat) (s : EngineState) (rid : Nat) (u : OperationUpdate) :
    Except RunErr OperationUpdate :=
  match fuel with
  | 0 => .error RunErr.fuelOut
  | f + 1 =>
    match s.getR rid with
    | none => .error (RunErr.capa CapaError.CapaNotOwned)
    | some n =>
      let u := if n.data.attributes.vital then u.addRevoke n.ownerDom else u
      let u := if n.data.attributes.clean then
          u.addClean n.data.access.start n.data.access.size
        else u
      let u := u.addChange n.ownerDom
      let step : Except RunErr OperationUpdate :=
        if n.data.kind == RegionKind.Carve then
          match n.parent with
          | some p =>
            match s.getR p with
            | some pn => .ok (u.addChange pn.ownerDom)
            | none => .error (RunErr.capa CapaError.InvalidValue)
          | none => .error (RunErr.capa CapaError.InvalidValue)
        else .ok u
      match step with
      | .error e => .error e
      | .ok u =>
        n.children.foldl
          (fun acc c =>
            match acc with
            | .error e => .error e
            | .ok u1 => regionOnRevoke f s c u1)
          (.ok u)

/-- Modelled from the spec: CapabilityStore::foreach_region is called by
Capability::<Domain>::on_revoke_child but is absent from src/ (only
foreach_region_mut remains); the spec describes the visitor as running the
per-region on_revoke for each region owned by the domain, so it is modelled
as the in-order iteration of the region entries of the table. -/
def collectDomRegions (fuel : Nat) (s : EngineState) (u : OperationUpdate) :
    List Nat → Except RunErr OperationUpdate
  | [] => .ok u
  | r :: rest =>
    match regionOnRevoke fuel s r u with
    | .error e => .error e
    | .ok u1 => collectDomRegions fuel s u1 rest

/-- The visitor dfs of Capability::<Domain>::on_revoke_child: per domain
node, a Revoke for each child, then on_revoke of each owned region; the
recursion over the children is the error-absorbing fold. -/
def domCollect (fuel : Nat) (s : EngineState) (nid : Nat) (u : OperationUpdate) :
    Except RunErr OperationUpdate :=
  match fuel with
  | 0 => .error RunErr.fuelOut
  | f + 1 =>
    match s.getD nid with
    | none => .error (RunErr.capa CapaError.CapaNotOwned)
    | some n =>
      let u := n.children.foldl (fun u c => u.addRevoke (some c)) u
      match collectDomRegions f s u n.data.capabilities.regionIds with
      | .error e => .error e
      | .ok u1 =>
        n.children.foldl
          (fun acc c =>
            match acc with
            | .error e => .error e
            | .ok u2 => domCollect f s c u2)
          (.ok u1)

/-- Capability::<Domain>::on_revoke_child (capability.rs): Revoke for the
child itself, then the visitor dfs over its subtree. -/
def onRevokeChild (fuel : Nat) (s : EngineState) (childId : Nat) :
    Except RunErr OperationUpdate :=
  domCollect fuel s childId (OperationUpdate.new.addRevoke (some childId))

/-- revoke_all (capability.rs) with the trivial on_revoke handler used on
the domain path of Engine::revoke: clear each child parent back-ref,
recurse (the loop over the children is the error-absorbing fold), then
empty the children list. -/
def regionRevokeAllNoop (fuel : Nat) (s : EngineState) (rid : Nat) :
    EngineState × Except RunErr Unit :=
  match fuel with
  | 0 => (s, .error RunErr.fuelOut)
  | f + 1 =>
    match s.getR rid with
    | none => (s, .error (RunErr.capa CapaError.CapaNotOwned))
    | some n =>
      match n.children.foldl
          (fun (acc : EngineState × Except RunErr Unit) c =>
            match acc with
            | (s1, Except.error e) => (s1, Except.error e)
            | (s1, Except.ok _) =>
              regionRevokeAllNoop f (s1.modifyR c fun m => { m with parent := none }) c)
          (s, .ok ()) with
      | (s1, .error e) => (s1, .error e)
      | (s1, .ok _) =>
        let s2 := s1.modifyR rid fun m => { m with children := [] }
        (s2, .ok ())

/-- The loop of that revoke_all over a child list (the same fold, named for
the proofs). -/
def regionRevokeAllNoopList (fuel : Nat) (s : EngineState) (l : List Nat) :
    EngineState × Except RunErr Unit :=
  l.foldl
    (fun (acc : EngineState × Except RunErr Unit) c =>
      match acc with
      | (s1, Except.error e) => (s1, Except.error e)
      | (s1, Except.ok _) =>
        regionRevokeAllNoop fuel (s1.modifyR c fun m => { m with parent := none }) c)
    (s, .ok ())

/-- Capability::<MemoryRegion>::revoke_node with the trivial handler
(domain path of Engine::revoke): upgrade the parent (else
RevokeOnRootCapa), then parent.revoke_child(node): locate by pointer
identity (ChildNotFound when absent), detach, clear the back-ref, revoke
the subtree. -/
def regionRevokeNodeNoop (fuel : Nat) (s : EngineState) (rid : Nat) :
    EngineState × Except RunErr Unit :=
  match s.getR rid with
  | none => (s, .error (RunErr.capa CapaError.CapaNotOwned))
  | some n =>
    match n.parent with
    | none => (s, .error (RunErr.capa CapaError.RevokeOnRootCapa))
    | some p =>
      match s.getR p with
      | none => (s, .error (RunErr.capa CapaError.RevokeOnRootCapa))
      | some pn =>
        if rid ∈ pn.children then
          let s1 := s.setR p { pn with children := pn.children.erase rid }
          let s2 := s1.modifyR rid fun m => { m with parent := none }
          regionRevokeAllNoop fuel s2 rid
        else (s, .error (RunErr.capa CapaError.ChildNotFound))

/-- The sequential revoke_node calls of foreach_region_mut inside the
domain-path revocation handler (engine.rs). -/
def revokeHandlerRegions (fuel : Nat) (s : EngineState) :
    List Nat → EngineState × Except RunErr Unit
  | [] => (s, .ok ())
  | r :: rest =>
    match regionRevokeNodeNoop fuel s r with
    | (s1, .error e) => (s1, .error e)
    | (s1, .ok _) => revokeHandlerRegions fuel s1 rest

/-- The revocation handler of the domain path of Engine::revoke
(engine.rs): mark the domain Revoked, revoke_node each owned region, reset
the handle table, then update.compute() which returns Ok. -/
def revokeDomHandler (fuel : Nat) (s : EngineState) (nid : Nat) :
    EngineState × Except RunErr Unit :=
  let s1 := s.modifyD nid fun n => { n with data := { n.data with status := DStatus.Revoked } }
  let rids := match s1.getD nid with
    | some n => n.data.capabilities.regionIds
    | none => []
  match revokeHandlerRegions fuel s1 rids with
  | (s2, .error e) => (s2, .error e)
  | (s2, .ok _) =>
    let s3 := s2.modifyD nid fun n =>
      { n with data := { n.data with capabilities := CapabilityStore.new } }
    (s3, .ok ())

/-- Capability::<Domain>::revoke_all (capability.rs) instantiated with the
domain-path handler: clear each child parent back-ref, recurse (the loop
over the children is the error-absorbing fold), empty the children list,
then run the handler on this node. -/
def revokeAllDoms (fuel : Nat) (s : EngineState) (nid : Nat) :
    EngineState × Except RunErr Unit :=
  match fuel with
  | 0 => (s, .error RunErr.fuelOut)
  | f + 1 =>
    match s.getD nid with
    | none => (s, .error (RunErr.capa CapaError.CapaNotOwned))
    | some n =>
      match n.children.foldl
          (fun (acc : EngineState × Except RunErr Unit) c =>
            match acc with
            | (s1, Except.error e) => (s1, Except.error e)
            | (s1, Except.ok _) =>
              revokeAllDoms f (s1.modifyD c fun m => { m with parent := none }) c)
          (s, .ok ()) with
      | (s1, .error e) => (s1, .error e)
      | (s1, .ok _) =>
        let s2 := s1.modifyD nid fun m => { m with children := [] }
        revokeDomHandler f s2 nid

/-- The loop of that revoke_all over a child list (the same fold, named for
the proofs). -/
def revokeAllDomsList (fuel : Nat) (s : EngineState) (l : List Nat) :
    EngineState × Except RunErr Unit :=
  l.foldl
    (fun (acc : EngineState × Except RunErr Unit) c =>
      match acc with
      | (s1, Except.error e) => (s1, Except.error e)
      | (s1, Except.ok _) =>
        revokeAllDoms fuel (s1.modifyD c fun m => { m with parent := none }) c)
    (s, .ok ())

/-- Engine::revoke_region_handler (engine.rs): upgrade the owner weak-ref
(CapaNotOwned on failure) and remove the node handle from its table. -/
def revokeRegionHandler (s : EngineState) (rid : Nat) :
    EngineState × Except RunErr Unit :=
  match s.getR rid with
  | none => (s, .error (RunErr.capa CapaError.CapaNotOwned))
  | some n =>
    match n.ownerDom with
    | none => (s, .error (RunErr.capa CapaError.CapaNotOwned))
    | some o =>
      match s.getD o with
      | none => (s, .error (RunErr.capa CapaError.CapaNotOwned))
      | some dn =>
        match dn.data.capabilities.remove n.ownerHandle with
        | .error e => (s, .error (RunErr.capa e))
        | .ok (_, st) =>
          (s.setD o { dn with data := { dn.data with capabilities := st } }, .ok ())

mutual

/-- Capability::<MemoryRegion>::revoke_all instantiated with
Engine::revoke_region_handler (region path of Engine::revoke). -/
def regionRevokeAllHandler (fuel : Nat) (s : EngineState) (rid : Nat) :
    EngineState × Except RunErr Unit :=
  match fuel with
  | 0 => (s, .error RunErr.fuelOut)
  | f + 1 =>
    match s.getR rid with
    | none => (s, .error (RunErr.capa CapaError.CapaNotOwned))
    | some n =>
      match regionRevokeAllHandlerList f s n.children with
      | (s1, .error e) => (s1, .error e)
      | (s1, .ok _) =>
        let s2 := s1.modifyR rid fun m => { m with children := [] }
        revokeRegionHandler s2 rid
termination_by (fuel, 0)

/-- The loop of that revoke_all over the region children. -/
def regionRevokeAllHandlerList (fuel : Nat) (s : EngineState) (l : List Nat) :
    EngineState × Except RunErr Unit :=
  match l with
  | [] => (s, .ok ())
  | c :: rest =>
    let s0 := s.modifyR c fun m => { m with parent := none }
    match regionRevokeAllHandler fuel s0 c with
    | (s1, .error e) => (s1, .error e)
    | (s1, .ok _) => regionRevokeAllHandlerList fuel s1 rest
termination_by (fuel, l.length + 1)

end

/-- Capability::<MemoryRegion>::revoke_child with
Engine::revoke_region_handler (region path of Engine::revoke): locate the
child by pointer identity, detach it, clear its parent back-ref, then
revoke_all its subtree. -/
def regionRevokeChildHandler (fuel : Nat) (s : EngineState) (rid childId : Nat) :
    EngineState × Except RunErr Unit :=
  match s.getR rid with
  | none => (s, .error (RunErr.capa CapaError.CapaNotOwned))
  | some pn =>
    if childId ∈ pn.children then
      let s1 := s.setR rid { pn with children := pn.children.erase childId }
      let s2 := s1.modifyR childId fun m => { m with parent := none }
      regionRevokeAllHandler fuel s2 childId
    else (s, .error (RunErr.capa CapaError.ChildNotFound))

/- ———————————— server/engine.rs : the engine facade ———————————— -/

/-- Engine::is_sealed_and_allowed: caller Sealed and api bit present. -/
def isSealedAndAllowed (s : EngineState) (domId : Nat) (call : MonitorAPI) :
    Except CapaError Unit :=
  match s.getD domId with
  | none => .error CapaError.CapaNotOwned
  | some dn =>
    if dn.data.status ≠ DStatus.Sealed then .error CapaError.DomainUnsealed
    else if !dn.data.operation_allowed call then .error CapaError.CallNotAllowed
    else .ok ()

/-- Engine::new (engine.rs): a Sealed root domain with all cores up to
nb_cores, the full api mask, and default_all interrupts.  The root takes
domain id 0 (the first NEXT_ID) and heap id 0. -/
def engineNew (nb_cores : Nat) : EngineState :=
  let rootData : DomainData :=
    { id := 0
      status := DStatus.Sealed
      capabilities := CapabilityStore.new
      policies := Policies.new (2 ^ nb_cores - 1) MonitorAPI.all InterruptPolicy.default_all }
  { regions := []
    doms := [(0, ⟨rootData, none, 0, none, []⟩)]
    nextNode := 1
    nextDomainId := 1
    root := 0 }

/-- Engine::add_root_region (engine.rs), together with the caller-side
Capability::<MemoryRegion>::new + Rc::new that builds the node: allocate a
fresh root region node, install it in the domain table, and point its
Ownership at the domain and handle. -/
def addRootRegion (s : EngineState) (domId : Nat) (region : MemoryRegion) :
    EngineState × Except RunErr LocalCapa :=
  let rid := s.nextNode
  let node : RegionNode := ⟨region, none, 0, none, []⟩
  let s1 := { s with regions := s.regions ++ [(rid, node)], nextNode := rid + 1 }
  match s1.getD domId with
  | none => (s1, .error (RunErr.capa CapaError.CapaNotOwned))
  | some dn =>
    let hs := dn.data.capabilities.install_capability (CapaWrapper.Region rid)
    let s2 := s1.setD domId { dn with data := { dn.data with capabilities := hs.2 } }
    let s3 := s2.modifyR rid fun n => { n with ownerDom := some domId, ownerHandle := hs.1 }
    (s3, .ok hs.1)

/-- Engine::create (engine.rs): gate, cores subset check, new Unsealed
child domain; add_child sets the child Ownership to (caller, 0) and pushes
it on the caller children, then the handle is installed. -/
def engineCreate (s : EngineState) (callerId : Nat) (cores : Nat) (api : MonitorAPI)
    (interrupts : InterruptPolicy) : EngineState × Except RunErr LocalCapa :=
  match isSealedAndAllowed s callerId MonitorAPI.CREATE with
  | .error e => (s, .error (RunErr.capa e))
  | .ok _ =>
    match s.getD callerId with
    | none => (s, .error (RunErr.capa CapaError.CapaNotOwned))
    | some dn =>
      if !(is_core_subset dn.data.policies.cores cores) then
        (s, .error (RunErr.capa CapaError.InsufficientRights))
      else
        let childData : DomainData :=
          { id := s.nextDomainId
            status := DStatus.Unsealed
            capabilities := CapabilityStore.new
            policies := Policies.new cores api interrupts }
        let newId := s.nextNode
        let node : DomNode := ⟨childData, some callerId, 0, none, []⟩
        let s1 := { s with doms := s.doms ++ [(newId, node)],
                           nextNode := newId + 1,
                           nextDomainId := s.nextDomainId + 1 }
        match s1.getD callerId with
        | none => (s1, .error (RunErr.capa CapaError.CapaNotOwned))
        | some dn1 =>
          let withChild := { dn1 with children := dn1.children ++ [newId] }
          let hs := withChild.data.capabilities.install_capability (CapaWrapper.Domain newId)
          let s2 := s1.setD callerId
            { withChild with data := { withChild.data with capabilities := hs.2 } }
          (s2, .ok hs.1)

/-- Engine::seal (engine.rs): gate, child policies must be contained in the
caller policies (I7), then Capability::<Domain>::seal: the child must be a
Domain and not already Sealed; transition it to Sealed. -/
def engineSeal (s : EngineState) (callerId : Nat) (child : LocalCapa) :
    EngineState × Except RunErr Unit :=
  match isSealedAndAllowed s callerId MonitorAPI.SEAL with
  | .error e => (s, .error (RunErr.capa e))
  | .ok _ =>
    match s.getD callerId with
    | none => (s, .error (RunErr.capa CapaError.CapaNotOwned))
    | some dn =>
      match dn.data.capabilities.get child with
      | .error e => (s, .error (RunErr.capa e))
      | .ok w =>
        match w.as_domain with
        | .error e => (s, .error (RunErr.capa e))
        | .ok childId =>
          match s.getD childId with
          | none => (s, .error (RunErr.capa CapaError.CapaNotOwned))
          | some cn =>
            if !(dn.data.policies.contains cn.data.policies) then
              (s, .error (RunErr.capa CapaError.InsufficientRights))
            else
              -- Capability::<Domain>::seal on the caller node.
              if !(dn.data.operation_allowed MonitorAPI.SEAL) then
                (s, .error (RunErr.capa CapaError.CallNotAllowed))
              else
                match dn.data.is_domain child with
                | .error e => (s, .error (RunErr.capa e))
                | .ok isDom =>
                  if !isDom then (s, .error (RunErr.capa CapaError.WrongCapaType))
                  else if cn.data.is_sealed then
                    (s, .error (RunErr.capa CapaError.DomainSealed))
                  else
                    (s.setD childId
                      { cn with data := { cn.data with status := DStatus.Sealed } },
                     .ok ())

/-- Engine::alias (engine.rs): gate, resolve the region handle, run the
node-level alias, install the new node, set its parent and Ownership. -/
def engineAlias (s : EngineState) (callerId : Nat) (capa : LocalCapa) (access : Access) :
    EngineState × Except RunErr LocalCapa :=
  match isSealedAndAllowed s callerId MonitorAPI.ALIAS with
  | .error e => (s, .error (RunErr.capa e))
  | .ok _ =>
    match s.getD callerId with
    | none => (s, .error (RunErr.capa CapaError.CapaNotOwned))
    | some dn =>
      match dn.data.capabilities.get capa with
      | .error e => (s, .error (RunErr.capa e))
      | .ok w =>
        match w.as_region with
        | .error e => (s, .error (RunErr.capa e))
        | .ok rid =>
          match capAlias s rid access with
          | (s1, .error e) => (s1, .error (RunErr.capa e))
          | (s1, .ok newId) =>
            match s1.getD callerId with
            | none => (s1, .error (RunErr.capa CapaError.CapaNotOwned))
            | some dn1 =>
              let hs := dn1.data.capabilities.install_capability (CapaWrapper.Region newId)
              let s2 := s1.setD callerId
                { dn1 with data := { dn1.data with capabilities := hs.2 } }
              let s3 := s2.modifyR newId fun n =>
                { n with parent := some rid, ownerDom := some callerId, ownerHandle := hs.1 }
              (s3, .ok hs.1)

/-- Engine::carve (engine.rs): gate, resolve the region handle; when the
carve shrinks rights a ChangeMemory{caller} update is queued, so the
snapshot then computes the caller view; carve the node, install it, set
parent and Ownership, compute. -/
def engineCarve (fuel : Nat) (s : EngineState) (callerId : Nat) (capa : LocalCapa)
    (access : Access) : EngineState × Except RunErr LocalCapa :=
  match isSealedAndAllowed s callerId MonitorAPI.CARVE with
  | .error e => (s, .error (RunErr.capa e))
  | .ok _ =>
    match s.getD callerId with
    | none => (s, .error (RunErr.capa CapaError.CapaNotOwned))
    | some dn =>
      match dn.data.capabilities.get capa with
      | .error e => (s, .error (RunErr.capa e))
      | .ok w =>
        match w.as_region with
        | .error e => (s, .error (RunErr.capa e))
        | .ok rid =>
          match s.getR rid with
          | none => (s, .error (RunErr.capa CapaError.CapaNotOwned))
          | some rn =>
            let u := OperationUpdate.new
            let u := if rn.data.access.rights ≠ access.rights then
                u.addChange (some callerId)
              else u
            match u.snapshot fuel s with
            | .error e => (s, .error e)
            | .ok _ =>
              match capCarve s rid access with
              | (s1, .error e) => (s1, .error (RunErr.capa e))
              | (s1, .ok newId) =>
                match s1.getD callerId with
                | none => (s1, .error (RunErr.capa CapaError.CapaNotOwned))
                | some dn1 =>
                  let hs := dn1.data.capabilities.install_capability (CapaWrapper.Region newId)
                  let s2 := s1.setD callerId
                    { dn1 with data := { dn1.data with capabilities := hs.2 } }
                  let s3 := s2.modifyR newId fun n =>
                    { n with parent := some rid, ownerDom := some callerId,
                             ownerHandle := hs.1 }
                  (s3, .ok hs.1)

/-- Engine::send (engine.rs): gate; a Sealed destination must allow RECEIVE
and the attributes must be empty; the region must not already carry
VITAL or CLEAN; the prospective view must pass check_conflict; snapshot;
then remove the handle from the caller, apply remap and attributes, install
into the destination and re-point the Ownership. -/
def engineSend (fuel : Nat) (s : EngineState) (callerId : Nat) (dest : LocalCapa)
    (capa : LocalCapa) (remap : Remapped) (attributes : Attributes) :
    EngineState × Except RunErr Unit :=
  match isSealedAndAllowed s callerId MonitorAPI.SEND with
  | .error e => (s, .error (RunErr.capa e))
  | .ok _ =>
    match s.getD callerId with
    | none => (s, .error (RunErr.capa CapaError.CapaNotOwned))
    | some dn =>
      match dn.data.capabilities.get dest with
      | .error e => (s, .error (RunErr.capa e))
      | .ok w =>
        match w.as_domain with
        | .error e => (s, .error (RunErr.capa e))
        | .ok destId =>
          match s.getD destId with
          | none => (s, .error (RunErr.capa CapaError.CapaNotOwned))
          | some destN =>
            if destN.data.is_sealed &&
               (!(destN.data.operation_allowed MonitorAPI.RECEIVE) ||
                !attributes.is_empty) then
              (s, .error (RunErr.capa CapaError.CallNotAllowed))
            else
              match dn.data.capabilities.get capa with
              | .error e => (s, .error (RunErr.capa e))
              | .ok wr =>
                match wr.as_region with
                | .error e => (s, .error (RunErr.capa e))
                | .ok rid =>
                  match s.getR rid with
                  | none => (s, .error (RunErr.capa CapaError.CapaNotOwned))
                  | some rn =>
                    if rn.data.attributes.intersects Attributes.vital_clean then
                      (s, .error (RunErr.capa CapaError.InvalidAttributes))
                    else
                      match checkConflict s destId (ViewRegion.new rn.data.access remap) with
                      | .error e => (s, .error (RunErr.capa e))
                      | .ok _ =>
                        let u := OperationUpdate.new.addChange (some callerId)
                        let u := if destN.data.is_sealed then u.addChange (some destId)
                                 else u
                        match u.snapshot fuel s with
                        | .error e => (s, .error e)
                        | .ok _ =>
                          match dn.data.capabilities.remove capa with
                          | .error e => (s, .error (RunErr.capa e))
                          | .ok (_, st) =>
                            let s1 := s.setD callerId
                              { dn with data := { dn.data with capabilities := st } }
                            let s2 := s1.modifyR rid fun n =>
                              { n with data := { n.data with remapped := remap,
                                                             attributes := attributes } }
                            match s2.getD destId with
                            | none => (s2, .error (RunErr.capa CapaError.CapaNotOwned))
                            | some destN1 =>
                              let hs := destN1.data.capabilities.install_capability
                                (CapaWrapper.Region rid)
                              let s3 := s2.setD destId
                                { destN1 with data :=
                                  { destN1.data with capabilities := hs.2 } }
                              let s4 := s3.modifyR rid fun n =>
                                { n with ownerDom := some destId, ownerHandle := hs.1 }
                              (s4, .ok ())

/-- Engine::revoke (engine.rs).  Domain path: collect updates over the
subtree (on_revoke_child), snapshot, mark the target Revoked, revoke_child
with the domain handler, and remove the handle from the caller table.
Region path: resolve the indexed child, collect its updates, snapshot, then
revoke_child with revoke_region_handler. -/
def engineRevoke (fuel : Nat) (s : EngineState) (callerId : Nat) (capa : LocalCapa)
    (child : Nat) : EngineState × Except RunErr Unit :=
  match isSealedAndAllowed s callerId MonitorAPI.REVOKE with
  | .error e => (s, .error (RunErr.capa e))
  | .ok _ =>
    match s.getD callerId with
    | none => (s, .error (RunErr.capa CapaError.CapaNotOwned))
    | some dn =>
      match dn.data.is_domain capa with
      | .error e => (s, .error (RunErr.capa e))
      | .ok isDom =>
        if isDom then
          match (dn.data.capabilities.get capa).bind CapaWrapper.as_domain with
          | .error e => (s, .error (RunErr.capa e))
          | .ok dId =>
            match onRevokeChild fuel s dId with
            | .error e => (s, .error e)
            | .ok u =>
              match u.snapshot fuel s with
              | .error e => (s, .error e)
              | .ok _ =>
                let s1 := s.modifyD dId fun n =>
                  { n with data := { n.data with status := DStatus.Revoked } }
                match s1.getD callerId with
                | none => (s1, .error (RunErr.capa CapaError.CapaNotOwned))
                | some dn1 =>
                  if dId ∈ dn1.children then
                    let s2 := s1.setD callerId
                      { dn1 with children := dn1.children.erase dId }
                    let s3 := s2.modifyD dId fun m => { m with parent := none }
                    match revokeAllDoms fuel s3 dId with
                    | (s4, .error e) => (s4, .error e)
                    | (s4, .ok _) =>
                      match s4.getD callerId with
                      | none => (s4, .error (RunErr.capa CapaError.CapaNotOwned))
                      | some dn4 =>
                        match dn4.data.capabilities.remove capa with
                        | .error e => (s4, .error (RunErr.capa e))
                        | .ok (_, st) =>
                          (s4.setD callerId
                            { dn4 with data := { dn4.data with capabilities := st } },
                           .ok ())
                  else (s1, .error (RunErr.capa CapaError.ChildNotFound))
        else
          match (dn.data.capabilities.get capa).bind CapaWrapper.as_region with
          | .error e => (s, .error (RunErr.capa e))
          | .ok rid =>
            match s.getR rid with
            | none => (s, .error (RunErr.capa CapaError.CapaNotOwned))
            | some rn =>
              match rn.children.get? child with
              | none => (s, .error (RunErr.capa CapaError.InvalidChildCapa))
              | some childId =>
                match regionOnRevoke fuel s childId OperationUpdate.new with
                | .error e => (s, .error e)
                | .ok u =>
                  match u.snapshot fuel s with
                  | .error e => (s, .error e)
                  | .ok _ => regionRevokeChildHandler fuel s rid childId

/- ———————————————————————— Theorems ———————————————————————— -/

/-- A concrete unsealed domain used by counterexamples and witnesses. -/
def sampleDom : DomainData :=
  { id := 5
    status := DStatus.Unsealed
    capabilities := CapabilityStore.new
    policies := Policies.new 1 MonitorAPI.all InterruptPolicy.default_none }

/-- C9 counterexample: the claim demands InvalidValue for every u64 value
with bits outside the 13 defined MonitorAPI bits; the value 65536 = 2^16
has such a bit, yet set_policy succeeds because the Rust code casts the
value to u16 before from_bits, silently truncating the high bits (and the
resulting api mask is empty). -/
theorem C9_counterexample :
    (MonitorAPI.all &&& 65536 ≠ 65536) ∧
    sampleDom.set_policy FieldType.Api 0 65536 =
      .ok { sampleDom with policies := { sampleDom.policies with api := 0 } } ∧
    (3 &&& 256 ≠ 256) ∧
    sampleDom.set_policy FieldType.InterruptVisibility 0 256 =
      .ok { sampleDom with policies :=
        { sampleDom.policies with interrupts :=
          ⟨sampleDom.policies.interrupts.vectors.set 0
            { (sampleDom.policies.interrupts.vectors.getD 0 VectorPolicy.fallback) with
              visibility := VectorVisibility.empty }⟩ } } := by
  refine ⟨by decide, ?_, by decide, ?_⟩ <;> rfl

/-- C9 (amended): set_policy on an unsealed domain returns InvalidField for
Register and for interrupt vector indices at or above 256; the value is
first truncated (to 16 bits for Api, to 8 bits for InterruptVisibility) and
InvalidValue is returned exactly when the truncated value still has bits
outside the defined flags; otherwise the addressed field is overwritten. -/
theorem C9_set_policy_amended (d : DomainData) (h : d.is_sealed = false)
    (field value : Nat) :
    (d.set_policy FieldType.Register field value = .error CapaError.InvalidField) ∧
    (NB_INTERRUPTS ≤ field →
      d.set_policy FieldType.InterruptVisibility field value = .error CapaError.InvalidField ∧
      d.set_policy FieldType.InterruptRead field value = .error CapaError.InvalidField ∧
      d.set_policy FieldType.InterruptWrite field value = .error CapaError.InvalidField) ∧
    (d.set_policy FieldType.Cores field value =
      .ok { d with policies := { d.policies with cores := value } }) ∧
    ((MonitorAPI.all &&& (value % 2 ^ 16) = value % 2 ^ 16) →
      d.set_policy FieldType.Api field value =
        .ok { d with policies := { d.policies with api := value % 2 ^ 16 } }) ∧
    (¬(MonitorAPI.all &&& (value % 2 ^ 16) = value % 2 ^ 16) →
      d.set_policy FieldType.Api field value = .error CapaError.InvalidValue) ∧
    (field < NB_INTERRUPTS →
      (¬((value % 2 ^ 8) &&& 0b11 = value % 2 ^ 8) →
        d.set_policy FieldType.InterruptVisibility field value = .error CapaError.InvalidValue) ∧
      (((value % 2 ^ 8) &&& 0b11 = value % 2 ^ 8) →
        d.set_policy FieldType.InterruptVisibility field value =
          .ok { d with policies := { d.policies with interrupts :=
            ⟨d.policies.interrupts.vectors.set field
              { (d.policies.interrupts.vectors.getD field VectorPolicy.fallback) with
                visibility := ⟨(value % 2 ^ 8).testBit 0, (value % 2 ^ 8).testBit 1⟩ }⟩ } }) ∧
      (d.set_policy FieldType.InterruptRead field value =
        .ok { d with policies := { d.policies with interrupts :=
          ⟨d.policies.interrupts.vectors.set field
            { (d.policies.interrupts.vectors.getD field VectorPolicy.fallback) with
              read_set := value }⟩ } }) ∧
      (d.set_policy FieldType.InterruptWrite field value =
        .ok { d with policies := { d.policies with interrupts :=
          ⟨d.policies.interrupts.vectors.set field
            { (d.policies.interrupts.vectors.getD field VectorPolicy.fallback) with
              write_set := value }⟩ } })) := by
  refine ⟨?_, ?_, ?_, ?_, ?_, ?_⟩
  · simp [DomainData.set_policy, h]
  · intro hf
    refine ⟨?_, ?_, ?_⟩ <;>
      simp [DomainData.set_policy, h, InterruptPolicy.set, if_pos hf]
  · simp [DomainData.set_policy, h]
  · intro hv
    have hv2 : MonitorAPI.all &&& value % 65536 = value % 65536 := by simpa using hv
    simp [DomainData.set_policy, h, MonitorAPI.from_bits, hv2]
  · intro hv
    have hv2 : ¬(MonitorAPI.all &&& value % 65536 = value % 65536) := by simpa using hv
    simp [DomainData.set_policy, h, MonitorAPI.from_bits, hv2]
  · intro hf
    refine ⟨?_, ?_, ?_, ?_⟩
    · intro hv
      simp only [DomainData.set_policy, h, Bool.false_eq_true, if_false,
        InterruptPolicy.set, VectorVisibility.from_bits]
      rw [if_neg (Nat.not_le.mpr hf), if_neg (by simpa using hv)]
    · intro hv
      simp only [DomainData.set_policy, h, Bool.false_eq_true, if_false,
        InterruptPolicy.set, VectorVisibility.from_bits]
      rw [if_neg (Nat.not_le.mpr hf), if_pos (by simpa using hv)]
    · simp [DomainData.set_policy, h, InterruptPolicy.set, Nat.not_le.mpr hf,
        if_neg (Nat.not_le.mpr hf)]
    · simp [DomainData.set_policy, h, InterruptPolicy.set, Nat.not_le.mpr hf,
        if_neg (Nat.not_le.mpr hf)]

/-- C9 witness: the amended theorem applied to the sample domain. -/
theorem C9_witness :
    sampleDom.is_sealed = false ∧
    sampleDom.set_policy FieldType.Register 3 7 = .error CapaError.InvalidField := by
  exact ⟨by decide, (C9_set_policy_amended sampleDom (by decide) 3 7).1⟩

/-- Characterization of the strict contained check (carve): the access is
inside the node and intersects no child at all. -/
theorem regionContained_strict_iff (self : MemoryRegion) (children : List MemoryRegion)
    (acc : Access) :
    regionContained self children acc true = true ↔
      (acc.contained self.access = true ∧
       ∀ c ∈ children, c.access.intersect acc = false) := by
  unfold regionContained
  by_cases hc : acc.contained self.access = true
  · simp only [hc, Bool.not_true, Bool.false_eq_true, if_false, List.all_eq_true,
      true_and]
    constructor
    · intro h c hcm
      simpa using h c hcm
    · intro h c hcm
      simp [h c hcm]
  · simp only [Bool.not_eq_true] at hc
    simp [hc]

/-- Characterization of the lax contained check (alias): the access is
inside the node and intersects no carve child (aliases are skipped). -/
theorem regionContained_lax_iff (self : MemoryRegion) (children : List MemoryRegion)
    (acc : Access) :
    regionContained self children acc false = true ↔
      (acc.contained self.access = true ∧
       ∀ c ∈ children, c.kind = RegionKind.Carve → c.access.intersect acc = false) := by
  unfold regionContained
  by_cases hc : acc.contained self.access = true
  · simp only [hc, Bool.not_true, Bool.false_eq_true, if_false, List.all_eq_true,
      true_and]
    constructor
    · intro h c hcm hk
      have := h c hcm
      rw [hk] at this
      simpa using this
    · intro h c hcm
      cases hk : c.kind with
      | Alias => simp [hk]
      | Carve => simp [hk, h c hcm hk]
  · simp only [Bool.not_eq_true] at hc
    simp [hc]

/-- C2: carve succeeds iff the access is contained in the node (range and
rights) and intersects no existing child whatever its kind; alias succeeds
iff the access is contained and intersects no carve child; every failure is
InvalidAccess and leaves the state unchanged. -/
theorem C2_alias_carve_validation (s : EngineState) (rid : Nat) (node : RegionNode)
    (acc : Access) (hn : s.getR rid = some node) :
    (((capCarve s rid acc).2.isOk = true) ↔
      (acc.contained node.data.access = true ∧
       ∀ c ∈ s.childData node, c.access.intersect acc = false)) ∧
    (((capAlias s rid acc).2.isOk = true) ↔
      (acc.contained node.data.access = true ∧
       ∀ c ∈ s.childData node, c.kind = RegionKind.Carve → c.access.intersect acc = false)) ∧
    (∀ k e, ((capAliasCarveLogic s rid acc k).2 = .error e) →
      e = CapaError.InvalidAccess ∧ (capAliasCarveLogic s rid acc k).1 = s) := by
  refine ⟨?_, ?_, ?_⟩
  · rw [← regionContained_strict_iff node.data (s.childData node) acc]
    unfold capCarve capAliasCarveLogic
    rw [hn]
    by_cases h : regionContained node.data (s.childData node) acc true = true
    · simp [h, Except.isOk, Except.toBool]
    · simp only [Bool.not_eq_true] at h
      simp [h, Except.isOk, Except.toBool]
  · rw [← regionContained_lax_iff node.data (s.childData node) acc]
    unfold capAlias capAliasCarveLogic
    rw [hn]
    by_cases h : regionContained node.data (s.childData node) acc false = true
    · simp [h, Except.isOk, Except.toBool, show (RegionKind.Alias == RegionKind.Carve) = false from rfl]
    · simp only [Bool.not_eq_true] at h
      simp [h, Except.isOk, Except.toBool, show (RegionKind.Alias == RegionKind.Carve) = false from rfl]
  · intro k e he
    unfold capAliasCarveLogic at he ⊢
    rw [hn] at he ⊢
    by_cases h : regionContained node.data (s.childData node) acc (k == RegionKind.Carve) = true
    · simp [h] at he
    · simp only [Bool.not_eq_true] at h
      simp only [h] at he ⊢
      simp at he
      simp [← he]

/- ———————————— heap lemmas ———————————— -/

theorem lookup_hset_ne {α : Type} (k k2 : Nat) (v : α) (l : List (Nat × α))
    (h : k2 ≠ k) : (hset k v l).lookup k2 = l.lookup k2 := by
  induction l with
  | nil => rfl
  | cons p t ih =>
    obtain ⟨k0, v0⟩ := p
    simp only [hset, List.map_cons]
    by_cases hk : k0 = k
    · subst hk
      have hb : (k2 == k0) = false := by simpa using h
      simpa [List.lookup_cons, hb, hset] using ih
    · simp only [if_neg hk]
      by_cases he : k2 = k0
      · simp [List.lookup_cons, he]
      · have hb : (k2 == k0) = false := by simpa using he
        simpa [List.lookup_cons, hb, hset] using ih

theorem lookup_hset_self {α : Type} (k : Nat) (v : α) (l : List (Nat × α))
    (h : (l.lookup k).isSome = true) : (hset k v l).lookup k = some v := by
  induction l with
  | nil => simp at h
  | cons p t ih =>
    obtain ⟨k0, v0⟩ := p
    simp only [hset, List.map_cons]
    by_cases hk : k0 = k
    · subst hk
      simp [List.lookup_cons]
    · have hb : (k == k0) = false := by
        simpa using fun he => hk he.symm
      rw [List.lookup_cons] at h
      simp only [hb, Bool.false_eq_true, if_false] at h
      simp only [if_neg hk]
      simpa [List.lookup_cons, hb, hset] using ih h

theorem lookup_append_left {α : Type} (k : Nat) (l1 l2 : List (Nat × α))
    (h : (l1.lookup k).isSome = true) : (l1 ++ l2).lookup k = l1.lookup k := by
  induction l1 with
  | nil => simp at h
  | cons p t ih =>
    obtain ⟨k0, v0⟩ := p
    by_cases he : k = k0
    · simp [List.lookup_cons, he]
    · have hb : (k == k0) = false := by simpa using he
      rw [List.lookup_cons] at h
      simp only [hb] at h
      simp only [List.cons_append, List.lookup_cons, hb]
      exact ih h

theorem lookup_append_right {α : Type} (k : Nat) (l1 l2 : List (Nat × α))
    (h : l1.lookup k = none) : (l1 ++ l2).lookup k = l2.lookup k := by
  induction l1 with
  | nil => simp
  | cons p t ih =>
    obtain ⟨k0, v0⟩ := p
    rw [List.lookup_cons] at h
    by_cases he : k = k0
    · simp only [show (k == k0) = true by simpa using he] at h
      cases h
    · have hb : (k == k0) = false := by simpa using he
      simp only [hb] at h
      simp only [List.cons_append, List.lookup_cons, hb]
      exact ih h

theorem getR_setR_ne (s : EngineState) (id id2 : Nat) (n : RegionNode) (h : id2 ≠ id) :
    (s.setR id n).getR id2 = s.getR id2 :=
  lookup_hset_ne id id2 n s.regions h

theorem getR_setR_self (s : EngineState) (id : Nat) (n : RegionNode)
    (h : (s.getR id).isSome = true) : (s.setR id n).getR id = some n :=
  lookup_hset_self id n s.regions h

theorem getD_setD_ne (s : EngineState) (id id2 : Nat) (n : DomNode) (h : id2 ≠ id) :
    (s.setD id n).getD id2 = s.getD id2 :=
  lookup_hset_ne id id2 n s.doms h

theorem getD_setD_self (s : EngineState) (id : Nat) (n : DomNode)
    (h : (s.getD id).isSome = true) : (s.setD id n).getD id = some n :=
  lookup_hset_self id n s.doms h

theorem getD_setR (s : EngineState) (id : Nat) (n : RegionNode) (id2 : Nat) :
    (s.setR id n).getD id2 = s.getD id2 := rfl

theorem getR_setD (s : EngineState) (id : Nat) (n : DomNode) (id2 : Nat) :
    (s.setD id n).getR id2 = s.getR id2 := rfl

theorem getR_modifyR_ne (s : EngineState) (id id2 : Nat) (f : RegionNode → RegionNode)
    (h : id2 ≠ id) : (s.modifyR id f).getR id2 = s.getR id2 := by
  unfold EngineState.modifyR
  cases hg : s.getR id with
  | none => rfl
  | some n => exact getR_setR_ne _ _ _ _ h

theorem getR_modifyR_self (s : EngineState) (id : Nat) (f : RegionNode → RegionNode)
    (n : RegionNode) (h : s.getR id = some n) : (s.modifyR id f).getR id = some (f n) := by
  unfold EngineState.modifyR
  rw [h]
  exact getR_setR_self _ _ _ (by simp [h])

theorem getD_modifyD_ne (s : EngineState) (id id2 : Nat) (f : DomNode → DomNode)
    (h : id2 ≠ id) : (s.modifyD id f).getD id2 = s.getD id2 := by
  unfold EngineState.modifyD
  cases hg : s.getD id with
  | none => rfl
  | some n => exact getD_setD_ne _ _ _ _ h

theorem getD_modifyD_self (s : EngineState) (id : Nat) (f : DomNode → DomNode)
    (n : DomNode) (h : s.getD id = some n) : (s.modifyD id f).getD id = some (f n) := by
  unfold EngineState.modifyD
  rw [h]
  exact getD_setD_self _ _ _ (by simp [h])

theorem getD_modifyR (s : EngineState) (id : Nat) (f : RegionNode → RegionNode)
    (id2 : Nat) : (s.modifyR id f).getD id2 = s.getD id2 := by
  unfold EngineState.modifyR
  cases s.getR id <;> rfl

theorem getR_modifyD (s : EngineState) (id : Nat) (f : DomNode → DomNode)
    (id2 : Nat) : (s.modifyD id f).getR id2 = s.getR id2 := by
  unfold EngineState.modifyD
  cases s.getD id <;> rfl

/- ———————————— C8 and the C2 witness ———————————— -/

/-- A concrete one-region heap used by node-level witnesses. -/
def sampleRegionData : MemoryRegion :=
  { kind := RegionKind.Carve
    status := RStatus.Exclusive
    access := Access.new 0 0x10000 Rights.RWX
    attributes := Attributes.NONE
    remapped := Remapped.Identity }

def sampleRegState : EngineState :=
  { regions := [(1, ⟨sampleRegionData, none, 0, none, []⟩)]
    doms := []
    nextNode := 2
    nextDomainId := 0
    root := 0 }

/-- C2 witness: the validation theorem applied to a concrete carve. -/
theorem C2_witness :
    sampleRegState.getR 1 = some ⟨sampleRegionData, none, 0, none, []⟩ ∧
    (capCarve sampleRegState 1 (Access.new 0x2000 0x1000 Rights.R)).2.isOk = true := by
  refine ⟨rfl, ?_⟩
  exact (C2_alias_carve_validation sampleRegState 1 ⟨sampleRegionData, none, 0, none, []⟩
    (Access.new 0x2000 0x1000 Rights.R) rfl).1.mpr ⟨by decide, by decide⟩

/-- C8 counterexample: a zero-size access inside a childless region is
accepted by both alias and carve, and the child node is created, while the
claim demands rejection. -/
theorem C8_counterexample :
    (Access.new 0x2000 0 Rights.R).size = 0 ∧
    (capAlias sampleRegState 1 (Access.new 0x2000 0 Rights.R)).2 = .ok 2 ∧
    (capCarve sampleRegState 1 (Access.new 0x2000 0 Rights.R)).2 = .ok 2 ∧
    ((capAlias sampleRegState 1 (Access.new 0x2000 0 Rights.R)).1.getR 2).isSome = true := by
  exact ⟨rfl, rfl, rfl, rfl⟩

/-- C8 (amended): alias and carve do not reject zero-size accesses: when
the containment and intersection checks pass, a zero-size child is created
exactly as for any other size. -/
theorem C8_zero_size_accepted (s : EngineState) (rid : Nat) (node : RegionNode)
    (acc : Access) (k : RegionKind) (hn : s.getR rid = some node) (hz : acc.size = 0)
    (hfresh : s.getR s.nextNode = none)
    (hchk : regionContained node.data (s.childData node) acc (k == RegionKind.Carve) = true) :
    (capAliasCarveLogic s rid acc k).2 = .ok s.nextNode ∧
    ((capAliasCarveLogic s rid acc k).1.getR s.nextNode) =
      some ⟨aliasCarveChild node.data acc k, none, 0, none, []⟩ := by
  have hne : rid ≠ s.nextNode := by
    intro he
    rw [he, hfresh] at hn
    cases hn
  unfold capAliasCarveLogic
  rw [hn]
  dsimp only
  rw [if_neg (by simp [hchk])]
  refine ⟨rfl, ?_⟩
  rw [getR_modifyR_ne _ _ _ _ (fun he => hne he.symm)]
  show (List.lookup s.nextNode (s.regions ++ [(s.nextNode, _)])) = _
  rw [lookup_append_right _ _ _ hfresh]
  simp [List.lookup_cons]

/-- C8 witness: the amended theorem at the concrete zero-size access. -/
theorem C8_witness :
    (capAliasCarveLogic sampleRegState 1 (Access.new 0x3000 0 Rights.R)
      RegionKind.Alias).2 = .ok 2 := by
  exact (C8_zero_size_accepted sampleRegState 1 ⟨sampleRegionData, none, 0, none, []⟩
    (Access.new 0x3000 0 Rights.R) RegionKind.Alias rfl rfl rfl (by decide)).1

/- ———————————— C4 : seal and the policy subset ———————————— -/

/-- Policies::contains unfolded into its three component subsets. -/
theorem Policies.contains_iff (a b : Policies) :
    a.contains b = true ↔
      (is_core_subset a.cores b.cores = true ∧
       a.api.hasBits b.api = true ∧
       ∀ i < NB_INTERRUPTS,
         ((a.interrupts.vectors.getD i VectorPolicy.fallback).visibility.contains
           (b.interrupts.vectors.getD i VectorPolicy.fallback).visibility) = true) := by
  unfold Policies.contains InterruptPolicy.contains VectorPolicy.contains
  simp [List.all_eq_true, List.mem_range, and_assoc]

/-- C4: with a sealed caller allowed to SEAL and a handle naming an
Unsealed child domain, seal succeeds exactly when the child policies are a
subset of the caller policies (cores bitmask, api mask, and per-vector
visibility); on success the child becomes Sealed, otherwise the call fails
with InsufficientRights and the whole state is unchanged, so the child
stays Unsealed. -/
theorem C4_seal_policy_subset (s : EngineState) (callerId : Nat) (child : LocalCapa)
    (dn cn : DomNode) (childId : Nat)
    (hc : s.getD callerId = some dn)
    (hseal : dn.data.status = DStatus.Sealed)
    (hapi : dn.data.operation_allowed MonitorAPI.SEAL = true)
    (hget : dn.data.capabilities.get child = .ok (CapaWrapper.Domain childId))
    (hcn : s.getD childId = some cn)
    (hunsealed : cn.data.status = DStatus.Unsealed) :
    ((engineSeal s callerId child).2 = .ok () ↔
      (is_core_subset dn.data.policies.cores cn.data.policies.cores = true ∧
       dn.data.policies.api.hasBits cn.data.policies.api = true ∧
       ∀ i < NB_INTERRUPTS,
         ((dn.data.policies.interrupts.vectors.getD i VectorPolicy.fallback).visibility.contains
           (cn.data.policies.interrupts.vectors.getD i VectorPolicy.fallback).visibility) = true)) ∧
    (dn.data.policies.contains cn.data.policies = true →
      (engineSeal s callerId child).1.getD childId =
        some { cn with data := { cn.data with status := DStatus.Sealed } }) ∧
    (dn.data.policies.contains cn.data.policies = false →
      (engineSeal s callerId child) = (s, .error (RunErr.capa CapaError.InsufficientRights))) := by
  have hsa : isSealedAndAllowed s callerId MonitorAPI.SEAL = .ok () := by
    unfold isSealedAndAllowed
    rw [hc]
    dsimp only
    rw [if_neg (by simp [hseal]), if_neg (by simp [hapi])]
  have hrun : engineSeal s callerId child =
      (if dn.data.policies.contains cn.data.policies = false then
        (s, .error (RunErr.capa CapaError.InsufficientRights))
      else
        (s.setD childId { cn with data := { cn.data with status := DStatus.Sealed } },
          .ok ())) := by
    unfold engineSeal
    rw [hsa, hc]
    dsimp only
    rw [hget]
    dsimp only [CapaWrapper.as_domain]
    rw [hcn]
    dsimp only
    by_cases hcont : dn.data.policies.contains cn.data.policies = true
    · rw [if_neg (by simp [hcont]), if_neg (by simp [hapi])]
      have hisdom : dn.data.is_domain child = .ok true := by
        unfold DomainData.is_domain
        rw [hget]
      rw [hisdom]
      dsimp only
      rw [if_neg (by simp), if_neg (by simp [DomainData.is_sealed, hunsealed])]
      simp [hcont]
    · simp only [Bool.not_eq_true] at hcont
      rw [if_pos (by simp [hcont])]
      simp [hcont]
  refine ⟨?_, ?_, ?_⟩
  · rw [hrun, ← Policies.contains_iff]
    by_cases hcont : dn.data.policies.contains cn.data.policies = true
    · simp [hcont]
    · simp only [Bool.not_eq_true] at hcont
      simp [hcont]
  · intro hcont
    rw [hrun, if_neg (by simp [hcont])]
    exact getD_setD_self _ _ _ (by simp [hcn])
  · intro hcont
    rw [hrun, if_pos hcont]

/-- The concrete state of the C4 witness: a root engine plus one freshly
created child domain with subset policies. -/
def c4state : EngineState :=
  (engineCreate (engineNew 1) 0 1 MonitorAPI.all InterruptPolicy.default_none).1

/-- C4 witness: sealing the child of the concrete state succeeds. -/
theorem C4_witness : (engineSeal c4state 0 1).2 = .ok () := by
  have h := C4_seal_policy_subset c4state 0 1 _ _ 1 rfl rfl rfl rfl rfl rfl
  exact h.1.mpr ⟨by decide, by decide, by decide⟩

/- ———————————— C10 : CapabilityStore invariants ———————————— -/

/-- The stores reachable from CapabilityStore::new by install_capability,
successful remove, and reset. -/
inductive StoreReach : CapabilityStore → Prop
  | new : StoreReach CapabilityStore.new
  | install (s : CapabilityStore) (cap : CapaWrapper) :
      StoreReach s → StoreReach (s.install_capability cap).2
  | removeOk (s : CapabilityStore) (h : LocalCapa) (cap : CapaWrapper)
      (s2 : CapabilityStore) :
      StoreReach s → s.remove h = .ok (cap, s2) → StoreReach s2
  | reset (s : CapabilityStore) : StoreReach s → StoreReach s.reset

/-- The store invariant: handles live in [1, next_handle), the free list is
duplicate-free, within bounds, and disjoint from the table. -/
def StoreInv (s : CapabilityStore) : Prop :=
  1 ≤ s.next_handle ∧
  (∀ p ∈ s.capabilities, 1 ≤ p.1 ∧ p.1 < s.next_handle) ∧
  s.free_handles.Nodup ∧
  (∀ h ∈ s.free_handles, 1 ≤ h ∧ h < s.next_handle ∧ s.capabilities.lookup h = none)

theorem lookup_btreeInsert_self (k : Nat) (v : CapaWrapper) (l : List (Nat × CapaWrapper)) :
    (btreeInsert k v l).lookup k = some v := by
  induction l with
  | nil => simp [btreeInsert, List.lookup_cons]
  | cons p t ih =>
    obtain ⟨k0, v0⟩ := p
    unfold btreeInsert
    by_cases h1 : k < k0
    · simp [h1, List.lookup_cons]
    · by_cases h2 : k = k0
      · simp [h1, h2, List.lookup_cons]
      · have hb : (k == k0) = false := by simpa using h2
        simp [h1, h2, List.lookup_cons, hb, ih]

theorem lookup_btreeInsert_ne (k k2 : Nat) (v : CapaWrapper)
    (l : List (Nat × CapaWrapper)) (h : k2 ≠ k) :
    (btreeInsert k v l).lookup k2 = l.lookup k2 := by
  have hb : (k2 == k) = false := by simpa using h
  induction l with
  | nil => simp [btreeInsert, List.lookup_cons, hb]
  | cons p t ih =>
    obtain ⟨k0, v0⟩ := p
    unfold btreeInsert
    by_cases h1 : k < k0
    · simp [h1, List.lookup_cons, hb]
    · by_cases h2 : k = k0
      · subst h2
        simp [h1, List.lookup_cons, hb]
      · simp only [if_neg h1, if_neg h2]
        by_cases h3 : k2 = k0
        · simp [List.lookup_cons, h3]
        · have hb3 : (k2 == k0) = false := by simpa using h3
          simp [List.lookup_cons, hb3, ih]

theorem mem_btreeInsert (k : Nat) (v : CapaWrapper) (l : List (Nat × CapaWrapper))
    (p : Nat × CapaWrapper) (h : p ∈ btreeInsert k v l) : p = (k, v) ∨ p ∈ l := by
  induction l with
  | nil =>
    simp [btreeInsert] at h
    exact Or.inl h
  | cons q t ih =>
    obtain ⟨k0, v0⟩ := q
    unfold btreeInsert at h
    by_cases h1 : k < k0
    · simp only [if_pos h1, List.mem_cons] at h
      rcases h with h | h | h
      · exact Or.inl h
      · exact Or.inr (List.mem_cons.mpr (Or.inl h))
      · exact Or.inr (List.mem_cons.mpr (Or.inr h))
    · by_cases h2 : k = k0
      · simp only [if_neg h1, if_pos h2, List.mem_cons] at h
        rcases h with h | h
        · exact Or.inl h
        · exact Or.inr (List.mem_cons.mpr (Or.inr h))
      · simp only [if_neg h1, if_neg h2, List.mem_cons] at h
        rcases h with h | h
        · exact Or.inr (List.mem_cons.mpr (Or.inl h))
        · rcases ih h with h3 | h3
          · exact Or.inl h3
          · exact Or.inr (List.mem_cons.mpr (Or.inr h3))

theorem lookup_some_mem {α : Type} (k : Nat) (v : α) (l : List (Nat × α))
    (h : l.lookup k = some v) : (k, v) ∈ l := by
  induction l with
  | nil => cases h
  | cons p t ih =>
    obtain ⟨k0, v0⟩ := p
    rw [List.lookup_cons] at h
    by_cases he : k = k0
    · subst he
      simp only [beq_self_eq_true, if_true] at h
      cases h
      exact List.mem_cons.mpr (Or.inl rfl)
    · have hb : (k == k0) = false := by simpa using he
      simp only [hb, Bool.false_eq_true, if_false] at h
      exact List.mem_cons.mpr (Or.inr (ih h))

theorem lookup_filterOut_self {α : Type} (k : Nat) (l : List (Nat × α)) :
    (l.filter fun p => p.1 ≠ k).lookup k = none := by
  induction l with
  | nil => rfl
  | cons p t ih =>
    obtain ⟨k0, v0⟩ := p
    rw [List.filter_cons]
    by_cases he : k0 = k
    · rw [if_neg (by simp [he])]
      exact ih
    · rw [if_pos (by simpa using he), List.lookup_cons]
      have hb : (k == k0) = false := by simpa using fun x => he x.symm
      simpa [hb] using ih

theorem lookup_filterOut_ne {α : Type} (k k2 : Nat) (l : List (Nat × α)) (h : k2 ≠ k) :
    (l.filter fun p => p.1 ≠ k).lookup k2 = l.lookup k2 := by
  induction l with
  | nil => rfl
  | cons p t ih =>
    obtain ⟨k0, v0⟩ := p
    rw [List.filter_cons]
    by_cases he : k0 = k
    · subst he
      rw [if_neg (by simp)]
      have hb : (k2 == k0) = false := by simpa using h
      simpa [List.lookup_cons, hb] using ih
    · rw [if_pos (by simpa using he), List.lookup_cons, List.lookup_cons]
      by_cases h3 : k2 = k0
      · simp [h3]
      · have hb : (k2 == k0) = false := by simpa using h3
        simpa [hb] using ih

/-- StoreInv holds in every reachable store. -/
theorem storeInv_of_reach (s : CapabilityStore) (hr : StoreReach s) : StoreInv s := by
  induction hr with
  | new =>
    refine ⟨le_refl 1, ?_, List.nodup_nil, ?_⟩ <;> intro p hp <;> cases hp
  | install s cap hs ih =>
    obtain ⟨h1, hbound, hnodup, hfree⟩ := ih
    unfold CapabilityStore.install_capability
    cases hfh : s.free_handles with
    | cons f rest =>
      dsimp only
      refine ⟨h1, ?_, ?_, ?_⟩
      · intro p hp
        rcases mem_btreeInsert _ _ _ _ hp with h | h
        · subst h
          have := hfree f (by rw [hfh]; exact List.mem_cons.mpr (Or.inl rfl))
          exact ⟨this.1, this.2.1⟩
        · exact hbound p h
      · have := hnodup
        rw [hfh] at this
        exact (List.nodup_cons.mp this).2
      · intro h hh
        have hmem : h ∈ s.free_handles := by
          rw [hfh]; exact List.mem_cons.mpr (Or.inr hh)
        have hne : h ≠ f := by
          have := hnodup
          rw [hfh] at this
          intro he
          exact (List.nodup_cons.mp this).1 (he ▸ hh)
        have := hfree h hmem
        exact ⟨this.1, this.2.1, by
          rw [lookup_btreeInsert_ne _ _ _ _ hne]
          exact this.2.2⟩
    | nil =>
      dsimp only
      refine ⟨Nat.le_succ_of_le h1, ?_, ?_, ?_⟩
      · intro p hp
        rcases mem_btreeInsert _ _ _ _ hp with h | h
        · subst h
          exact ⟨h1, Nat.lt_succ_self _⟩
        · have := hbound p h
          exact ⟨this.1, Nat.lt_succ_of_lt this.2⟩
      · exact List.nodup_nil
      · intro h hh
        simp at hh
  | removeOk s h cap s2 hs hrem ih =>
    obtain ⟨h1, hbound, hnodup, hfree⟩ := ih
    unfold CapabilityStore.remove at hrem
    cases hlk : s.capabilities.lookup h with
    | none => rw [hlk] at hrem; cases hrem
    | some c =>
      rw [hlk] at hrem
      cases hrem
      have hmem := lookup_some_mem _ _ _ hlk
      have hb := hbound _ hmem
      have hnotfree : h ∉ s.free_handles := by
        intro hin
        have := (hfree h hin).2.2
        rw [this] at hlk
        cases hlk
      refine ⟨h1, ?_, ?_, ?_⟩
      · intro p hp
        exact hbound p (List.mem_of_mem_filter hp)
      · rw [List.nodup_append]
        exact ⟨hnodup, List.nodup_singleton _,
          fun a ha hb => hnotfree ((List.mem_singleton.mp hb) ▸ ha)⟩
      · intro f hf
        simp only [List.mem_append, List.mem_singleton] at hf
        rcases hf with hf | hf
        · have := hfree f hf
          have hne : f ≠ h := fun he => hnotfree (he ▸ hf)
          exact ⟨this.1, this.2.1, by
            rw [lookup_filterOut_ne _ _ _ hne]
            exact this.2.2⟩
        · subst hf
          exact ⟨hb.1, hb.2, lookup_filterOut_self _ _⟩
  | reset s hs ih =>
    refine ⟨le_refl 1, ?_, List.nodup_nil, ?_⟩ <;> intro p hp <;> cases hp

/-- Repeated install_capability, returning the allocated handles in order. -/
def installSeq (s : CapabilityStore) : List CapaWrapper → List LocalCapa
  | [] => []
  | c :: rest =>
    let r := s.install_capability c
    r.1 :: installSeq r.2 rest

/-- Successive installs pop the free list front first: the first n handles
returned are exactly the first n entries of the free list. -/
theorem installSeq_take (s : CapabilityStore) (caps : List CapaWrapper)
    (h : caps.length ≤ s.free_handles.length) :
    installSeq s caps = s.free_handles.take caps.length := by
  induction caps generalizing s with
  | nil => simp [installSeq]
  | cons c rest ih =>
    cases hfh : s.free_handles with
    | nil => rw [hfh] at h; simp at h
    | cons f fs =>
      unfold installSeq CapabilityStore.install_capability
      rw [hfh]
      dsimp only
      rw [hfh] at h
      have hlen : rest.length ≤ fs.length := by simpa using h
      rw [ih _ (by simpa using hlen)]
      simp

/-- C10: in every store reachable from new() by install, remove and reset:
handle 0 is neither in the table nor ever returned by install; every
installed handle is below next_handle; the free list has no duplicates and
no currently-mapped handle; install returns an unmapped non-zero handle,
maps it, and changes no other entry; and freed handles are reused in
first-freed-first-reused order (successive installs return the free-list
prefix in order). -/
theorem C10_store_reachable_invariants (s : CapabilityStore) (hr : StoreReach s) :
    (s.capabilities.lookup 0 = none) ∧
    (∀ p ∈ s.capabilities, p.1 < s.next_handle) ∧
    s.free_handles.Nodup ∧
    (∀ h ∈ s.free_handles, s.capabilities.lookup h = none) ∧
    (∀ cap,
      (s.install_capability cap).1 ≠ 0 ∧
      s.capabilities.lookup (s.install_capability cap).1 = none ∧
      (s.install_capability cap).2.capabilities.lookup (s.install_capability cap).1 =
        some cap ∧
      (∀ k, k ≠ (s.install_capability cap).1 →
        (s.install_capability cap).2.capabilities.lookup k = s.capabilities.lookup k)) ∧
    (∀ caps : List CapaWrapper, caps.length ≤ s.free_handles.length →
      installSeq s caps = s.free_handles.take caps.length) := by
  obtain ⟨h1, hbound, hnodup, hfree⟩ := storeInv_of_reach s hr
  have hzero : s.capabilities.lookup 0 = none := by
    cases hlk : s.capabilities.lookup 0 with
    | none => rfl
    | some v =>
      have := hbound _ (lookup_some_mem _ _ _ hlk)
      omega
  have hnext_none : s.capabilities.lookup s.next_handle = none := by
    cases hlk : s.capabilities.lookup s.next_handle with
    | none => rfl
    | some v =>
      have := hbound _ (lookup_some_mem _ _ _ hlk)
      omega
  refine ⟨hzero, fun p hp => (hbound p hp).2, hnodup,
    fun h hh => (hfree h hh).2.2, ?_, fun caps hl => installSeq_take s caps hl⟩
  intro cap
  unfold CapabilityStore.install_capability
  cases hfh : s.free_handles with
  | cons f rest =>
    dsimp only
    have hf := hfree f (by rw [hfh]; exact List.mem_cons.mpr (Or.inl rfl))
    refine ⟨Nat.one_le_iff_ne_zero.mp hf.1, hf.2.2, lookup_btreeInsert_self _ _ _,
      fun k hk => lookup_btreeInsert_ne _ _ _ _ hk⟩
  | nil =>
    dsimp only
    refine ⟨Nat.one_le_iff_ne_zero.mp h1, hnext_none, lookup_btreeInsert_self _ _ _,
      fun k hk => lookup_btreeInsert_ne _ _ _ _ hk⟩

/-- C10 witness: the theorem applied to a store that has installed three
entries and removed the second. -/
theorem C10_witness :
    (CapabilityStore.new.capabilities.lookup 0 = none) ∧ StoreReach CapabilityStore.new := by
  exact ⟨(C10_store_reachable_invariants CapabilityStore.new StoreReach.new).1,
    StoreReach.new⟩

/- ———————————— C3 : send ———————————— -/

/-- The engine gate succeeds on a sealed caller whose api mask has the
call bit. -/
theorem isSealedAndAllowed_ok (s : EngineState) (callerId : Nat) (dn : DomNode)
    (call : MonitorAPI) (hc : s.getD callerId = some dn)
    (hst : dn.data.status = DStatus.Sealed)
    (hal : dn.data.operation_allowed call = true) :
    isSealedAndAllowed s callerId call = .ok () := by
  unfold isSealedAndAllowed
  rw [hc]
  dsimp only
  rw [if_neg (by simp [hst]), if_neg (by simp [hal])]

/-- install_capability maps the returned handle to the installed entry. -/
theorem install_lookup_self (st : CapabilityStore) (cap : CapaWrapper) :
    ((st.install_capability cap).2).capabilities.lookup (st.install_capability cap).1 =
      some cap := by
  unfold CapabilityStore.install_capability
  cases st.free_handles <;> exact lookup_btreeInsert_self _ _ _

/-- CapabilityStore::get agrees with lookup. -/
theorem store_get_eq_lookup (st : CapabilityStore) (h : LocalCapa) (w : CapaWrapper)
    (hg : st.get h = .ok w) : st.capabilities.lookup h = some w := by
  unfold CapabilityStore.get at hg
  cases hlk : st.capabilities.lookup h with
  | none => rw [hlk] at hg; cases hg
  | some v => rw [hlk] at hg; cases hg; rfl

/-- C3: with a sealed caller holding SEND, a handle naming the destination
domain and a handle naming a region: a Sealed destination without the
RECEIVE bit, or with non-empty attributes passed, fails CallNotAllowed;
past that check, a region already carrying VITAL or CLEAN fails
InvalidAttributes; every failure returns the state unchanged; and success
removes the handle from the caller table, applies remap and attributes to
the region, installs it into the destination table and re-points its owner
back-reference at the destination. -/
theorem C3_send_checks_and_transfer (fuel : Nat) (s : EngineState) (callerId : Nat)
    (destH capaH : LocalCapa) (remap : Remapped) (attrs : Attributes)
    (dn destN : DomNode) (destId : Nat) (rn : RegionNode) (rid : Nat)
    (hc : s.getD callerId = some dn)
    (hseal : dn.data.status = DStatus.Sealed)
    (hsend : dn.data.operation_allowed MonitorAPI.SEND = true)
    (hdest : dn.data.capabilities.get destH = .ok (CapaWrapper.Domain destId))
    (hdn : s.getD destId = some destN)
    (hne : destId ≠ callerId)
    (hcapa : dn.data.capabilities.get capaH = .ok (CapaWrapper.Region rid))
    (hrn : s.getR rid = some rn) :
    ((destN.data.is_sealed &&
        (!(destN.data.operation_allowed MonitorAPI.RECEIVE) || !attrs.is_empty)) = true →
      engineSend fuel s callerId destH capaH remap attrs =
        (s, .error (RunErr.capa CapaError.CallNotAllowed))) ∧
    ((destN.data.is_sealed &&
        (!(destN.data.operation_allowed MonitorAPI.RECEIVE) || !attrs.is_empty)) = false →
      rn.data.attributes.intersects Attributes.vital_clean = true →
      engineSend fuel s callerId destH capaH remap attrs =
        (s, .error (RunErr.capa CapaError.InvalidAttributes))) ∧
    (∀ t e, engineSend fuel s callerId destH capaH remap attrs = (t, .error e) → t = s) ∧
    (∀ s2, engineSend fuel s callerId destH capaH remap attrs = (s2, .ok ()) →
      ((s2.getD callerId).bind
        (fun d => d.data.capabilities.capabilities.lookup capaH)) = none ∧
      ((s2.getR rid).map (fun n => n.data.remapped)) = some remap ∧
      ((s2.getR rid).map (fun n => n.data.attributes)) = some attrs ∧
      ((s2.getR rid).map (fun n => n.ownerDom)) = some (some destId) ∧
      (∃ h2, ((s2.getR rid).map (fun n => n.ownerHandle)) = some h2 ∧
        ((s2.getD destId).bind
          (fun d => d.data.capabilities.capabilities.lookup h2)) =
            some (CapaWrapper.Region rid))) := by
  have hlkdest := store_get_eq_lookup _ _ _ hdest
  have hlkcapa := store_get_eq_lookup _ _ _ hcapa
  unfold engineSend
  rw [isSealedAndAllowed_ok s callerId dn MonitorAPI.SEND hc hseal hsend, hc]
  dsimp only
  rw [hdest]
  dsimp only [CapaWrapper.as_domain]
  rw [hdn]
  dsimp only
  by_cases hcond : (destN.data.is_sealed &&
      (!(destN.data.operation_allowed MonitorAPI.RECEIVE) || !attrs.is_empty)) = true
  · rw [if_pos hcond]
    refine ⟨fun _ => rfl, ?_, ?_, ?_⟩
    · intro hfalse
      rw [hcond] at hfalse
      cases hfalse
    · intro t e he
      cases he
      rfl
    · intro s2 he
      cases he
  · have hcondf : (destN.data.is_sealed &&
        (!(destN.data.operation_allowed MonitorAPI.RECEIVE) || !attrs.is_empty)) = false := by
      simpa using hcond
    rw [if_neg (by simp [hcondf])]
    rw [hcapa]
    dsimp only [CapaWrapper.as_region]
    rw [hrn]
    dsimp only
    by_cases hattr : rn.data.attributes.intersects Attributes.vital_clean = true
    · rw [if_pos hattr]
      refine ⟨?_, fun _ _ => rfl, ?_, ?_⟩
      · intro htrue
        rw [htrue] at hcondf
        cases hcondf
      · intro t e he
        cases he
        rfl
      · intro s2 he
        cases he
    · rw [if_neg hattr]
      cases hconf : checkConflict s destId (ViewRegion.new rn.data.access remap) with
      | error e0 =>
        refine ⟨?_, ?_, ?_, ?_⟩
        · intro htrue
          rw [htrue] at hcondf
          cases hcondf
        · intro _ htrue
          rw [htrue] at hattr
          exact absurd rfl hattr
        · intro t e he
          cases he
          rfl
        · intro s2 he
          cases he
      | ok u0 =>
        cases hsnap : OperationUpdate.snapshot
            (if destN.data.is_sealed = true then
              (OperationUpdate.new.addChange (some callerId)).addChange (some destId)
            else OperationUpdate.new.addChange (some callerId)) fuel s with
        | error e0 =>
          refine ⟨?_, ?_, ?_, ?_⟩
          · intro htrue
            rw [htrue] at hcondf
            cases hcondf
          · intro _ htrue
            rw [htrue] at hattr
            exact absurd rfl hattr
          · intro t e he
            cases he
            rfl
          · intro s2 he
            cases he
        | ok u1 =>
          have hrem : dn.data.capabilities.remove capaH =
              .ok (CapaWrapper.Region rid,
                { dn.data.capabilities with
                  capabilities :=
                    dn.data.capabilities.capabilities.filter (fun p => p.1 ≠ capaH),
                  free_handles := dn.data.capabilities.free_handles ++ [capaH] }) := by
            unfold CapabilityStore.remove
            rw [hlkcapa]
          rw [hrem]
          dsimp only
          refine ⟨?_, ?_, ?_, ?_⟩
          · intro htrue
            rw [htrue] at hcondf
            cases hcondf
          · intro _ htrue
            rw [htrue] at hattr
            exact absurd rfl hattr
          · intro t e he
            rw [getD_modifyR, getD_setD_ne _ _ _ _ hne, hdn] at he
            dsimp only at he
            cases he
          · intro s2 he
            rw [getD_modifyR, getD_setD_ne _ _ _ _ hne, hdn] at he
            dsimp only at he
            rw [Prod.mk.injEq] at he
            obtain ⟨hs2, -⟩ := he
            subst hs2
            refine ⟨?_, ?_, ?_, ?_, ?_⟩
            · rw [getD_modifyR, getD_setD_ne _ _ _ _ (fun h => hne h.symm), getD_modifyR,
                getD_setD_self _ _ _ (by simp [hc])]
              exact lookup_filterOut_self _ _
            · rw [getR_modifyR_self _ _ _ _ ((getR_setD _ _ _ _).trans
                (getR_modifyR_self _ _ _ _ ((getR_setD _ _ _ _).trans hrn)))]
              rfl
            · rw [getR_modifyR_self _ _ _ _ ((getR_setD _ _ _ _).trans
                (getR_modifyR_self _ _ _ _ ((getR_setD _ _ _ _).trans hrn)))]
              rfl
            · rw [getR_modifyR_self _ _ _ _ ((getR_setD _ _ _ _).trans
                (getR_modifyR_self _ _ _ _ ((getR_setD _ _ _ _).trans hrn)))]
              rfl
            · refine ⟨(destN.data.capabilities.install_capability
                  (CapaWrapper.Region rid)).1, ?_, ?_⟩
              · rw [getR_modifyR_self _ _ _ _ ((getR_setD _ _ _ _).trans
                  (getR_modifyR_self _ _ _ _ ((getR_setD _ _ _ _).trans hrn)))]
                rfl
              · rw [getD_modifyR, getD_setD_self _ _ _ ?_]
                · exact install_lookup_self _ _
                · rw [getD_modifyR, getD_setD_ne _ _ _ _ hne]
                  simp [hdn]

/-- The concrete state of the C3 witness: root engine with a root region,
a carve of its first page, and a fresh child domain. -/
def c3state : EngineState :=
  (engineCreate
    (engineCarve 100 (addRootRegion (engineNew 1) 0 sampleRegionData).1 0 1
      (Access.new 0 0x1000 Rights.RWX)).1
    0 1 MonitorAPI.all InterruptPolicy.default_none).1

/-- C3 witness: sending the carved region to the child re-points its owner
back-reference at the destination. -/
theorem C3_witness :
    ((engineSend 100 c3state 0 3 2 (Remapped.Remapped 0x2000) Attributes.NONE).1.getR 2
      |>.map (fun n => n.ownerDom)) = some (some 3) := by
  have h := C3_send_checks_and_transfer 100 c3state 0 3 2 (Remapped.Remapped 0x2000)
    Attributes.NONE _ _ 3 _ 2 rfl rfl rfl rfl rfl (by decide) rfl rfl
  exact (h.2.2.2 _ rfl).2.2.2.1

/- ———————————— C6 : remap monotonicity (I3) ———————————— -/

/-- I3 at one region node: if the parent upgrades and is Remapped(s), the
child remap is Remapped(s + child.start - parent.start); a child of an
Identity parent is Identity.  Nodes without an upgradable parent are
unconstrained. -/
def I3holdsAt (s : EngineState) (n : RegionNode) : Bool :=
  match n.parent with
  | none => true
  | some p =>
    match s.getR p with
    | none => true
    | some pn =>
      match pn.data.remapped, n.data.remapped with
      | Remapped.Identity, Remapped.Identity => true
      | Remapped.Remapped ps, Remapped.Remapped cs =>
        cs == ps + (n.data.access.start - pn.data.access.start)
      | _, _ => false

/-- I3 over the whole region heap. -/
def I3holds (s : EngineState) : Bool :=
  s.regions.all fun p => I3holdsAt s p.2

/-- The engine states reachable from Engine::new by successful operations
(root-region registration, create, seal, alias, carve, send, revoke). -/
inductive Reachable : EngineState → Prop
  | new (nb_cores : Nat) : Reachable (engineNew nb_cores)
  | addRoot (s : EngineState) (domId : Nat) (region : MemoryRegion)
      (s2 : EngineState) (h : LocalCapa) :
      Reachable s → addRootRegion s domId region = (s2, .ok h) → Reachable s2
  | create (s : EngineState) (callerId cores : Nat) (api : MonitorAPI)
      (interrupts : InterruptPolicy) (s2 : EngineState) (h : LocalCapa) :
      Reachable s → engineCreate s callerId cores api interrupts = (s2, .ok h) →
      Reachable s2
  | seal (s : EngineState) (callerId : Nat) (child : LocalCapa) (s2 : EngineState) :
      Reachable s → engineSeal s callerId child = (s2, .ok ()) → Reachable s2
  | alias (s : EngineState) (callerId : Nat) (capa : LocalCapa) (access : Access)
      (s2 : EngineState) (h : LocalCapa) :
      Reachable s → engineAlias s callerId capa access = (s2, .ok h) → Reachable s2
  | carve (fuel : Nat) (s : EngineState) (callerId : Nat) (capa : LocalCapa)
      (access : Access) (s2 : EngineState) (h : LocalCapa) :
      Reachable s → engineCarve fuel s callerId capa access = (s2, .ok h) → Reachable s2
  | send (fuel : Nat) (s : EngineState) (callerId : Nat) (dest capa : LocalCapa)
      (remap : Remapped) (attributes : Attributes) (s2 : EngineState) :
      Reachable s → engineSend fuel s callerId dest capa remap attributes = (s2, .ok ()) →
      Reachable s2
  | revoke (fuel : Nat) (s : EngineState) (callerId : Nat) (capa : LocalCapa)
      (child : Nat) (s2 : EngineState) :
      Reachable s → engineRevoke fuel s callerId capa child = (s2, .ok ()) →
      Reachable s2

/-- The violating state: root region Identity, carve sent to a child
domain with Remapped(0x2000) while keeping its region parent. -/
def c6state : EngineState :=
  (engineSend 100 c3state 0 3 2 (Remapped.Remapped 0x2000) Attributes.NONE).1

/-- C6 counterexample: a state reachable by successful operations (new,
add_root_region, carve, create, send) in which the sent carve still has
the Identity root region as parent but remap Remapped(0x2000): send
rewrites the remap without regard to the region parent, so the claimed
invariant fails. -/
theorem C6_counterexample :
    Reachable c6state ∧
    I3holds c6state = false ∧
    ((c6state.getR 2).map (fun n => n.parent)) = some (some 1) ∧
    ((c6state.getR 1).map (fun n => n.data.remapped)) = some Remapped.Identity ∧
    ((c6state.getR 2).map (fun n => n.data.remapped)) =
      some (Remapped.Remapped 0x2000) := by
  refine ⟨?_, by rfl, rfl, rfl, rfl⟩
  have h0 : Reachable (engineNew 1) := Reachable.new 1
  have h1 := Reachable.addRoot _ 0 sampleRegionData _ _ h0 rfl
  have h2 := Reachable.carve 100 _ 0 1 (Access.new 0 0x1000 Rights.RWX) _ _ h1 rfl
  have h3 := Reachable.create _ 0 1 MonitorAPI.all InterruptPolicy.default_none _ _ h2 rfl
  exact Reachable.send 100 _ 0 3 2 (Remapped.Remapped 0x2000) Attributes.NONE _ h3 rfl

theorem mem_hset {α : Type} (k : Nat) (v : α) (l : List (Nat × α)) (q : Nat × α)
    (h : q ∈ hset k v l) : q = (k, v) ∨ (q ∈ l ∧ q.1 ≠ k) := by
  unfold hset at h
  rcases List.mem_map.mp h with ⟨p, hp, he⟩
  by_cases hk : p.1 = k
  · rw [if_pos hk] at he
    exact Or.inl he.symm
  · rw [if_neg hk] at he
    subst he
    exact Or.inr ⟨hp, hk⟩

theorem regions_modifyR_some (x : EngineState) (id : Nat) (g : RegionNode → RegionNode)
    (n : RegionNode) (h : x.getR id = some n) :
    (x.modifyR id g).regions = hset id (g n) x.regions := by
  unfold EngineState.modifyR
  rw [h]
  rfl

/-- The I3 core: extending the heap with the alias_carve_logic child (remap
computed from the parent by the I3 formula), then linking its parent and
ownership, keeps I3 over the whole heap. -/
theorem I3_core (s : EngineState) (rid : Nat) (node : RegionNode) (acc : Access)
    (k : RegionKind) (t : EngineState) (ownerId : Nat) (hdl : LocalCapa)
    (hn : s.getR rid = some node)
    (hI3 : I3holds s = true)
    (hfresh : s.getR s.nextNode = none)
    (hnod : ∀ q ∈ s.regions, q.2.parent ≠ some s.nextNode)
    (hregs : t.regions = hset s.nextNode
        ⟨aliasCarveChild node.data acc k, some ownerId, hdl, some rid, []⟩
        (hset rid { node with children := node.children ++ [s.nextNode] }
          (s.regions ++
            [(s.nextNode, ⟨aliasCarveChild node.data acc k, none, 0, none, []⟩)]))) :
    I3holds t = true := by
  have hne : rid ≠ s.nextNode := by
    intro he
    rw [he, hfresh] at hn
    cases hn
  have htr : ∀ p : Nat, p ≠ s.nextNode → p ≠ rid → t.getR p = s.getR p := by
    intro p hp1 hp2
    show t.regions.lookup p = s.regions.lookup p
    rw [hregs, lookup_hset_ne _ _ _ _ hp1, lookup_hset_ne _ _ _ _ hp2]
    cases hsp : s.regions.lookup p with
    | some m => rw [lookup_append_left _ _ _ (by simp [hsp]), hsp]
    | none =>
      rw [lookup_append_right _ _ _ hsp, List.lookup_cons]
      have hb : (p == s.nextNode) = false := by simpa using hp1
      simp [hb]
  have htrid : t.getR rid = some { node with children := node.children ++ [s.nextNode] } := by
    show t.regions.lookup rid = _
    rw [hregs, lookup_hset_ne _ _ _ _ hne]
    refine lookup_hset_self _ _ _ ?_
    rw [lookup_append_left _ _ _ (by simp [show s.regions.lookup rid = some node from hn])]
    simp [show s.regions.lookup rid = some node from hn]
  have htnew : t.getR s.nextNode =
      some ⟨aliasCarveChild node.data acc k, some ownerId, hdl, some rid, []⟩ := by
    show t.regions.lookup s.nextNode = _
    rw [hregs]
    refine lookup_hset_self _ _ _ ?_
    rw [lookup_hset_ne _ _ _ _ (fun h => hne h.symm),
      lookup_append_right _ _ _ hfresh]
    simp [List.lookup_cons]
  have hI3m : ∀ q ∈ s.regions, I3holdsAt s q.2 = true := by
    intro q hq
    exact List.all_eq_true.mp hI3 q hq
  unfold I3holds
  rw [List.all_eq_true]
  intro q hq
  rw [hregs] at hq
  rcases mem_hset _ _ _ _ hq with hq1 | ⟨hq2, hqne⟩
  · -- the freshly created child: parent rid, remap by the I3 formula
    subst hq1
    unfold I3holdsAt
    dsimp only
    rw [htrid]
    unfold aliasCarveChild
    cases hrm : node.data.remapped with
    | Identity => simp [hrm]
    | Remapped ps => simp [hrm]
  · rcases mem_hset _ _ _ _ hq2 with hq3 | ⟨hq4, hqne2⟩
    · -- the parent node: data unchanged, parent link unchanged
      subst hq3
      have hmem : (rid, node) ∈ s.regions := lookup_some_mem _ _ _ hn
      have hold := hI3m _ hmem
      unfold I3holdsAt at hold ⊢
      dsimp only at hold ⊢
      cases hp : node.parent with
      | none => rfl
      | some p =>
        rw [hp] at hold
        dsimp only at hold ⊢
        have hpnew : p ≠ s.nextNode := by
          have := hnod _ hmem
          intro he
          rw [← he] at this
          exact this hp
        by_cases hpr : p = rid
        · subst hpr
          rw [htrid]
          rw [hn] at hold
          exact hold
        · rw [htr p hpnew hpr]
          exact hold
    · -- untouched nodes
      have hq5 : q ∈ s.regions := by
        rcases List.mem_append.mp hq4 with h | h
        · exact h
        · exfalso
          rcases List.mem_singleton.mp h with he
          rw [he] at hqne
          exact hqne rfl
      have hold := hI3m _ hq5
      unfold I3holdsAt at hold ⊢
      cases hp : q.2.parent with
      | none => rfl
      | some p =>
        rw [hp] at hold
        dsimp only at hold ⊢
        have hpnew : p ≠ s.nextNode := by
          have := hnod _ hq5
          intro he
          rw [← he] at this
          exact this hp
        by_cases hpr : p = rid
        · subst hpr
          rw [htrid]
          rw [hn] at hold
          exact hold
        · rw [htr p hpnew hpr]
          exact hold

/-- C6 (amended): alias and carve establish and preserve I3 — the created
child's remap is the parent remap shifted by the child's offset and no
other node's remap or parent changes — while send does not preserve I3
(see the counterexample): it overwrites the sent region's remap with the
caller-supplied value although the region keeps its region parent. -/
theorem C6_alias_carve_preserve_I3 (s : EngineState) (callerId : Nat)
    (capaH : LocalCapa) (acc : Access)
    (hI3 : I3holds s = true)
    (hfresh : s.getR s.nextNode = none)
    (hnod : ∀ q ∈ s.regions, q.2.parent ≠ some s.nextNode) :
    (∀ s2 h, engineAlias s callerId capaH acc = (s2, .ok h) → I3holds s2 = true) ∧
    (∀ fuel s2 h, engineCarve fuel s callerId capaH acc = (s2, .ok h) →
      I3holds s2 = true) := by
  constructor
  · intro s2 h he
    unfold engineAlias at he
    cases hsa : isSealedAndAllowed s callerId MonitorAPI.ALIAS with
    | error e => rw [hsa] at he; simp at he
    | ok u =>
      rw [hsa] at he
      dsimp only at he
      cases hdn : s.getD callerId with
      | none => rw [hdn] at he; simp at he
      | some dn =>
        rw [hdn] at he
        dsimp only at he
        cases hget : dn.data.capabilities.get capaH with
        | error e => rw [hget] at he; simp at he
        | ok w =>
          rw [hget] at he
          dsimp only at he
          cases w with
          | Domain d => simp [CapaWrapper.as_region] at he
          | Region rid =>
            dsimp only [CapaWrapper.as_region] at he
            unfold capAlias capAliasCarveLogic at he
            cases hn : s.getR rid with
            | none => rw [hn] at he; simp at he
            | some node =>
              rw [hn] at he
              dsimp only at he
              rw [show (RegionKind.Alias == RegionKind.Carve) = false from rfl] at he
              by_cases hchk : regionContained node.data (s.childData node) acc false = true
              · rw [if_neg (by simp [hchk])] at he
                dsimp only at he
                cases hdn1 : EngineState.getD
                    ({ s with
                        regions := s.regions ++ [(s.nextNode,
                          RegionNode.mk (aliasCarveChild node.data acc RegionKind.Alias)
                            none 0 none [])],
                        nextNode := s.nextNode + 1 }.modifyR rid fun n =>
                          { n with children := n.children ++ [s.nextNode] })
                    callerId with
                | none => rw [hdn1] at he; simp at he
                | some dn1 =>
                  rw [hdn1] at he
                  dsimp only at he
                  rw [Prod.mk.injEq] at he
                  obtain ⟨hs2, -⟩ := he
                  subst hs2
                  have hne : rid ≠ s.nextNode := by
                    intro hx
                    rw [hx, hfresh] at hn
                    cases hn
                  have e1 : EngineState.getR
                      { s with
                        regions := s.regions ++ [(s.nextNode,
                          RegionNode.mk (aliasCarveChild node.data acc RegionKind.Alias)
                            none 0 none [])],
                        nextNode := s.nextNode + 1 } rid = some node := by
                    show List.lookup rid (s.regions ++ _) = some node
                    rw [lookup_append_left _ _ _ (by simp [show s.regions.lookup rid =
                      some node from hn])]
                    exact hn
                  refine I3_core s rid node acc RegionKind.Alias _ callerId
                    (dn1.data.capabilities.install_capability
                      (CapaWrapper.Region s.nextNode)).1 hn hI3 hfresh hnod ?_
                  rw [regions_modifyR_some _ _ _
                    (RegionNode.mk (aliasCarveChild node.data acc RegionKind.Alias)
                      none 0 none []) ?h2]
                  case h2 =>
                    show List.lookup s.nextNode _ = _
                    dsimp only [EngineState.setD]
                    rw [regions_modifyR_some _ _ _ _ e1,
                      lookup_hset_ne _ _ _ _ (fun hx => hne hx.symm),
                      lookup_append_right _ _ _ hfresh]
                    simp [List.lookup_cons]
                  dsimp only [EngineState.setD]
                  rw [regions_modifyR_some _ _ _ _ e1]
              · simp only [Bool.not_eq_true] at hchk
                rw [if_pos (by simp [hchk])] at he
                simp at he
  · intro fuel s2 h he
    unfold engineCarve at he
    cases hsa : isSealedAndAllowed s callerId MonitorAPI.CARVE with
    | error e => rw [hsa] at he; simp at he
    | ok u =>
      rw [hsa] at he
      dsimp only at he
      cases hdn : s.getD callerId with
      | none => rw [hdn] at he; simp at he
      | some dn =>
        rw [hdn] at he
        dsimp only at he
        cases hget : dn.data.capabilities.get capaH with
        | error e => rw [hget] at he; simp at he
        | ok w =>
          rw [hget] at he
          dsimp only at he
          cases w with
          | Domain d => simp [CapaWrapper.as_region] at he
          | Region rid =>
            dsimp only [CapaWrapper.as_region] at he
            cases hn : s.getR rid with
            | none => rw [hn] at he; simp at he
            | some node =>
              rw [hn] at he
              dsimp only at he
              cases hsnap : OperationUpdate.snapshot
                  (if node.data.access.rights ≠ acc.rights then
                    OperationUpdate.new.addChange (some callerId)
                  else OperationUpdate.new) fuel s with
              | error e => rw [hsnap] at he; simp at he
              | ok u1 =>
                rw [hsnap] at he
                dsimp only at he
                unfold capCarve capAliasCarveLogic at he
                rw [hn] at he
                dsimp only at he
                rw [show (RegionKind.Carve == RegionKind.Carve) = true from rfl] at he
                by_cases hchk : regionContained node.data (s.childData node) acc true = true
                · rw [if_neg (by simp [hchk])] at he
                  dsimp only at he
                  cases hdn1 : EngineState.getD
                      ({ s with
                          regions := s.regions ++ [(s.nextNode,
                            RegionNode.mk (aliasCarveChild node.data acc RegionKind.Carve)
                              none 0 none [])],
                          nextNode := s.nextNode + 1 }.modifyR rid fun n =>
                            { n with children := n.children ++ [s.nextNode] })
                      callerId with
                  | none => rw [hdn1] at he; simp at he
                  | some dn1 =>
                    rw [hdn1] at he
                    dsimp only at he
                    rw [Prod.mk.injEq] at he
                    obtain ⟨hs2, -⟩ := he
                    subst hs2
                    have hne : rid ≠ s.nextNode := by
                      intro hx
                      rw [hx, hfresh] at hn
                      cases hn
                    have e1 : EngineState.getR
                        { s with
                        regions := s.regions ++ [(s.nextNode,
                            RegionNode.mk (aliasCarveChild node.data acc RegionKind.Carve)
                              none 0 none [])],
                          nextNode := s.nextNode + 1 } rid = some node := by
                      show List.lookup rid (s.regions ++ _) = some node
                      rw [lookup_append_left _ _ _ (by simp [show s.regions.lookup rid =
                        some node from hn])]
                      exact hn
                    refine I3_core s rid node acc RegionKind.Carve _ callerId
                      (dn1.data.capabilities.install_capability
                        (CapaWrapper.Region s.nextNode)).1 hn hI3 hfresh hnod ?_
                    rw [regions_modifyR_some _ _ _
                      (RegionNode.mk (aliasCarveChild node.data acc RegionKind.Carve)
                        none 0 none []) ?h3]
                    case h3 =>
                      show List.lookup s.nextNode _ = _
                      dsimp only [EngineState.setD]
                      rw [regions_modifyR_some _ _ _ _ e1,
                        lookup_hset_ne _ _ _ _ (fun hx => hne hx.symm),
                        lookup_append_right _ _ _ hfresh]
                      simp [List.lookup_cons]
                    dsimp only [EngineState.setD]
                    rw [regions_modifyR_some _ _ _ _ e1]
                · simp only [Bool.not_eq_true] at hchk
                  rw [if_pos (by simp [hchk])] at he
                  simp at he

/-- C6 witness for the amended theorem: carving the concrete root region
keeps I3. -/
theorem C6_amended_witness :
    I3holds (engineCarve 100 (addRootRegion (engineNew 1) 0 sampleRegionData).1 0 1
      (Access.new 0 0x1000 Rights.RWX)).1 = true := by
  have h := C6_alias_carve_preserve_I3 (addRootRegion (engineNew 1) 0 sampleRegionData).1
    0 1 (Access.new 0 0x1000 Rights.RWX) (by rfl) (by rfl) (by decide)
  exact h.2 100 _ 2 rfl

/- ———————————————— C7: termination of the coalescing loop ———————————————— -/

/-- Total of the access sizes of a view list (the termination measure's
first component). -/
def totalSize (rs : List ViewRegion) : Nat :=
  (rs.map (fun v => v.access.size)).sum

/-- Number of zero-size views in a list (measure's second component,
applied to the part of the list after the cursor). -/
def zcount (rs : List ViewRegion) : Nat :=
  rs.countP (fun v => v.access.size == 0)

/-- The middle view built by merge_at's overlap case (named copy of the
let-bound value, characterized against merge_at by the equations below). -/
def mergeMiddle (c o : ViewRegion) : ViewRegion :=
  ViewRegion.new
    (Access.new o.access.start
      (min c.access.end_addr o.access.end_addr - o.access.start)
      (c.access.rights.union o.access.rights))
    (match c.remap with
     | .Identity => Remapped.Identity
     | .Remapped x => Remapped.Remapped (o.access.start - c.access.start + x))

/-- The left view built by merge_at's overlap case. -/
def mergeLeft (c o : ViewRegion) : ViewRegion :=
  ViewRegion.new
    (Access.new c.access.start ((mergeMiddle c o).access.start - c.access.start)
      c.access.rights)
    c.remap

/-- The right view built by merge_at's overlap case. -/
def mergeOther (c o : ViewRegion) : ViewRegion :=
  ViewRegion.new
    (Access.new (mergeMiddle c o).access.end_addr
      (max c.access.end_addr o.access.end_addr - (mergeMiddle c o).access.end_addr)
      (if max c.access.end_addr o.access.end_addr = c.access.end_addr then
        c.access.rights else o.access.rights))
    (match o.remap with
     | .Identity => Remapped.Identity
     | .Remapped x => Remapped.Remapped (x + (mergeMiddle c o).access.size))

theorem totalSize_append (a b : List ViewRegion) :
    totalSize (a ++ b) = totalSize a + totalSize b := by
  simp [totalSize]

theorem totalSize_cons (x : ViewRegion) (l : List ViewRegion) :
    totalSize (x :: l) = x.access.size + totalSize l := by
  simp [totalSize]

theorem zcount_cons (x : ViewRegion) (l : List ViewRegion) :
    zcount (x :: l) = zcount l + (if x.access.size = 0 then 1 else 0) := by
  simp [zcount, List.countP_cons]

theorem drop_len_succ {α : Type} (u : List α) (x : α) (v : List α) (n : Nat)
    (hu : u.length = n) : (u ++ x :: v).drop (n + 1) = v := by
  rw [show u ++ x :: v = (u ++ [x]) ++ v by simp,
    show n + 1 = (u ++ [x]).length by simp [hu], List.drop_left]

theorem view_decomp (curr : Nat) (rs : List ViewRegion) (h : curr + 1 < rs.length) :
    ∃ u c o t, rs = u ++ c :: o :: t ∧ u.length = curr := by
  have h1 := List.take_append_drop curr rs
  cases hd : rs.drop curr with
  | nil =>
    have h2 := List.length_drop curr rs
    rw [hd] at h2
    simp at h2
    omega
  | cons c rest =>
    cases rest with
    | nil =>
      have h2 := List.length_drop curr rs
      rw [hd] at h2
      simp at h2
      omega
    | cons o t =>
      refine ⟨rs.take curr, c, o, t, ?_, ?_⟩
      · conv_lhs => rw [← h1]
        rw [hd]
      · rw [List.length_take]
        omega

theorem mergeAt_last (curr : Nat) (rs : List ViewRegion)
    (h : curr = rs.length - 1) :
    ViewRegion.merge_at curr rs = .ok (rs.length, rs) := by
  unfold ViewRegion.merge_at
  rw [if_pos h]

theorem mergeAt_contained_ok (curr : Nat) (u : List ViewRegion) (c o : ViewRegion)
    (t : List ViewRegion) (hu : u.length = curr)
    (h1 : c.contains_remap o = true)
    (h2 : (decide (c.access.start ≤ o.access.start) &&
        decide (o.access.end_addr ≤ c.access.end_addr)) = true) :
    ViewRegion.merge_at curr (u ++ c :: o :: t) = .ok (curr, u ++ c :: t) := by
  unfold ViewRegion.merge_at
  rw [if_neg (show ¬ curr = (u ++ c :: o :: t).length - 1 by
    simp only [List.length_append, List.length_cons, hu]; omega)]
  rw [show (u ++ c :: o :: t).drop curr = c :: o :: t by rw [← hu, List.drop_left]]
  dsimp only
  rw [if_pos h1, if_neg (by simp [h2]),
    show (u ++ c :: o :: t).take curr = u by rw [← hu, List.take_left]]

theorem mergeAt_contained_err (curr : Nat) (u : List ViewRegion) (c o : ViewRegion)
    (t : List ViewRegion) (hu : u.length = curr)
    (h1 : c.contains_remap o = true)
    (h2 : (decide (c.access.start ≤ o.access.start) &&
        decide (o.access.end_addr ≤ c.access.end_addr)) = false) :
    ViewRegion.merge_at curr (u ++ c :: o :: t) = .error CapaError.DoubleRemapping := by
  unfold ViewRegion.merge_at
  rw [if_neg (show ¬ curr = (u ++ c :: o :: t).length - 1 by
    simp only [List.length_append, List.length_cons, hu]; omega)]
  rw [show (u ++ c :: o :: t).drop curr = c :: o :: t by rw [← hu, List.drop_left]]
  dsimp only
  rw [if_pos h1, if_pos (by simp [h2])]

theorem mergeAt_contiguous (curr : Nat) (u : List ViewRegion) (c o : ViewRegion)
    (t : List ViewRegion) (hu : u.length = curr)
    (h1 : c.contains_remap o = false)
    (h2 : c.contiguous o = true) :
    ViewRegion.merge_at curr (u ++ c :: o :: t) = .ok (curr,
      u ++ ViewRegion.new
        (Access.new c.access.start (c.access.size + o.access.size) c.access.rights)
        c.remap :: t) := by
  unfold ViewRegion.merge_at
  rw [if_neg (show ¬ curr = (u ++ c :: o :: t).length - 1 by
    simp only [List.length_append, List.length_cons, hu]; omega)]
  rw [show (u ++ c :: o :: t).drop curr = c :: o :: t by rw [← hu, List.drop_left]]
  dsimp only
  rw [if_neg (by simp [h1]), if_pos h2,
    show (u ++ c :: o :: t).take curr = u by rw [← hu, List.take_left]]

theorem mergeAt_overlap_err (curr : Nat) (u : List ViewRegion) (c o : ViewRegion)
    (t : List ViewRegion) (hu : u.length = curr)
    (h1 : c.contains_remap o = false)
    (h2 : c.contiguous o = false)
    (h3 : c.overlap_remap o = true)
    (h4 : c.overlap o = false) :
    ViewRegion.merge_at curr (u ++ c :: o :: t) = .error CapaError.DoubleRemapping := by
  unfold ViewRegion.merge_at
  rw [if_neg (show ¬ curr = (u ++ c :: o :: t).length - 1 by
    simp only [List.length_append, List.length_cons, hu]; omega)]
  rw [show (u ++ c :: o :: t).drop curr = c :: o :: t by rw [← hu, List.drop_left]]
  dsimp only
  rw [if_neg (by simp [h1]), if_neg (by simp [h2]), if_pos h3, if_pos (by simp [h4])]

theorem mergeAt_overlap_zero (curr : Nat) (u : List ViewRegion) (c o : ViewRegion)
    (t : List ViewRegion) (hu : u.length = curr)
    (h1 : c.contains_remap o = false)
    (h2 : c.contiguous o = false)
    (h3 : c.overlap_remap o = true)
    (h4 : c.overlap o = true)
    (h5 : o.access.start - c.access.start = 0) :
    ViewRegion.merge_at curr (u ++ c :: o :: t) = .ok (curr,
      u ++ mergeMiddle c o :: mergeOther c o :: t) := by
  unfold ViewRegion.merge_at
  rw [if_neg (show ¬ curr = (u ++ c :: o :: t).length - 1 by
    simp only [List.length_append, List.length_cons, hu]; omega)]
  rw [show (u ++ c :: o :: t).drop curr = c :: o :: t by rw [← hu, List.drop_left]]
  dsimp only
  rw [if_neg (by simp [h1]), if_neg (by simp [h2]), if_pos h3, if_neg (by simp [h4]),
    show (u ++ c :: o :: t).take curr = u by rw [← hu, List.take_left]]
  dsimp only [mergeMiddle, mergeLeft, mergeOther, ViewRegion.new, Access.new,
    Access.end_addr]
  rw [if_pos h5]

theorem mergeAt_overlap_pos (curr : Nat) (u : List ViewRegion) (c o : ViewRegion)
    (t : List ViewRegion) (hu : u.length = curr)
    (h1 : c.contains_remap o = false)
    (h2 : c.contiguous o = false)
    (h3 : c.overlap_remap o = true)
    (h4 : c.overlap o = true)
    (h5 : ¬ o.access.start - c.access.start = 0) :
    ViewRegion.merge_at curr (u ++ c :: o :: t) = .ok (curr,
      u ++ mergeLeft c o :: mergeMiddle c o :: mergeOther c o :: t) := by
  unfold ViewRegion.merge_at
  rw [if_neg (show ¬ curr = (u ++ c :: o :: t).length - 1 by
    simp only [List.length_append, List.length_cons, hu]; omega)]
  rw [show (u ++ c :: o :: t).drop curr = c :: o :: t by rw [← hu, List.drop_left]]
  dsimp only
  rw [if_neg (by simp [h1]), if_neg (by simp [h2]), if_pos h3, if_neg (by simp [h4]),
    show (u ++ c :: o :: t).take curr = u by rw [← hu, List.take_left]]
  dsimp only [mergeMiddle, mergeLeft, mergeOther, ViewRegion.new, Access.new,
    Access.end_addr]
  rw [if_neg h5]

theorem mergeAt_skip (curr : Nat) (u : List ViewRegion) (c o : ViewRegion)
    (t : List ViewRegion) (hu : u.length = curr)
    (h1 : c.contains_remap o = false)
    (h2 : c.contiguous o = false)
    (h3 : c.overlap_remap o = false) :
    ViewRegion.merge_at curr (u ++ c :: o :: t) = .ok (curr + 1, u ++ c :: o :: t) := by
  unfold ViewRegion.merge_at
  rw [if_neg (show ¬ curr = (u ++ c :: o :: t).length - 1 by
    simp only [List.length_append, List.length_cons, hu]; omega)]
  rw [show (u ++ c :: o :: t).drop curr = c :: o :: t by rw [← hu, List.drop_left]]
  dsimp only
  rw [if_neg (by simp [h1]), if_neg (by simp [h2]), if_neg (by simp [h3])]

theorem coalesceLoop_succ_ok (fuel curr : Nat) (rs rs2 : List ViewRegion) (nxt : Nat)
    (h : curr < rs.length) (hm : ViewRegion.merge_at curr rs = .ok (nxt, rs2)) :
    coalesceLoop (fuel + 1) curr rs = coalesceLoop fuel nxt rs2 := by
  simp only [coalesceLoop]
  rw [if_pos h, hm]

theorem coalesceLoop_succ_err (fuel curr : Nat) (rs : List ViewRegion) (e : CapaError)
    (h : curr < rs.length) (hm : ViewRegion.merge_at curr rs = .error e) :
    coalesceLoop (fuel + 1) curr rs = .error (RunErr.capa e) := by
  simp only [coalesceLoop]
  rw [if_pos h, hm]

theorem coalesceLoop_done (fuel curr : Nat) (rs : List ViewRegion)
    (h : ¬ curr < rs.length) :
    coalesceLoop (fuel + 1) curr rs = .ok rs := by
  simp only [coalesceLoop]
  rw [if_neg h]

theorem coalesceLoop_terminates :
    ∀ T Z R curr rs, totalSize rs = T → zcount (rs.drop (curr + 1)) = Z →
      rs.length - curr = R →
      ∃ fuel, coalesceLoop fuel curr rs ≠ Except.error RunErr.fuelOut := by
  intro T
  induction T using Nat.strong_induction_on with
  | _ T IH1 =>
  intro Z
  induction Z using Nat.strong_induction_on with
  | _ Z IH2 =>
  intro R
  induction R using Nat.strong_induction_on with
  | _ R IH3 =>
  intro curr rs hT hZ hR
  by_cases hlt : curr < rs.length
  · by_cases hlast : curr + 1 < rs.length
    · obtain ⟨u, c, o, t, hrs, hu⟩ := view_decomp curr rs hlast
      subst hrs
      have hlen2 : (u ++ c :: o :: t).length = curr + (t.length + 2) := by
        simp only [List.length_append, List.length_cons, hu]
      have hTe : totalSize u + (c.access.size + (o.access.size + totalSize t)) = T := by
        rw [← hT, totalSize_append, totalSize_cons, totalSize_cons]
      have hZe : zcount t + (if o.access.size = 0 then 1 else 0) = Z := by
        rw [← hZ, drop_len_succ u c (o :: t) curr hu, zcount_cons]
      have hRe : curr + (t.length + 2) - curr = R := by rw [← hR, hlen2]
      by_cases h1 : c.contains_remap o = true
      · by_cases h2 : (decide (c.access.start ≤ o.access.start) &&
            decide (o.access.end_addr ≤ c.access.end_addr)) = true
        · have hstep := mergeAt_contained_ok curr u c o t hu h1 h2
          have hnext : ∃ fuel, coalesceLoop fuel curr (u ++ c :: t) ≠
              Except.error RunErr.fuelOut := by
            by_cases hz : o.access.size = 0
            · rw [if_pos hz] at hZe
              refine IH2 (zcount t) (by omega) ((u ++ c :: t).length - curr) curr
                (u ++ c :: t) ?_ ?_ rfl
              · rw [totalSize_append, totalSize_cons]
                omega
              · rw [drop_len_succ u c t curr hu]
            · rw [if_neg hz] at hZe
              refine IH1 (totalSize (u ++ c :: t)) ?_
                (zcount ((u ++ c :: t).drop (curr + 1)))
                ((u ++ c :: t).length - curr) curr (u ++ c :: t) rfl rfl rfl
              rw [totalSize_append, totalSize_cons]
              omega
          obtain ⟨f, hf⟩ := hnext
          exact ⟨f + 1, by
            rw [coalesceLoop_succ_ok f curr _ _ curr hlt hstep]
            exact hf⟩
        · simp only [Bool.not_eq_true] at h2
          have hstep := mergeAt_contained_err curr u c o t hu h1 h2
          exact ⟨1, by
            rw [coalesceLoop_succ_err 0 curr _ CapaError.DoubleRemapping hlt hstep]
            simp⟩
      · simp only [Bool.not_eq_true] at h1
        by_cases h2c : c.contiguous o = true
        · have hstep := mergeAt_contiguous curr u c o t hu h1 h2c
          have hfsz : (ViewRegion.new
              (Access.new c.access.start (c.access.size + o.access.size) c.access.rights)
              c.remap).access.size = c.access.size + o.access.size := rfl
          have hnext : ∃ fuel, coalesceLoop fuel curr (u ++ ViewRegion.new
              (Access.new c.access.start (c.access.size + o.access.size) c.access.rights)
              c.remap :: t) ≠ Except.error RunErr.fuelOut := by
            by_cases hz : o.access.size = 0
            · rw [if_pos hz] at hZe
              refine IH2 (zcount t) (by omega) _ curr _ ?_ ?_ rfl
              · rw [totalSize_append, totalSize_cons, hfsz]
                omega
              · rw [drop_len_succ u _ t curr hu]
            · rw [if_neg hz] at hZe
              refine IH3 ((u ++ ViewRegion.new
                  (Access.new c.access.start (c.access.size + o.access.size)
                    c.access.rights) c.remap :: t).length - curr) ?_ curr _ ?_ ?_ rfl
              · simp only [List.length_append, List.length_cons, hu]
                omega
              · rw [totalSize_append, totalSize_cons, hfsz]
                omega
              · rw [drop_len_succ u _ t curr hu]
                omega
          obtain ⟨f, hf⟩ := hnext
          exact ⟨f + 1, by
            rw [coalesceLoop_succ_ok f curr _ _ curr hlt hstep]
            exact hf⟩
        · simp only [Bool.not_eq_true] at h2c
          by_cases h3 : c.overlap_remap o = true
          · by_cases h4 : c.overlap o = true
            · have hov : c.access.start ≤ o.access.start ∧
                  o.access.start < c.access.end_addr := by
                simpa [ViewRegion.overlap] using h4
              have hce : c.access.end_addr = c.access.start + c.access.size := rfl
              have hoe : o.access.end_addr = o.access.start + o.access.size := rfl
              have hm1 : (mergeMiddle c o).access.size =
                  min c.access.end_addr o.access.end_addr - o.access.start := rfl
              have hm2 : (mergeOther c o).access.size =
                  max c.access.end_addr o.access.end_addr -
                    (o.access.start +
                      (min c.access.end_addr o.access.end_addr - o.access.start)) := rfl
              have hm3 : (mergeLeft c o).access.size =
                  o.access.start - c.access.start := rfl
              have hmin1 := Nat.min_le_left c.access.end_addr o.access.end_addr
              have hmin2 := Nat.min_le_right c.access.end_addr o.access.end_addr
              have hmax1 := Nat.le_max_left c.access.end_addr o.access.end_addr
              have hmax2 := Nat.le_max_right c.access.end_addr o.access.end_addr
              have hminc := min_choice c.access.end_addr o.access.end_addr
              have hmaxc := max_choice c.access.end_addr o.access.end_addr
              by_cases h5 : o.access.start - c.access.start = 0
              · have hstep := mergeAt_overlap_zero curr u c o t hu h1 h2c h3 h4 h5
                have hnext : ∃ fuel, coalesceLoop fuel curr
                    (u ++ mergeMiddle c o :: mergeOther c o :: t) ≠
                    Except.error RunErr.fuelOut := by
                  by_cases hz : o.access.size = 0
                  · rw [if_pos hz] at hZe
                    have hO : ¬ (mergeOther c o).access.size = 0 := by
                      rw [hm2]
                      omega
                    refine IH2 (zcount t) (by omega) _ curr _ ?_ ?_ rfl
                    · rw [totalSize_append, totalSize_cons, totalSize_cons, hm1, hm2]
                      omega
                    · rw [drop_len_succ u _ (mergeOther c o :: t) curr hu, zcount_cons,
                        if_neg hO]
                      omega
                  · refine IH1 (totalSize (u ++ mergeMiddle c o :: mergeOther c o :: t))
                      ?_ (zcount ((u ++ mergeMiddle c o :: mergeOther c o :: t).drop
                        (curr + 1)))
                      ((u ++ mergeMiddle c o :: mergeOther c o :: t).length - curr)
                      curr _ rfl rfl rfl
                    rw [totalSize_append, totalSize_cons, totalSize_cons, hm1, hm2]
                    omega
                obtain ⟨f, hf⟩ := hnext
                exact ⟨f + 1, by
                  rw [coalesceLoop_succ_ok f curr _ _ curr hlt hstep]
                  exact hf⟩
              · have hstep := mergeAt_overlap_pos curr u c o t hu h1 h2c h3 h4 h5
                by_cases hz : o.access.size = 0
                · rw [if_pos hz] at hZe
                  have hM0 : (mergeMiddle c o).access.size = 0 := by
                    rw [hm1]
                    omega
                  have hO : ¬ (mergeOther c o).access.size = 0 := by
                    rw [hm2]
                    omega
                  have hL : ¬ (mergeLeft c o).access.size = 0 := by
                    rw [hm3]
                    omega
                  have hlt2 : curr < (u ++ mergeLeft c o :: mergeMiddle c o ::
                      mergeOther c o :: t).length := by
                    simp only [List.length_append, List.length_cons, hu]
                    omega
                  by_cases k1 : (mergeLeft c o).contains_remap (mergeMiddle c o) = true
                  · by_cases k2 : (decide ((mergeLeft c o).access.start ≤
                        (mergeMiddle c o).access.start) &&
                        decide ((mergeMiddle c o).access.end_addr ≤
                          (mergeLeft c o).access.end_addr)) = true
                    · have hstep2 := mergeAt_contained_ok curr u (mergeLeft c o)
                        (mergeMiddle c o) (mergeOther c o :: t) hu k1 k2
                      have hnext : ∃ fuel, coalesceLoop fuel curr
                          (u ++ mergeLeft c o :: mergeOther c o :: t) ≠
                          Except.error RunErr.fuelOut := by
                        refine IH2 (zcount t) (by omega) _ curr _ ?_ ?_ rfl
                        · rw [totalSize_append, totalSize_cons, totalSize_cons, hm3, hm2]
                          omega
                        · rw [drop_len_succ u _ (mergeOther c o :: t) curr hu,
                            zcount_cons, if_neg hO]
                          omega
                      obtain ⟨f, hf⟩ := hnext
                      exact ⟨f + 2, by
                        rw [coalesceLoop_succ_ok (f + 1) curr _ _ curr hlt hstep,
                          coalesceLoop_succ_ok f curr _ _ curr hlt2 hstep2]
                        exact hf⟩
                    · simp only [Bool.not_eq_true] at k2
                      have hstep2 := mergeAt_contained_err curr u (mergeLeft c o)
                        (mergeMiddle c o) (mergeOther c o :: t) hu k1 k2
                      exact ⟨2, by
                        rw [coalesceLoop_succ_ok 1 curr _ _ curr hlt hstep,
                          coalesceLoop_succ_err 0 curr _ CapaError.DoubleRemapping hlt2
                            hstep2]
                        simp⟩
                  · simp only [Bool.not_eq_true] at k1
                    by_cases k2 : (mergeLeft c o).contiguous (mergeMiddle c o) = true
                    · have hstep2 := mergeAt_contiguous curr u (mergeLeft c o)
                        (mergeMiddle c o) (mergeOther c o :: t) hu k1 k2
                      have hfsz : (ViewRegion.new
                          (Access.new (mergeLeft c o).access.start
                            ((mergeLeft c o).access.size + (mergeMiddle c o).access.size)
                            (mergeLeft c o).access.rights)
                          (mergeLeft c o).remap).access.size =
                          (mergeLeft c o).access.size + (mergeMiddle c o).access.size :=
                        rfl
                      have hnext : ∃ fuel, coalesceLoop fuel curr
                          (u ++ ViewRegion.new
                            (Access.new (mergeLeft c o).access.start
                              ((mergeLeft c o).access.size + (mergeMiddle c o).access.size)
                              (mergeLeft c o).access.rights)
                            (mergeLeft c o).remap :: mergeOther c o :: t) ≠
                          Except.error RunErr.fuelOut := by
                        refine IH2 (zcount t) (by omega) _ curr _ ?_ ?_ rfl
                        · rw [totalSize_append, totalSize_cons, totalSize_cons, hfsz,
                            hm3, hm1, hm2]
                          omega
                        · rw [drop_len_succ u _ (mergeOther c o :: t) curr hu,
                            zcount_cons, if_neg hO]
                          omega
                      obtain ⟨f, hf⟩ := hnext
                      exact ⟨f + 2, by
                        rw [coalesceLoop_succ_ok (f + 1) curr _ _ curr hlt hstep,
                          coalesceLoop_succ_ok f curr _ _ curr hlt2 hstep2]
                        exact hf⟩
                    · simp only [Bool.not_eq_true] at k2
                      by_cases k3 : (mergeLeft c o).overlap_remap (mergeMiddle c o) = true
                      · have k4 : (mergeLeft c o).overlap (mergeMiddle c o) = false := by
                          simp only [ViewRegion.overlap, mergeLeft, mergeMiddle,
                            ViewRegion.new, Access.new, Access.end_addr]
                          simp only [Bool.and_eq_false_iff, decide_eq_false_iff_not]
                          omega
                        have hstep2 := mergeAt_overlap_err curr u (mergeLeft c o)
                          (mergeMiddle c o) (mergeOther c o :: t) hu k1 k2 k3 k4
                        exact ⟨2, by
                          rw [coalesceLoop_succ_ok 1 curr _ _ curr hlt hstep,
                            coalesceLoop_succ_err 0 curr _ CapaError.DoubleRemapping hlt2
                              hstep2]
                          simp⟩
                      · simp only [Bool.not_eq_true] at k3
                        have hstep2 := mergeAt_skip curr u (mergeLeft c o)
                          (mergeMiddle c o) (mergeOther c o :: t) hu k1 k2 k3
                        have hnext : ∃ fuel, coalesceLoop fuel (curr + 1)
                            (u ++ mergeLeft c o :: mergeMiddle c o ::
                              mergeOther c o :: t) ≠
                            Except.error RunErr.fuelOut := by
                          refine IH2 (zcount t) (by omega) _ (curr + 1) _ ?_ ?_ rfl
                          · rw [totalSize_append, totalSize_cons, totalSize_cons,
                              totalSize_cons, hm3, hm1, hm2]
                            omega
                          · rw [show u ++ mergeLeft c o :: mergeMiddle c o ::
                                mergeOther c o :: t = (u ++ [mergeLeft c o]) ++
                                mergeMiddle c o :: mergeOther c o :: t by simp,
                              drop_len_succ (u ++ [mergeLeft c o]) _
                                (mergeOther c o :: t) (curr + 1) (by simp [hu]),
                              zcount_cons, if_neg hO]
                            omega
                        obtain ⟨f, hf⟩ := hnext
                        exact ⟨f + 2, by
                          rw [coalesceLoop_succ_ok (f + 1) curr _ _ curr hlt hstep,
                            coalesceLoop_succ_ok f curr _ _ (curr + 1) hlt2 hstep2]
                          exact hf⟩
                · rw [if_neg hz] at hZe
                  have hnext : ∃ fuel, coalesceLoop fuel curr
                      (u ++ mergeLeft c o :: mergeMiddle c o :: mergeOther c o :: t) ≠
                      Except.error RunErr.fuelOut := by
                    refine IH1 (totalSize (u ++ mergeLeft c o :: mergeMiddle c o ::
                        mergeOther c o :: t)) ?_
                      (zcount ((u ++ mergeLeft c o :: mergeMiddle c o ::
                        mergeOther c o :: t).drop (curr + 1)))
                      ((u ++ mergeLeft c o :: mergeMiddle c o ::
                        mergeOther c o :: t).length - curr) curr _ rfl rfl rfl
                    rw [totalSize_append, totalSize_cons, totalSize_cons, totalSize_cons,
                      hm3, hm1, hm2]
                    omega
                  obtain ⟨f, hf⟩ := hnext
                  exact ⟨f + 1, by
                    rw [coalesceLoop_succ_ok f curr _ _ curr hlt hstep]
                    exact hf⟩
            · simp only [Bool.not_eq_true] at h4
              have hstep := mergeAt_overlap_err curr u c o t hu h1 h2c h3 h4
              exact ⟨1, by
                rw [coalesceLoop_succ_err 0 curr _ CapaError.DoubleRemapping hlt hstep]
                simp⟩
          · simp only [Bool.not_eq_true] at h3
            have hstep := mergeAt_skip curr u c o t hu h1 h2c h3
            have hnext : ∃ fuel, coalesceLoop fuel (curr + 1) (u ++ c :: o :: t) ≠
                Except.error RunErr.fuelOut := by
              by_cases hz : o.access.size = 0
              · rw [if_pos hz] at hZe
                refine IH2 (zcount t) (by omega) _ (curr + 1) _ hT ?_ rfl
                rw [show u ++ c :: o :: t = (u ++ [c]) ++ o :: t by simp,
                  drop_len_succ (u ++ [c]) o t (curr + 1) (by simp [hu])]
              · rw [if_neg hz] at hZe
                refine IH3 ((u ++ c :: o :: t).length - (curr + 1)) ?_ (curr + 1) _
                  hT ?_ rfl
                · rw [hlen2]
                  omega
                · rw [show u ++ c :: o :: t = (u ++ [c]) ++ o :: t by simp,
                    drop_len_succ (u ++ [c]) o t (curr + 1) (by simp [hu])]
                  omega
            obtain ⟨f, hf⟩ := hnext
            exact ⟨f + 1, by
              rw [coalesceLoop_succ_ok f curr _ _ (curr + 1) hlt hstep]
              exact hf⟩
    · have hlastEq : curr = rs.length - 1 := by omega
      exact ⟨2, by
        rw [coalesceLoop_succ_ok 1 curr rs rs rs.length hlt (mergeAt_last curr rs hlastEq),
          coalesceLoop_done 0 rs.length rs (by omega)]
        simp⟩
  · exact ⟨1, by
      rw [coalesceLoop_done 0 curr rs hlt]
      simp⟩

/-- C7: the domain-view coalescing loop terminates on every finite list of
view regions: there is a fuel bound under which the iteration of merge_at
(starting at index 0) never exhausts its fuel — it reaches the list length
or stops with an error after finitely many steps. -/
theorem C7_coalesce_terminates (regions : List ViewRegion) :
    ∃ fuel, coalesce_view_regions fuel regions ≠ Except.error RunErr.fuelOut := by
  obtain ⟨fuel, hf⟩ := coalesceLoop_terminates (totalSize regions)
    (zcount (regions.drop 1)) regions.length 0 regions rfl rfl rfl
  exact ⟨fuel, hf⟩

/- ———————————————— C5: the view subtracts exactly the carves ———————————————— -/

/-- The remap attached to a view segment beginning at start: the node's
remap shifted by the offset from the node's base (view's let r). -/
def viewShift (self : MemoryRegion) (start : Nat) : Remapped :=
  match self.remapped with
  | .Identity => Remapped.Identity
  | .Remapped x => Remapped.Remapped (x + (start - self.access.start))

/-- The loop body of Capability::<MemoryRegion>::view, as a named function
(definitionally the step let-bound inside regionView). -/
def viewStep (self : MemoryRegion) (acc : Nat × List ViewRegion) (c : MemoryRegion) :
    Nat × List ViewRegion :=
  let start := acc.1
  let views := acc.2
  if c.kind == RegionKind.Alias then (start, views)
  else if decide (start ≤ c.access.start) then
    let r := match self.remapped with
      | .Identity => Remapped.Identity
      | .Remapped x => Remapped.Remapped (x + (start - self.access.start))
    let views := if c.access.start ≠ start then
        views ++ [ViewRegion.new (Access.new start (c.access.start - start)
          self.access.rights) r]
      else views
    (c.access.end_addr, views)
  else (start, views)

theorem regionView_eq (self : MemoryRegion) (children : List MemoryRegion) :
    regionView self children =
      (if ((stableSort (fun a b => decide (a.access.start ≤ b.access.start))
          children).foldl (viewStep self) (self.access.start, [])).1 <
          self.access.end_addr then
        ((stableSort (fun a b => decide (a.access.start ≤ b.access.start))
          children).foldl (viewStep self) (self.access.start, [])).2 ++
          [ViewRegion.new
            (Access.new ((stableSort (fun a b => decide (a.access.start ≤
                b.access.start)) children).foldl (viewStep self)
                (self.access.start, [])).1
              (self.access.end_addr - ((stableSort (fun a b =>
                decide (a.access.start ≤ b.access.start)) children).foldl
                (viewStep self) (self.access.start, [])).1)
              self.access.rights)
            (viewShift self ((stableSort (fun a b => decide (a.access.start ≤
              b.access.start)) children).foldl (viewStep self)
              (self.access.start, [])).1)]
      else ((stableSort (fun a b => decide (a.access.start ≤ b.access.start))
        children).foldl (viewStep self) (self.access.start, [])).2) := rfl

theorem insertSorted_perm {α : Type} (le : α → α → Bool) (x : α) (l : List α) :
    (insertSorted le x l).Perm (x :: l) := by
  induction l with
  | nil => exact List.Perm.refl _
  | cons y t IH =>
    unfold insertSorted
    by_cases h : le y x = true
    · rw [if_pos h]
      exact (IH.cons y).trans (List.Perm.swap x y t)
    · rw [if_neg h]

theorem stableSort_aux_perm {α : Type} (le : α → α → Bool) :
    ∀ (l acc : List α),
      (l.foldl (fun a x => insertSorted le x a) acc).Perm (acc ++ l) := by
  intro l
  induction l with
  | nil => intro acc; simp
  | cons x t IH =>
    intro acc
    rw [List.foldl_cons]
    refine (IH (insertSorted le x acc)).trans ?_
    refine ((insertSorted_perm le x acc).append_right t).trans ?_
    exact List.perm_middle.symm

theorem stableSort_perm {α : Type} (le : α → α → Bool) (l : List α) :
    (stableSort le l).Perm l := by
  have h := stableSort_aux_perm le l []
  simpa [stableSort] using h

theorem insertSorted_sorted {α : Type} (le : α → α → Bool)
    (htot : ∀ a b, le a b = true ∨ le b a = true)
    (htr : ∀ a b c, le a b = true → le b c = true → le a c = true)
    (x : α) : ∀ l : List α, l.Pairwise (fun a b => le a b = true) →
      (insertSorted le x l).Pairwise (fun a b => le a b = true) := by
  intro l
  induction l with
  | nil =>
    intro _
    exact List.pairwise_singleton _ _
  | cons y t IH =>
    intro h
    rw [List.pairwise_cons] at h
    obtain ⟨hy, ht⟩ := h
    unfold insertSorted
    by_cases hxy : le y x = true
    · rw [if_pos hxy]
      rw [List.pairwise_cons]
      refine ⟨?_, IH ht⟩
      intro b hb
      have hmem := (insertSorted_perm le x t).mem_iff.mp hb
      rcases List.mem_cons.mp hmem with rfl | hbt
      · exact hxy
      · exact hy b hbt
    · rw [if_neg hxy]
      have hxyt : le x y = true := (htot x y).resolve_right hxy
      rw [List.pairwise_cons]
      refine ⟨?_, List.pairwise_cons.mpr ⟨hy, ht⟩⟩
      intro b hb
      rcases List.mem_cons.mp hb with rfl | hbt
      · exact hxyt
      · exact htr x y b hxyt (hy b hbt)

theorem stableSort_aux_sorted {α : Type} (le : α → α → Bool)
    (htot : ∀ a b, le a b = true ∨ le b a = true)
    (htr : ∀ a b c, le a b = true → le b c = true → le a c = true) :
    ∀ (l acc : List α), acc.Pairwise (fun a b => le a b = true) →
      (l.foldl (fun a x => insertSorted le x a) acc).Pairwise
        (fun a b => le a b = true) := by
  intro l
  induction l with
  | nil => intro acc h; exact h
  | cons x t IH =>
    intro acc h
    rw [List.foldl_cons]
    exact IH (insertSorted le x acc) (insertSorted_sorted le htot htr x acc h)

theorem stableSort_sorted {α : Type} (le : α → α → Bool)
    (htot : ∀ a b, le a b = true ∨ le b a = true)
    (htr : ∀ a b c, le a b = true → le b c = true → le a c = true)
    (l : List α) :
    (stableSort le l).Pairwise (fun a b => le a b = true) :=
  stableSort_aux_sorted le htot htr l [] List.Pairwise.nil

theorem intersect_comm (a b : Access) : a.intersect b = b.intersect a := by
  unfold Access.intersect
  rw [Bool.or_comm]

theorem viewStep_append1 (self : MemoryRegion) (c : MemoryRegion) (start : Nat)
    (vs : List ViewRegion) :
    viewStep self (start, vs) c = ((viewStep self (start, []) c).1,
      vs ++ (viewStep self (start, []) c).2) := by
  unfold viewStep
  dsimp only
  by_cases h1 : (c.kind == RegionKind.Alias) = true
  · rw [if_pos h1, if_pos h1]
    simp
  · rw [if_neg h1, if_neg h1]
    by_cases h2 : decide (start ≤ c.access.start) = true
    · rw [if_pos h2, if_pos h2]
      by_cases h3 : c.access.start ≠ start
      · rw [if_pos h3, if_pos h3]
        simp
      · rw [if_neg h3, if_neg h3]
        simp
    · rw [if_neg h2, if_neg h2]
      simp

theorem viewStep_append (self : MemoryRegion) :
    ∀ (S : List MemoryRegion) (start : Nat) (vs : List ViewRegion),
      S.foldl (viewStep self) (start, vs) =
        ((S.foldl (viewStep self) (start, [])).1,
         vs ++ (S.foldl (viewStep self) (start, [])).2) := by
  intro S
  induction S with
  | nil =>
    intro start vs
    simp
  | cons c S IH =>
    intro start vs
    rcases hvs : viewStep self (start, []) c with ⟨st1, d1⟩
    have h1 := viewStep_append1 self c start vs
    rw [hvs] at h1
    dsimp only at h1
    rw [List.foldl_cons, List.foldl_cons, h1, hvs, IH st1 (vs ++ d1), IH st1 d1]
    simp

theorem viewFold_spec (self : MemoryRegion) :
    ∀ (S : List MemoryRegion) (start : Nat),
    (∀ c ∈ S, c.kind = RegionKind.Carve → start ≤ c.access.start ∧
      c.access.end_addr ≤ self.access.end_addr) →
    (S.Pairwise (fun a b => a.access.start ≤ b.access.start ∧
      (a.kind = RegionKind.Carve → b.kind = RegionKind.Carve →
        a.access.end_addr ≤ b.access.start))) →
    start ≤ (S.foldl (viewStep self) (start, [])).1 ∧
    ((S.foldl (viewStep self) (start, [])).1 = start ∨
      (S.foldl (viewStep self) (start, [])).1 ≤ self.access.end_addr) ∧
    (∀ c ∈ S, c.kind = RegionKind.Carve →
      c.access.end_addr ≤ (S.foldl (viewStep self) (start, [])).1) ∧
    (∀ v ∈ (S.foldl (viewStep self) (start, [])).2,
      v.access.rights = self.access.rights ∧ 0 < v.access.size ∧
      start ≤ v.access.start ∧
      v.access.end_addr ≤ (S.foldl (viewStep self) (start, [])).1 ∧
      v.remap = viewShift self v.access.start) ∧
    ((S.foldl (viewStep self) (start, [])).2.Pairwise
      (fun a b => a.access.end_addr ≤ b.access.start)) ∧
    (∀ p : Nat, (∃ v ∈ (S.foldl (viewStep self) (start, [])).2,
        v.access.start ≤ p ∧ p < v.access.end_addr) ↔
      (start ≤ p ∧ p < (S.foldl (viewStep self) (start, [])).1 ∧
        ∀ c ∈ S, c.kind = RegionKind.Carve →
          ¬(c.access.start ≤ p ∧ p < c.access.end_addr))) := by
  intro S
  induction S with
  | nil =>
    intro start hS1 hS2
    dsimp only [List.foldl_nil]
    refine ⟨Nat.le_refl _, Or.inl rfl, ?_, ?_, List.Pairwise.nil, ?_⟩
    · intro c hc
      exact absurd hc (List.not_mem_nil c)
    · intro v hv
      exact absurd hv (List.not_mem_nil v)
    · intro p
      constructor
      · rintro ⟨v, hv, -⟩
        exact absurd hv (List.not_mem_nil v)
      · rintro ⟨h3, h4, -⟩
        omega
  | cons c S IH =>
    intro start hS1 hS2
    rw [List.pairwise_cons] at hS2
    obtain ⟨hhead, htail⟩ := hS2
    have hS1t : ∀ c2 ∈ S, c2.kind = RegionKind.Carve →
        start ≤ c2.access.start ∧ c2.access.end_addr ≤ self.access.end_addr :=
      fun c2 h hk => hS1 c2 (List.mem_cons_of_mem c h) hk
    by_cases hk : (c.kind == RegionKind.Alias) = true
    · have hkind : c.kind = RegionKind.Alias := by
        cases hck : c.kind with
        | Carve => rw [hck] at hk; simp at hk
        | Alias => rfl
      have hstep : viewStep self (start, ([] : List ViewRegion)) c = (start, []) := by
        unfold viewStep
        dsimp only
        rw [if_pos hk]
      rw [List.foldl_cons, hstep]
      obtain ⟨r1, r2, r3, r4, r5, r6⟩ := IH start hS1t htail
      refine ⟨r1, r2, ?_, r4, r5, ?_⟩
      · intro c2 hc2 hk2
        rcases List.mem_cons.mp hc2 with rfl | h
        · rw [hkind] at hk2; cases hk2
        · exact r3 c2 h hk2
      · intro p
        rw [r6 p]
        constructor
        · rintro ⟨a, b, cfree⟩
          refine ⟨a, b, ?_⟩
          intro c2 hc2 hk2
          rcases List.mem_cons.mp hc2 with rfl | h
          · rw [hkind] at hk2; cases hk2
          · exact cfree c2 h hk2
        · rintro ⟨a, b, cfree⟩
          exact ⟨a, b, fun c2 h hk2 => cfree c2 (List.mem_cons_of_mem c h) hk2⟩
    · have hkind : c.kind = RegionKind.Carve := by
        cases hck : c.kind with
        | Carve => rfl
        | Alias => rw [hck] at hk; simp at hk
      obtain ⟨hcs, hce⟩ := hS1 c (List.mem_cons_self c S) hkind
      have hCe : c.access.end_addr = c.access.start + c.access.size := rfl
      have hguard : decide (start ≤ c.access.start) = true := by
        simpa using hcs
      have hS1n : ∀ c2 ∈ S, c2.kind = RegionKind.Carve →
          c.access.end_addr ≤ c2.access.start ∧
          c2.access.end_addr ≤ self.access.end_addr := by
        intro c2 h2 hk2
        exact ⟨(hhead c2 h2).2 hkind hk2, (hS1t c2 h2 hk2).2⟩
      obtain ⟨r1, r2, r3, r4, r5, r6⟩ := IH c.access.end_addr hS1n htail
      rcases hX : S.foldl (viewStep self) (c.access.end_addr, []) with ⟨fin1, vs1⟩
      rw [hX] at r1 r2 r3 r4 r5 r6
      dsimp only at r1 r2 r3 r4 r5 r6
      by_cases hne : c.access.start ≠ start
      · have hstep : viewStep self (start, ([] : List ViewRegion)) c =
            (c.access.end_addr,
             [ViewRegion.new (Access.new start (c.access.start - start)
                self.access.rights) (viewShift self start)]) := by
          unfold viewStep
          dsimp only
          rw [if_neg hk, if_pos hguard, if_pos hne]
          rfl
        have hsegSz : (ViewRegion.new (Access.new start (c.access.start - start)
            self.access.rights) (viewShift self start)).access.size =
            c.access.start - start := rfl
        have hsegSt : (ViewRegion.new (Access.new start (c.access.start - start)
            self.access.rights) (viewShift self start)).access.start = start := rfl
        have hsegEn : (ViewRegion.new (Access.new start (c.access.start - start)
            self.access.rights) (viewShift self start)).access.end_addr =
            start + (c.access.start - start) := rfl
        rw [List.foldl_cons, hstep, viewStep_append self S c.access.end_addr, hX]
        dsimp only
        simp only [List.singleton_append]
        refine ⟨?_, ?_, ?_, ?_, ?_, ?_⟩
        · omega
        · rcases r2 with h | h
          · exact Or.inr (by omega)
          · exact Or.inr h
        · intro c2 hc2 hk2
          rcases List.mem_cons.mp hc2 with rfl | h
          · exact r1
          · exact r3 c2 h hk2
        · intro v hv
          rcases List.mem_cons.mp hv with rfl | h
          · refine ⟨rfl, ?_, ?_, ?_, rfl⟩
            · rw [hsegSz]; omega
            · rw [hsegSt]
            · rw [hsegEn]; omega
          · obtain ⟨q1, q2, q3, q4, q5⟩ := r4 v h
            exact ⟨q1, q2, by omega, q4, q5⟩
        · rw [List.pairwise_cons]
          refine ⟨?_, r5⟩
          intro v hv
          have q := (r4 v hv).2.2.1
          rw [hsegEn]
          omega
        · intro p
          constructor
          · rintro ⟨v, hv, hp1, hp2⟩
            rcases List.mem_cons.mp hv with rfl | h
            · rw [hsegSt] at hp1
              rw [hsegEn] at hp2
              refine ⟨hp1, by omega, ?_⟩
              intro c2 hc2 hk2
              rcases List.mem_cons.mp hc2 with rfl | h2
              · intro hcc; omega
              · have hq := (hS1n c2 h2 hk2).1
                intro hcc
                omega
            · obtain ⟨w1, w2, w3⟩ := (r6 p).mp ⟨v, h, hp1, hp2⟩
              refine ⟨by omega, w2, ?_⟩
              intro c2 hc2 hk2
              rcases List.mem_cons.mp hc2 with rfl | h2
              · intro hcc; omega
              · exact w3 c2 h2 hk2
          · rintro ⟨w1, w2, w3⟩
            have hnotc := w3 c (List.mem_cons_self c S) hkind
            by_cases hp : p < c.access.start
            · refine ⟨_, List.mem_cons_self _ _, ?_, ?_⟩
              · rw [hsegSt]; exact w1
              · rw [hsegEn]; omega
            · have hpe : c.access.end_addr ≤ p := by
                rcases Nat.lt_or_ge p c.access.end_addr with hlt | hge
                · exact absurd ⟨by omega, hlt⟩ hnotc
                · exact hge
              obtain ⟨v, hv, hvp⟩ := (r6 p).mpr
                ⟨hpe, w2, fun c2 h2 hk2 => w3 c2 (List.mem_cons_of_mem c h2) hk2⟩
              exact ⟨v, List.mem_cons_of_mem _ hv, hvp⟩
      · have hceq : c.access.start = start := not_not.mp hne
        have hstep : viewStep self (start, ([] : List ViewRegion)) c =
            (c.access.end_addr, []) := by
          unfold viewStep
          dsimp only
          rw [if_neg hk, if_pos hguard, if_neg hne]
        rw [List.foldl_cons, hstep, hX]
        dsimp only
        refine ⟨by omega, ?_, ?_, ?_, r5, ?_⟩
        · rcases r2 with h | h
          · exact Or.inr (by omega)
          · exact Or.inr h
        · intro c2 hc2 hk2
          rcases List.mem_cons.mp hc2 with rfl | h
          · exact r1
          · exact r3 c2 h hk2
        · intro v hv
          obtain ⟨q1, q2, q3, q4, q5⟩ := r4 v hv
          exact ⟨q1, q2, by omega, q4, q5⟩
        · intro p
          rw [r6 p]
          constructor
          · rintro ⟨w1, w2, w3⟩
            refine ⟨by omega, w2, ?_⟩
            intro c2 hc2 hk2
            rcases List.mem_cons.mp hc2 with rfl | h2
            · intro hcc; omega
            · exact w3 c2 h2 hk2
          · rintro ⟨w1, w2, w3⟩
            have hnotc := w3 c (List.mem_cons_self c S) hkind
            have hpe : c.access.end_addr ≤ p := by
              rcases Nat.lt_or_ge p c.access.end_addr with hlt | hge
              · exact absurd ⟨by omega, hlt⟩ hnotc
              · exact hge
            exact ⟨hpe, w2, fun c2 h2 hk2 => w3 c2 (List.mem_cons_of_mem c h2) hk2⟩

/-- C5: under the claim's hypotheses (every carve child inside the node's
range, carve children pairwise non-intersecting), view returns segments that
all carry the node's rights and the node's remap shifted by the segment's
offset from the node base (Identity staying Identity), are pairwise ordered
by increasing (disjoint) address ranges, and cover exactly the addresses of
the node's range that lie in no carve child — alias children subtract
nothing. -/
theorem C5_view_subtracts_carves (self : MemoryRegion) (children : List MemoryRegion)
    (hcont : ∀ c ∈ children, c.kind = RegionKind.Carve →
      self.access.start ≤ c.access.start ∧
      c.access.end_addr ≤ self.access.end_addr)
    (hdisj : children.Pairwise (fun a b => a.kind = RegionKind.Carve →
      b.kind = RegionKind.Carve → a.access.intersect b.access = false)) :
    (∀ v ∈ regionView self children,
      v.access.rights = self.access.rights ∧ 0 < v.access.size ∧
      self.access.start ≤ v.access.start ∧
      v.access.end_addr ≤ self.access.end_addr ∧
      v.remap = viewShift self v.access.start) ∧
    (regionView self children).Pairwise
      (fun a b => a.access.end_addr ≤ b.access.start) ∧
    (∀ p : Nat,
      (∃ v ∈ regionView self children, v.access.start ≤ p ∧ p < v.access.end_addr) ↔
      (self.access.start ≤ p ∧ p < self.access.end_addr ∧
        ∀ c ∈ children, c.kind = RegionKind.Carve →
          ¬(c.access.start ≤ p ∧ p < c.access.end_addr))) := by
  have htot : ∀ a b : MemoryRegion, (decide (a.access.start ≤ b.access.start)) = true ∨
      (decide (b.access.start ≤ a.access.start)) = true := by
    intro a b
    rcases Nat.le_total a.access.start b.access.start with h | h
    · exact Or.inl (by simpa using h)
    · exact Or.inr (by simpa using h)
  have htr : ∀ a b c : MemoryRegion, decide (a.access.start ≤ b.access.start) = true →
      decide (b.access.start ≤ c.access.start) = true →
      decide (a.access.start ≤ c.access.start) = true := by
    intro a b c h1 h2
    simp only [decide_eq_true_eq] at h1 h2 ⊢
    omega
  have hperm := stableSort_perm
    (fun a b => decide (a.access.start ≤ b.access.start)) children
  have hsorted := stableSort_sorted
    (fun a b => decide (a.access.start ≤ b.access.start)) htot htr children
  have hdisj2 : (stableSort (fun a b => decide (a.access.start ≤ b.access.start))
      children).Pairwise
      (fun a b => a.kind = RegionKind.Carve → b.kind = RegionKind.Carve →
        a.access.intersect b.access = false) := by
    refine (hperm.pairwise_iff ?_).mpr hdisj
    intro a b hab hk2 hk1
    rw [intersect_comm]
    exact hab hk1 hk2
  have hS2 : (stableSort (fun a b => decide (a.access.start ≤ b.access.start))
      children).Pairwise (fun a b =>
      a.access.start ≤ b.access.start ∧ (a.kind = RegionKind.Carve →
        b.kind = RegionKind.Carve → a.access.end_addr ≤ b.access.start)) := by
    refine (hsorted.and hdisj2).imp ?_
    intro a b hab
    obtain ⟨h1, h2⟩ := hab
    have h1p : a.access.start ≤ b.access.start := by simpa using h1
    refine ⟨h1p, ?_⟩
    intro hk1 hk2
    have hint := h2 hk1 hk2
    have hae : a.access.end_addr = a.access.start + a.access.size := rfl
    have hbe : b.access.end_addr = b.access.start + b.access.size := rfl
    unfold Access.intersect at hint
    simp at hint
    omega
  have hS1s : ∀ c ∈ stableSort (fun a b => decide (a.access.start ≤ b.access.start))
      children, c.kind = RegionKind.Carve →
      self.access.start ≤ c.access.start ∧
      c.access.end_addr ≤ self.access.end_addr := by
    intro c hc hk
    exact hcont c (hperm.mem_iff.mp hc) hk
  obtain ⟨r1, r2, r3, r4, r5, r6⟩ := viewFold_spec self
    (stableSort (fun a b => decide (a.access.start ≤ b.access.start)) children)
    self.access.start hS1s hS2
  rcases hX : (stableSort (fun a b => decide (a.access.start ≤ b.access.start))
      children).foldl (viewStep self) (self.access.start, []) with ⟨fin1, vs1⟩
  rw [hX] at r1 r2 r3 r4 r5 r6
  dsimp only at r1 r2 r3 r4 r5 r6
  have hRV := regionView_eq self children
  rw [hX] at hRV
  dsimp only at hRV
  have hsr : self.access.end_addr = self.access.start + self.access.size := rfl
  have hmemT : ∀ c : MemoryRegion, c ∈ children ↔ c ∈ stableSort
      (fun a b => decide (a.access.start ≤ b.access.start)) children :=
    fun c => (hperm.mem_iff).symm
  by_cases hf : fin1 < self.access.end_addr
  · rw [if_pos hf] at hRV
    rw [hRV]
    have htSt : (ViewRegion.new (Access.new fin1 (self.access.end_addr - fin1)
        self.access.rights) (viewShift self fin1)).access.start = fin1 := rfl
    have htEn : (ViewRegion.new (Access.new fin1 (self.access.end_addr - fin1)
        self.access.rights) (viewShift self fin1)).access.end_addr =
        fin1 + (self.access.end_addr - fin1) := rfl
    have htSz : (ViewRegion.new (Access.new fin1 (self.access.end_addr - fin1)
        self.access.rights) (viewShift self fin1)).access.size =
        self.access.end_addr - fin1 := rfl
    refine ⟨?_, ?_, ?_⟩
    · intro v hv
      rcases List.mem_append.mp hv with h | h
      · obtain ⟨q1, q2, q3, q4, q5⟩ := r4 v h
        exact ⟨q1, q2, q3, by omega, q5⟩
      · have hveq := List.mem_singleton.mp h
        subst hveq
        refine ⟨rfl, ?_, ?_, ?_, rfl⟩
        · rw [htSz]; omega
        · rw [htSt]; exact r1
        · rw [htEn]; omega
    · rw [List.pairwise_append]
      refine ⟨r5, List.pairwise_singleton _ _, ?_⟩
      intro a ha b hb
      have hbeq := List.mem_singleton.mp hb
      subst hbeq
      rw [htSt]
      exact (r4 a ha).2.2.2.1
    · intro p
      constructor
      · rintro ⟨v, hv, hp1, hp2⟩
        rcases List.mem_append.mp hv with h | h
        · obtain ⟨w1, w2, w3⟩ := (r6 p).mp ⟨v, h, hp1, hp2⟩
          refine ⟨w1, by omega, ?_⟩
          intro c2 hc2 hk2
          exact w3 c2 ((hmemT c2).mp hc2) hk2
        · have hveq := List.mem_singleton.mp h
          subst hveq
          rw [htSt] at hp1
          rw [htEn] at hp2
          refine ⟨by omega, by omega, ?_⟩
          intro c2 hc2 hk2
          have hq := r3 c2 ((hmemT c2).mp hc2) hk2
          intro hcc
          omega
      · rintro ⟨w1, w2, w3⟩
        by_cases hp : p < fin1
        · obtain ⟨v, hv, hvp⟩ := (r6 p).mpr ⟨w1, hp, fun c2 h2 hk2 =>
            w3 c2 ((hmemT c2).mpr h2) hk2⟩
          exact ⟨v, List.mem_append.mpr (Or.inl hv), hvp⟩
        · refine ⟨_, List.mem_append.mpr (Or.inr (List.mem_singleton.mpr rfl)),
            ?_, ?_⟩
          · rw [htSt]; omega
          · rw [htEn]; omega
  · rw [if_neg hf] at hRV
    rw [hRV]
    have hfe : fin1 = self.access.end_addr := by
      rcases r2 with h | h <;> omega
    refine ⟨?_, r5, ?_⟩
    · intro v hv
      obtain ⟨q1, q2, q3, q4, q5⟩ := r4 v hv
      exact ⟨q1, q2, q3, by omega, q5⟩
    · intro p
      rw [r6 p]
      constructor
      · rintro ⟨w1, w2, w3⟩
        exact ⟨w1, by omega, fun c2 h2 hk2 => w3 c2 ((hmemT c2).mp h2) hk2⟩
      · rintro ⟨w1, w2, w3⟩
        exact ⟨w1, by omega, fun c2 h2 hk2 => w3 c2 ((hmemT c2).mpr h2) hk2⟩

/-- C5 witness: the view theorem applied to the sample region with one
concrete carve child covering 0x100..0x200: address 0 is still covered. -/
theorem C5_witness :
    ∃ v ∈ regionView sampleRegionData
      [aliasCarveChild sampleRegionData (Access.new 0x100 0x100 Rights.RWX)
        RegionKind.Carve],
      v.access.start ≤ 0 ∧ 0 < v.access.end_addr := by
  have h := C5_view_subtracts_carves sampleRegionData
    [aliasCarveChild sampleRegionData (Access.new 0x100 0x100 Rights.RWX)
      RegionKind.Carve]
    (by decide) (by simp)
  exact (h.2.2 0).mpr (by decide)


/- ———————————————— C1: domain-path revoke postcondition ———————————————— -/

/-- A fully revoked domain node: status Revoked, handle table reset to a
fresh store (next_handle 1), children emptied. -/
def DomDone (s : EngineState) (m : Nat) : Prop :=
  ∃ n, s.getD m = some n ∧ n.data.status = DStatus.Revoked ∧
    n.data.capabilities = CapabilityStore.new ∧ n.children = []

/-- m is n itself or a descendant of n through the domain children lists
of s. -/
inductive DomDesc (s : EngineState) : Nat → Nat → Prop where
  | refl (n : Nat) : DomDesc s n n
  | step (n c m : Nat) (nd : DomNode) (hn : s.getD n = some nd)
      (hc : c ∈ nd.children) (h : DomDesc s c m) : DomDesc s n m

theorem DomDesc_transfer (s s2 : EngineState)
    (h : ∀ k nd2, s2.getD k = some nd2 → ∃ nd, s.getD k = some nd ∧
      ∀ x ∈ nd2.children, x ∈ nd.children) :
    ∀ v m, DomDesc s2 v m → DomDesc s v m := by
  intro v m hd
  induction hd with
  | refl n => exact DomDesc.refl n
  | step n c m nd2 hn hc hrec ih =>
    obtain ⟨nd, hnd, hsub⟩ := h n nd2 hn
    exact DomDesc.step n c m nd hnd (hsub c hc) ih

theorem DomDesc_map_eq (s s0 : EngineState)
    (h : ∀ k, (s0.getD k).map DomNode.children = (s.getD k).map DomNode.children) :
    ∀ v m, DomDesc s0 v m → DomDesc s v m := by
  intro v m hd
  induction hd with
  | refl n => exact DomDesc.refl n
  | step n c2 m nd hn hc hrec ih =>
    have h2 := h n
    rw [hn] at h2
    cases hg : s.getD n with
    | none => rw [hg] at h2; simp at h2
    | some nd2 =>
      rw [hg] at h2
      simp only [Option.map] at h2
      injection h2 with h2
      exact DomDesc.step n c2 m nd2 hg (by rw [← h2]; exact hc) ih

theorem DomDesc_snoc (s : EngineState) (a b c : Nat) (h : DomDesc s a b) :
    ∀ nd, s.getD b = some nd → c ∈ nd.children → DomDesc s a c := by
  induction h with
  | refl n =>
    intro nd hb hc
    exact DomDesc.step n c c nd hb hc (DomDesc.refl c)
  | step n x m ndx hnx hcx hrec ih =>
    intro nd hb hc
    exact DomDesc.step n x c ndx hnx hcx (ih nd hb hc)

/-- Paths out of root survive a change that only touches a node outside
root's subtree. -/
theorem DomDesc_avoid (s : EngineState) (root avoid : Nat)
    (hnr : ¬ DomDesc s root avoid) (s2 : EngineState)
    (hsame : ∀ k, k ≠ avoid → s2.getD k = s.getD k) :
    ∀ v m, DomDesc s v m → DomDesc s root v → DomDesc s2 v m := by
  intro v m hd
  induction hd with
  | refl n =>
    intro _
    exact DomDesc.refl n
  | step n c mm nd hn hc hrec ih =>
    intro hrv
    have hnv : n ≠ avoid := fun he => hnr (he ▸ hrv)
    have hn2 : s2.getD n = some nd := by rw [hsame n hnv]; exact hn
    exact DomDesc.step n c mm nd hn2 hc (ih (DomDesc_snoc s root n c hrv nd hn hc))

theorem DomDone_modifyD (s : EngineState) (i : Nat) (g : DomNode → DomNode)
    (hg : ∀ n, n.data.status = DStatus.Revoked →
      n.data.capabilities = CapabilityStore.new → n.children = [] →
      (g n).data.status = DStatus.Revoked ∧
      (g n).data.capabilities = CapabilityStore.new ∧ (g n).children = [])
    (m : Nat) (h : DomDone s m) : DomDone (s.modifyD i g) m := by
  obtain ⟨n, hn, h1, h2, h3⟩ := h
  by_cases hm : m = i
  · subst hm
    obtain ⟨a, b, d⟩ := hg n h1 h2 h3
    exact ⟨g n, getD_modifyD_self s m g n hn, a, b, d⟩
  · exact ⟨n, by rw [getD_modifyD_ne s i m g hm]; exact hn, h1, h2, h3⟩

theorem modifyD_none (s : EngineState) (id : Nat) (f : DomNode → DomNode)
    (h : s.getD id = none) : s.modifyD id f = s := by
  unfold EngineState.modifyD
  rw [h]

theorem modifyR_doms (s : EngineState) (i : Nat) (g : RegionNode → RegionNode) :
    (s.modifyR i g).doms = s.doms := by
  unfold EngineState.modifyR
  cases s.getR i <;> rfl

theorem setR_doms (s : EngineState) (i : Nat) (n : RegionNode) :
    (s.setR i n).doms = s.doms := rfl

/- equations of the fold-based revocation walkers -/

theorem regionRevokeAllNoop_succ (f : Nat) (s : EngineState) (rid : Nat) :
    regionRevokeAllNoop (f + 1) s rid =
      match s.getR rid with
      | none => (s, .error (RunErr.capa CapaError.CapaNotOwned))
      | some n =>
        match regionRevokeAllNoopList f s n.children with
        | (s1, .error e) => (s1, .error e)
        | (s1, .ok _) =>
          (s1.modifyR rid fun m => { m with children := [] }, .ok ()) := rfl

theorem regionRevokeAllNoopList_cons_ok (fuel : Nat) (s : EngineState) (c : Nat)
    (rest : List Nat) (s1 : EngineState) (u : Unit)
    (h : regionRevokeAllNoop fuel (s.modifyR c fun m => { m with parent := none }) c =
      (s1, .ok u)) :
    regionRevokeAllNoopList fuel s (c :: rest) = regionRevokeAllNoopList fuel s1 rest := by
  unfold regionRevokeAllNoopList
  rw [List.foldl_cons]
  dsimp only
  rw [h]

theorem regionRevokeAllNoopList_cons_err (fuel : Nat) (s : EngineState) (c : Nat)
    (rest : List Nat) (s1 : EngineState) (e : RunErr)
    (h : regionRevokeAllNoop fuel (s.modifyR c fun m => { m with parent := none }) c =
      (s1, .error e)) :
    regionRevokeAllNoopList fuel s (c :: rest) = (s1, .error e) := by
  unfold regionRevokeAllNoopList
  rw [List.foldl_cons]
  dsimp only
  rw [h]
  induction rest with
  | nil => rfl
  | cons x t IHt =>
    rw [List.foldl_cons]
    exact IHt

theorem revokeAllDoms_succ (f : Nat) (s : EngineState) (nid : Nat) :
    revokeAllDoms (f + 1) s nid =
      match s.getD nid with
      | none => (s, .error (RunErr.capa CapaError.CapaNotOwned))
      | some n =>
        match revokeAllDomsList f s n.children with
        | (s1, .error e) => (s1, .error e)
        | (s1, .ok _) =>
          revokeDomHandler f (s1.modifyD nid fun m => { m with children := [] })
            nid := rfl

theorem revokeAllDomsList_cons_ok (fuel : Nat) (s : EngineState) (c : Nat)
    (rest : List Nat) (s1 : EngineState) (u : Unit)
    (h : revokeAllDoms fuel (s.modifyD c fun m => { m with parent := none }) c =
      (s1, .ok u)) :
    revokeAllDomsList fuel s (c :: rest) = revokeAllDomsList fuel s1 rest := by
  unfold revokeAllDomsList
  rw [List.foldl_cons]
  dsimp only
  rw [h]

theorem revokeAllDomsList_cons_err (fuel : Nat) (s : EngineState) (c : Nat)
    (rest : List Nat) (s1 : EngineState) (e : RunErr)
    (h : revokeAllDoms fuel (s.modifyD c fun m => { m with parent := none }) c =
      (s1, .error e)) :
    revokeAllDomsList fuel s (c :: rest) = (s1, .error e) := by
  unfold revokeAllDomsList
  rw [List.foldl_cons]
  dsimp only
  rw [h]
  induction rest with
  | nil => rfl
  | cons x t IHt =>
    rw [List.foldl_cons]
    exact IHt

/-- The region revocation used on the domain path never touches the domain
heap. -/
theorem regionNoop_doms : ∀ fuel : Nat,
    (∀ s rid, (regionRevokeAllNoop fuel s rid).1.doms = s.doms) ∧
    (∀ l s, (regionRevokeAllNoopList fuel s l).1.doms = s.doms) := by
  intro fuel
  induction fuel with
  | zero =>
    constructor
    · intro s rid
      rfl
    · intro l
      induction l with
      | nil => intro s; rfl
      | cons c rest IHl =>
        intro s
        have h0 : regionRevokeAllNoop 0 (s.modifyR c fun m => { m with parent := none }) c
            = (s.modifyR c fun m => { m with parent := none },
               Except.error RunErr.fuelOut) := rfl
        rw [regionRevokeAllNoopList_cons_err 0 s c rest _ _ h0]
        exact modifyR_doms s c _
  | succ f IH =>
    obtain ⟨IHA, IHL⟩ := IH
    have hA : ∀ s rid, (regionRevokeAllNoop (f + 1) s rid).1.doms = s.doms := by
      intro s rid
      rw [regionRevokeAllNoop_succ]
      cases hg : s.getR rid with
      | none => rfl
      | some n =>
        dsimp only
        rcases hl : regionRevokeAllNoopList f s n.children with ⟨s1, r⟩
        have h1 := IHL n.children s
        rw [hl] at h1
        dsimp only at h1
        cases r with
        | error e => exact h1
        | ok u =>
          dsimp only
          rw [modifyR_doms]
          exact h1
    refine ⟨hA, ?_⟩
    intro l
    induction l with
    | nil => intro s; rfl
    | cons c rest IHl =>
      intro s
      rcases hAc : regionRevokeAllNoop (f + 1)
          (s.modifyR c fun m => { m with parent := none }) c with ⟨s1, r⟩
      have h2 := hA (s.modifyR c fun m => { m with parent := none }) c
      rw [hAc] at h2
      dsimp only at h2
      rw [modifyR_doms] at h2
      cases r with
      | error e =>
        rw [regionRevokeAllNoopList_cons_err (f + 1) s c rest s1 e hAc]
        exact h2
      | ok u =>
        rw [regionRevokeAllNoopList_cons_ok (f + 1) s c rest s1 u hAc]
        rw [IHl s1]
        exact h2

theorem regionRevokeNodeNoop_doms (fuel : Nat) (s : EngineState) (rid : Nat) :
    (regionRevokeNodeNoop fuel s rid).1.doms = s.doms := by
  unfold regionRevokeNodeNoop
  cases hg : s.getR rid with
  | none => rfl
  | some n =>
    dsimp only
    cases n.parent with
    | none => rfl
    | some p =>
      dsimp only
      cases hp : s.getR p with
      | none => rfl
      | some pn =>
        dsimp only
        by_cases hm : rid ∈ pn.children
        · rw [if_pos hm]
          rw [(regionNoop_doms fuel).1]
          rw [modifyR_doms]
          rfl
        · rw [if_neg hm]

theorem revokeHandlerRegions_doms (fuel : Nat) :
    ∀ (l : List Nat) (s : EngineState), (revokeHandlerRegions fuel s l).1.doms = s.doms := by
  intro l
  induction l with
  | nil => intro s; rfl
  | cons r rest IHl =>
    intro s
    unfold revokeHandlerRegions
    rcases hr : regionRevokeNodeNoop fuel s r with ⟨s1, rr⟩
    have h1 := regionRevokeNodeNoop_doms fuel s r
    rw [hr] at h1
    dsimp only at h1
    cases rr with
    | error e => exact h1
    | ok u =>
      dsimp only
      rw [IHl s1]
      exact h1

/-- What the domain-path revocation handler does to the domain heap: it
only rewrites nid, setting status Revoked and a fresh table. -/
theorem revokeDomHandler_spec (fuel : Nat) (s : EngineState) (nid : Nat)
    (s2 : EngineState) (h : revokeDomHandler fuel s nid = (s2, .ok ())) :
    (∀ k, k ≠ nid → s2.getD k = s.getD k) ∧
    (∀ nd, s.getD nid = some nd → ∃ nd2, s2.getD nid = some nd2 ∧
      nd2.data.status = DStatus.Revoked ∧
      nd2.data.capabilities = CapabilityStore.new ∧
      nd2.children = nd.children ∧ nd2.parent = nd.parent) := by
  unfold revokeDomHandler at h
  dsimp only at h
  rcases hrr : revokeHandlerRegions fuel
      (s.modifyD nid fun n => { n with data := { n.data with status := DStatus.Revoked } })
      (match (s.modifyD nid fun n =>
          { n with data := { n.data with status := DStatus.Revoked } }).getD nid with
        | some nx => nx.data.capabilities.regionIds
        | none => ([] : List Nat)) with ⟨sr, rr⟩
  rw [hrr] at h
  cases rr with
  | error e => simp at h
  | ok u =>
    dsimp only at h
    rw [Prod.mk.injEq] at h
    obtain ⟨h2, -⟩ := h
    subst h2
    have hdoms := revokeHandlerRegions_doms fuel
      (match (s.modifyD nid fun n =>
          { n with data := { n.data with status := DStatus.Revoked } }).getD nid with
        | some nx => nx.data.capabilities.regionIds
        | none => ([] : List Nat))
      (s.modifyD nid fun n =>
        { n with data := { n.data with status := DStatus.Revoked } })
    rw [hrr] at hdoms
    dsimp only at hdoms
    have hsr : ∀ k, sr.getD k = (s.modifyD nid fun n =>
        { n with data := { n.data with status := DStatus.Revoked } }).getD k := by
      intro k
      show sr.doms.lookup k = _
      rw [hdoms]
      rfl
    constructor
    · intro k hk
      rw [getD_modifyD_ne sr nid k _ hk, hsr k, getD_modifyD_ne s nid k _ hk]
    · intro nd hnd
      have h1 : (s.modifyD nid fun n =>
          { n with data := { n.data with status := DStatus.Revoked } }).getD nid =
          some { nd with data := { nd.data with status := DStatus.Revoked } } :=
        getD_modifyD_self s nid _ nd hnd
      have h2 : sr.getD nid = some { nd with data :=
          { nd.data with status := DStatus.Revoked } } := by
        rw [hsr nid]
        exact h1
      refine ⟨_, getD_modifyD_self sr nid _ _ h2, rfl, rfl, rfl, rfl⟩

/-- Postcondition of revoke_all on a domain node: the whole subtree is
Done; Done nodes stay Done; every node keeps a sub-list of its children
and is unchanged unless it lies in the subtree; keys survive; and every
old path either survives or ends in a Done node. -/
def RevPostP (s : EngineState) (nid : Nat) (s2 : EngineState) : Prop :=
  (∀ m, DomDesc s nid m → DomDone s2 m) ∧
  (∀ m, DomDone s m → DomDone s2 m) ∧
  (∀ k nd2, s2.getD k = some nd2 → ∃ nd, s.getD k = some nd ∧
    (∀ x ∈ nd2.children, x ∈ nd.children) ∧ (nd2 = nd ∨ DomDesc s nid k)) ∧
  (∀ k nd, s.getD k = some nd → ∃ nd2, s2.getD k = some nd2) ∧
  (∀ v m, DomDesc s v m → DomDesc s2 v m ∨ DomDone s2 m)

/-- The same postcondition for the loop over a child list. -/
def RevPostQ (s : EngineState) (l : List Nat) (s2 : EngineState) : Prop :=
  (∀ c ∈ l, ∀ m, DomDesc s c m → DomDone s2 m) ∧
  (∀ m, DomDone s m → DomDone s2 m) ∧
  (∀ k nd2, s2.getD k = some nd2 → ∃ nd, s.getD k = some nd ∧
    (∀ x ∈ nd2.children, x ∈ nd.children) ∧
    (nd2 = nd ∨ ∃ c ∈ l, DomDesc s c k)) ∧
  (∀ k nd, s.getD k = some nd → ∃ nd2, s2.getD k = some nd2) ∧
  (∀ v m, DomDesc s v m → DomDesc s2 v m ∨ DomDone s2 m)

theorem revoke_spec : ∀ fuel : Nat,
    (∀ s nid s2, revokeAllDoms fuel s nid = (s2, .ok ()) → RevPostP s nid s2) ∧
    (∀ l s s2, revokeAllDomsList fuel s l = (s2, .ok ()) → RevPostQ s l s2) := by
  have hnil : ∀ fuel s s2, revokeAllDomsList fuel s ([] : List Nat) = (s2, .ok ()) →
      RevPostQ s [] s2 := by
    intro fuel s s2 h
    rw [show revokeAllDomsList fuel s [] = (s, Except.ok ()) from rfl,
      Prod.mk.injEq] at h
    obtain ⟨h2, -⟩ := h
    subst h2
    refine ⟨?_, fun m hd => hd, ?_, fun k nd hk => ⟨nd, hk⟩, fun v m hd => Or.inl hd⟩
    · intro c hc
      simp at hc
    · intro k nd2 hk
      exact ⟨nd2, hk, fun x hx => hx, Or.inl rfl⟩
  intro fuel
  induction fuel with
  | zero =>
    constructor
    · intro s nid s2 h
      rw [show revokeAllDoms 0 s nid = (s, Except.error RunErr.fuelOut) from rfl] at h
      simp at h
    · intro l
      cases l with
      | nil => exact fun s s2 h => hnil 0 s s2 h
      | cons c rest =>
        intro s s2 h
        rw [revokeAllDomsList_cons_err 0 s c rest _ _ rfl] at h
        simp at h
  | succ f IHf =>
    obtain ⟨IHP, IHQ⟩ := IHf
    have hP : ∀ s nid s2, revokeAllDoms (f + 1) s nid = (s2, .ok ()) →
        RevPostP s nid s2 := by
      intro s nid s2 h
      rw [revokeAllDoms_succ] at h
      cases hget : s.getD nid with
      | none =>
        rw [hget] at h
        simp at h
      | some n =>
        rw [hget] at h
        dsimp only at h
        rcases hlist : revokeAllDomsList f s n.children with ⟨s1, r1⟩
        rw [hlist] at h
        cases r1 with
        | error e => simp at h
        | ok u =>
          dsimp only at h
          obtain ⟨Q1, Q2, Q3, Q4, Q5⟩ := IHQ n.children s s1 (by rw [hlist])
          obtain ⟨H1, H2⟩ := revokeDomHandler_spec f _ nid s2 h
          obtain ⟨nd1, hnd1⟩ := Q4 nid n hget
          have hclearNid : (s1.modifyD nid fun m => { m with children := [] }).getD nid =
              some { nd1 with children := [] } := getD_modifyD_self s1 nid _ nd1 hnd1
          obtain ⟨nd2, hnd2, hst2, hcap2, hch2, hpar2⟩ := H2 _ hclearNid
          have hdone2 : DomDone s2 nid := ⟨nd2, hnd2, hst2, hcap2, by rw [hch2]⟩
          have hClearNe : ∀ k, k ≠ nid →
              (s1.modifyD nid fun m => { m with children := [] }).getD k = s1.getD k :=
            fun k hk => getD_modifyD_ne s1 nid k _ hk
          have hFinNe : ∀ k, k ≠ nid → s2.getD k = s1.getD k :=
            fun k hk => (H1 k hk).trans (hClearNe k hk)
          have hDonePres : ∀ m, DomDone s1 m → DomDone s2 m := by
            intro m hd
            by_cases hm : m = nid
            · subst hm
              exact hdone2
            · obtain ⟨nn, hnn, a1, a2, a3⟩ := hd
              exact ⟨nn, by rw [hFinNe m hm]; exact hnn, a1, a2, a3⟩
          have hTrans1 : ∀ v m, DomDesc s1 v m → DomDesc s v m := by
            intro v m hd
            refine DomDesc_transfer s s1 ?_ v m hd
            intro k ndk hk
            obtain ⟨nd, hnd, hsub, -⟩ := Q3 k ndk hk
            exact ⟨nd, hnd, hsub⟩
          refine ⟨?_, ?_, ?_, ?_, ?_⟩
          · intro m hdesc
            cases hdesc with
            | refl => exact hdone2
            | step _ c _ nd hn hc hrec =>
              rw [hget] at hn
              injection hn with hn
              subst hn
              exact hDonePres m (Q1 c hc m hrec)
          · intro m hd
            exact hDonePres m (Q2 m hd)
          · intro k nd2k hk2
            by_cases hk : k = nid
            · subst hk
              rw [hnd2] at hk2
              injection hk2 with hk2
              subst hk2
              refine ⟨n, hget, ?_, Or.inr (DomDesc.refl k)⟩
              intro x hx
              rw [hch2] at hx
              simp at hx
            · rw [hFinNe k hk] at hk2
              obtain ⟨nd, hnd, hsub, hmod⟩ := Q3 k nd2k hk2
              refine ⟨nd, hnd, hsub, ?_⟩
              rcases hmod with h' | ⟨c, hcl, hdc⟩
              · exact Or.inl h'
              · exact Or.inr (DomDesc.step nid c k n hget hcl hdc)
          · intro k nd hkd
            obtain ⟨nd1k, hnd1k⟩ := Q4 k nd hkd
            by_cases hk : k = nid
            · subst hk
              exact ⟨nd2, hnd2⟩
            · exact ⟨nd1k, by rw [hFinNe k hk]; exact hnd1k⟩
          · intro v m hdesc
            rcases Q5 v m hdesc with hpath | hdone
            · induction hpath with
              | refl nn => exact Or.inl (DomDesc.refl nn)
              | step nn c mm nd1p hn1 hc1 hrec ih =>
                by_cases hv : nn = nid
                · subst hv
                  obtain ⟨nd0, hnd0, hsub0, hmod0⟩ := Q3 nn nd1p hn1
                  rw [hget] at hnd0
                  injection hnd0 with hnd0
                  subst hnd0
                  rcases hmod0 with heq | ⟨c0, hc0l, hc0d⟩
                  · rw [heq] at hc1
                    exact Or.inr (hDonePres mm (Q1 c hc1 mm (hTrans1 c mm hrec)))
                  · obtain ⟨nx, hnx, -, -, hchx⟩ := Q1 c0 hc0l nn hc0d
                    rw [hn1] at hnx
                    injection hnx with hnx
                    rw [← hnx] at hchx
                    rw [hchx] at hc1
                    simp at hc1
                · have hs2v : s2.getD nn = some nd1p := by
                    rw [hFinNe nn hv]
                    exact hn1
                  rcases ih (hTrans1 c mm hrec) with hp2 | hd2
                  · exact Or.inl (DomDesc.step nn c mm nd1p hs2v hc1 hp2)
                  · exact Or.inr hd2
            · exact Or.inr (hDonePres m hdone)
    refine ⟨hP, ?_⟩
    intro l
    induction l with
    | nil => exact fun s s2 h => hnil (f + 1) s s2 h
    | cons c rest IHl =>
      intro s s2 h
      rcases hA : revokeAllDoms (f + 1) (s.modifyD c fun m => { m with parent := none }) c
        with ⟨sA, rA⟩
      cases rA with
      | error e =>
        rw [revokeAllDomsList_cons_err (f + 1) s c rest sA e hA] at h
        simp at h
      | ok u =>
        rw [revokeAllDomsList_cons_ok (f + 1) s c rest sA u hA] at h
        obtain ⟨P1, P2, P3, P4, P5⟩ := hP _ c sA (by rw [hA])
        obtain ⟨R1, R2, R3, R4, R5⟩ := IHl sA s2 h
        have hmap : ∀ k, ((s.modifyD c fun mm => { mm with parent := none }).getD k).map
            DomNode.children = (s.getD k).map DomNode.children := by
          intro k
          by_cases hk : k = c
          · subst hk
            cases hg : s.getD k with
            | none => rw [modifyD_none s k _ hg, hg]
            | some nn =>
              rw [getD_modifyD_self s k _ nn hg]
              rfl
          · rw [getD_modifyD_ne s c k _ hk]
        have hTo0 : ∀ v m, DomDesc s v m →
            DomDesc (s.modifyD c fun mm => { mm with parent := none }) v m := by
          intro v m hd
          exact DomDesc_map_eq _ s (fun k => (hmap k).symm) v m hd
        have hFrom0 : ∀ v m,
            DomDesc (s.modifyD c fun mm => { mm with parent := none }) v m →
            DomDesc s v m :=
          DomDesc_map_eq s _ hmap
        have hFromA : ∀ v m, DomDesc sA v m → DomDesc s v m := by
          intro v m hd
          refine hFrom0 v m (DomDesc_transfer _ sA ?_ v m hd)
          intro k2 n2 h2
          obtain ⟨n0, h0, hs0, -⟩ := P3 k2 n2 h2
          exact ⟨n0, h0, hs0⟩
        have hDone0 : ∀ m, DomDone s m →
            DomDone (s.modifyD c fun mm => { mm with parent := none }) m :=
          DomDone_modifyD s c _ (fun n a b d => ⟨a, b, d⟩)
        refine ⟨?_, ?_, ?_, ?_, ?_⟩
        · intro c2 hc2 m hdm
          rcases List.mem_cons.mp hc2 with rfl | hr
          · exact R2 m (P1 m (hTo0 c2 m hdm))
          · rcases P5 c2 m (hTo0 c2 m hdm) with hp | hd
            · exact R1 c2 hr m hp
            · exact R2 m hd
        · intro m hd
          exact R2 m (P2 m (hDone0 m hd))
        · intro k nd2 hk2
          obtain ⟨ndA, hndA, hsubA, hmodA⟩ := R3 k nd2 hk2
          obtain ⟨nd0, hnd0, hsub0, hmod0⟩ := P3 k ndA hndA
          by_cases hk : k = c
          · subst hk
            cases hg : s.getD k with
            | none =>
              rw [modifyD_none s k _ hg, hg] at hnd0
              cases hnd0
            | some nn =>
              rw [getD_modifyD_self s k _ nn hg] at hnd0
              injection hnd0 with hnd0
              refine ⟨nn, rfl, ?_, Or.inr ⟨k, List.mem_cons_self k rest, DomDesc.refl k⟩⟩
              intro x hx
              have h1 := hsubA x hx
              have h2 := hsub0 x h1
              rw [← hnd0] at h2
              exact h2
          · rw [getD_modifyD_ne s c k _ hk] at hnd0
            refine ⟨nd0, hnd0, fun x hx => hsub0 x (hsubA x hx), ?_⟩
            rcases hmodA with he | ⟨c2, hc2r, hdc2⟩
            · rcases hmod0 with he0 | hdc0
              · exact Or.inl (he.trans he0)
              · exact Or.inr ⟨c, List.mem_cons_self c rest, hFrom0 c k hdc0⟩
            · exact Or.inr ⟨c2, List.mem_cons_of_mem c hc2r, hFromA c2 k hdc2⟩
        · intro k nd hkd
          have hk0 : ∃ nd0, (s.modifyD c fun mm => { mm with parent := none }).getD k =
              some nd0 := by
            by_cases hk2 : k = c
            · subst hk2
              exact ⟨_, getD_modifyD_self s k _ nd hkd⟩
            · exact ⟨nd, by rw [getD_modifyD_ne s c k _ hk2]; exact hkd⟩
          obtain ⟨nd0, hnd0⟩ := hk0
          obtain ⟨ndA, hndA⟩ := P4 k nd0 hnd0
          exact R4 k ndA hndA
        · intro v m hd
          rcases P5 v m (hTo0 v m hd) with hp | hdn
          · exact R5 v m hp
          · exact Or.inr (R2 m hdn)

/-- C1: after a successful revoke of a domain capability d held by a sealed
caller, the target domain and every domain in its subtree are Revoked with
an empty (reset) handle table and no children, and no region formerly owned
(in the pre-state) by a member of that subtree is reachable through the
handle table of any live (non-Revoked) domain of the post-state.  The
hypotheses: the caller's table resolves capa to the domain dId, the caller
is not inside dId's subtree (true of every real state, where dId's parent
is the caller), and the pre-state satisfies the ownership invariant (a
region handle in a domain's table points to a region owned by that
domain). -/
theorem C1_revoke_domain_subtree (fuel : Nat) (s : EngineState) (callerId : Nat)
    (capa : LocalCapa) (child : Nat) (s2 : EngineState) (dId : Nat) (dn : DomNode)
    (hdn : s.getD callerId = some dn)
    (hres : (dn.data.capabilities.get capa).bind CapaWrapper.as_domain =
      Except.ok dId)
    (hnc : ¬ DomDesc s dId callerId)
    (hown : ∀ g gn h rid n, s.getD g = some gn →
      gn.data.capabilities.get h = Except.ok (CapaWrapper.Region rid) →
      s.getR rid = some n → n.ownerDom = some g)
    (hok : engineRevoke fuel s callerId capa child = (s2, Except.ok ())) :
    (∀ m, DomDesc s dId m → DomDone s2 m) ∧
    (∀ g gn, s2.getD g = some gn → gn.data.status ≠ DStatus.Revoked →
      ∀ h rid, gn.data.capabilities.get h = Except.ok (CapaWrapper.Region rid) →
      ∀ n, s.getR rid = some n → ∀ m, DomDesc s dId m → n.ownerDom ≠ some m) := by
  have hne : callerId ≠ dId := by
    intro he
    refine hnc ?_
    rw [he]
    exact DomDesc.refl dId
  -- resolve the wrapper
  have hg : dn.data.capabilities.get capa = Except.ok (CapaWrapper.Domain dId) := by
    cases hgc : dn.data.capabilities.get capa with
    | error e =>
      rw [hgc] at hres
      simp [Except.bind] at hres
    | ok w =>
      cases w with
      | Region r =>
        rw [hgc] at hres
        simp [Except.bind, CapaWrapper.as_domain] at hres
      | Domain d =>
        rw [hgc] at hres
        simp only [Except.bind, CapaWrapper.as_domain] at hres
        injection hres with hres
        rw [hres]
  have hisdom : dn.data.is_domain capa = Except.ok true := by
    unfold DomainData.is_domain
    rw [hg]
  unfold engineRevoke at hok
  cases hsa : isSealedAndAllowed s callerId MonitorAPI.REVOKE with
  | error e => rw [hsa] at hok; simp at hok
  | ok u0 =>
    rw [hsa] at hok
    dsimp only at hok
    rw [hdn] at hok
    dsimp only at hok
    rw [hisdom] at hok
    dsimp only at hok
    rw [if_pos rfl] at hok
    rw [hres] at hok
    dsimp only at hok
    cases horc : onRevokeChild fuel s dId with
    | error e => rw [horc] at hok; simp at hok
    | ok uc =>
      rw [horc] at hok
      dsimp only at hok
      cases hsnap : uc.snapshot fuel s with
      | error e => rw [hsnap] at hok; simp at hok
      | ok u2 =>
        rw [hsnap] at hok
        dsimp only at hok
        have hs1c : (s.modifyD dId fun n =>
            { n with data := { n.data with status := DStatus.Revoked } }).getD callerId =
            some dn := by
          rw [getD_modifyD_ne s dId callerId _ hne]
          exact hdn
        rw [hs1c] at hok
        dsimp only at hok
        by_cases hmemb : dId ∈ dn.children
        · rw [if_pos hmemb] at hok
          rcases hra : revokeAllDoms fuel
              (((s.modifyD dId fun n =>
                  { n with data := { n.data with status := DStatus.Revoked } }).setD
                callerId { dn with children := dn.children.erase dId }).modifyD dId
                fun m => { m with parent := none }) dId with ⟨s4, r4⟩
          rw [hra] at hok
          cases r4 with
          | error e => simp at hok
          | ok u4 =>
            dsimp only at hok
            obtain ⟨P1, P2, P3, P4, P5⟩ := (revoke_spec fuel).1 _ dId s4 (by rw [hra])
            -- shorthand states
            -- s1 := s.modifyD dId status, sE := s1.setD caller erase, s3 := sE.modifyD dId parent
            -- edges of s3 transfer into s
            have hmapA : ∀ k, ((s.modifyD dId fun n =>
                { n with data := { n.data with status := DStatus.Revoked } }).getD k).map
                DomNode.children = (s.getD k).map DomNode.children := by
              intro k
              by_cases hk : k = dId
              · subst hk
                cases hgk : s.getD k with
                | none => rw [modifyD_none s k _ hgk, hgk]
                | some nn =>
                  rw [getD_modifyD_self s k _ nn hgk]
                  rfl
              · rw [getD_modifyD_ne s dId k _ hk]
            have hsub3 : ∀ k nd3, (((s.modifyD dId fun n =>
                { n with data := { n.data with status := DStatus.Revoked } }).setD
                callerId { dn with children := dn.children.erase dId }).modifyD dId
                fun m => { m with parent := none }).getD k = some nd3 →
                ∃ nd, s.getD k = some nd ∧ ∀ x ∈ nd3.children, x ∈ nd.children := by
              intro k nd3 hk3
              by_cases hk : k = dId
              · subst hk
                cases hgk : s.getD k with
                | none =>
                  rw [modifyD_none s k _ hgk] at hk3
                  have hnone2 : (s.setD callerId
                      { dn with children := dn.children.erase k }).getD k = none := by
                    rw [getD_setD_ne s callerId k _ (fun h2 => hne h2.symm)]
                    exact hgk
                  rw [modifyD_none _ k _ hnone2] at hk3
                  rw [hnone2] at hk3
                  cases hk3
                | some nn =>
                  have h1 : ((s.modifyD k fun n =>
                      { n with data := { n.data with status := DStatus.Revoked } }).setD
                      callerId { dn with children := dn.children.erase k }).getD k =
                      some { nn with data := { nn.data with status := DStatus.Revoked } } := by
                    rw [getD_setD_ne _ callerId k _ (fun h2 => hne h2.symm)]
                    exact getD_modifyD_self s k _ nn hgk
                  rw [getD_modifyD_self _ k _ _ h1] at hk3
                  injection hk3 with hk3
                  refine ⟨nn, rfl, ?_⟩
                  intro x hx
                  rw [← hk3] at hx
                  exact hx
              · by_cases hkc : k = callerId
                · subst hkc
                  rw [getD_modifyD_ne _ dId k _ hk] at hk3
                  have h1 : (s.modifyD dId fun n =>
                      { n with data := { n.data with status := DStatus.Revoked } }).getD k =
                      some dn := hs1c
                  rw [getD_setD_self _ k _ (by rw [h1]; rfl)] at hk3
                  injection hk3 with hk3
                  refine ⟨dn, hdn, ?_⟩
                  intro x hx
                  rw [← hk3] at hx
                  exact List.mem_of_mem_erase hx
                · rw [getD_modifyD_ne _ dId k _ hk,
                    getD_setD_ne _ callerId k _ hkc,
                    getD_modifyD_ne s dId k _ hk] at hk3
                  exact ⟨nd3, hk3, fun x hx => hx⟩
            have hFrom3 : ∀ v m, DomDesc (((s.modifyD dId fun n =>
                { n with data := { n.data with status := DStatus.Revoked } }).setD
                callerId { dn with children := dn.children.erase dId }).modifyD dId
                fun m => { m with parent := none }) v m → DomDesc s v m :=
              DomDesc_transfer s _ hsub3
            -- forward transfer of the dId subtree into s3
            have hTo1 : ∀ v m, DomDesc s v m → DomDesc (s.modifyD dId fun n =>
                { n with data := { n.data with status := DStatus.Revoked } }) v m :=
              fun v m hd => DomDesc_map_eq _ s (fun k => (hmapA k).symm) v m hd
            have hFrom1 : ∀ v m, DomDesc (s.modifyD dId fun n =>
                { n with data := { n.data with status := DStatus.Revoked } }) v m →
                DomDesc s v m :=
              DomDesc_map_eq s _ hmapA
            have hnc1 : ¬ DomDesc (s.modifyD dId fun n =>
                { n with data := { n.data with status := DStatus.Revoked } }) dId callerId :=
              fun hd => hnc (hFrom1 dId callerId hd)
            have hmapP : ∀ k, ((((s.modifyD dId fun n =>
                { n with data := { n.data with status := DStatus.Revoked } }).setD
                callerId { dn with children := dn.children.erase dId }).modifyD dId
                fun m => { m with parent := none }).getD k).map DomNode.children =
                (((s.modifyD dId fun n =>
                { n with data := { n.data with status := DStatus.Revoked } }).setD
                callerId { dn with children := dn.children.erase dId }).getD k).map
                DomNode.children := by
              intro k
              by_cases hk : k = dId
              · subst hk
                cases hgk : ((s.modifyD k fun n =>
                    { n with data := { n.data with status := DStatus.Revoked } }).setD
                    callerId { dn with children := dn.children.erase k }).getD k with
                | none => rw [modifyD_none _ k _ hgk, hgk]
                | some nn =>
                  rw [getD_modifyD_self _ k _ nn hgk]
                  rfl
              · rw [getD_modifyD_ne _ dId k _ hk]
            have hTo3 : ∀ m, DomDesc s dId m → DomDesc (((s.modifyD dId fun n =>
                { n with data := { n.data with status := DStatus.Revoked } }).setD
                callerId { dn with children := dn.children.erase dId }).modifyD dId
                fun m => { m with parent := none }) dId m := by
              intro m hd
              refine DomDesc_map_eq _ _ (fun k => (hmapP k).symm) dId m ?_
              refine DomDesc_avoid _ dId callerId hnc1 _ ?_ dId m (hTo1 dId m hd)
                (DomDesc.refl dId)
              intro k hk
              exact getD_setD_ne _ callerId k _ hk
            -- the caller node after revoke_all
            have hs3c : (((s.modifyD dId fun n =>
                { n with data := { n.data with status := DStatus.Revoked } }).setD
                callerId { dn with children := dn.children.erase dId }).modifyD dId
                fun m => { m with parent := none }).getD callerId =
                some { dn with children := dn.children.erase dId } := by
              rw [getD_modifyD_ne _ dId callerId _ hne]
              exact getD_setD_self _ callerId _ (by rw [hs1c]; rfl)
            obtain ⟨dn4, hdn4⟩ := P4 callerId _ hs3c
            have hdn4e : dn4 = { dn with children := dn.children.erase dId } := by
              obtain ⟨ndx, hndx, -, hmodx⟩ := P3 callerId dn4 hdn4
              rw [hs3c] at hndx
              injection hndx with hndx
              rcases hmodx with he | hdx
              · rw [he, hndx]
              · exact absurd (hFrom3 dId callerId hdx) hnc
            rw [hdn4] at hok
            dsimp only at hok
            -- the remove of capa from the caller table
            have hlk : dn.data.capabilities.capabilities.lookup capa =
                some (CapaWrapper.Domain dId) := by
              unfold CapabilityStore.get at hg
              cases hl : dn.data.capabilities.capabilities.lookup capa with
              | none => rw [hl] at hg; cases hg
              | some w =>
                rw [hl] at hg
                injection hg with hg
                rw [hg]
            have hrem : dn4.data.capabilities.remove capa = Except.ok
                (CapaWrapper.Domain dId,
                 { dn4.data.capabilities with
                    capabilities := dn4.data.capabilities.capabilities.filter
                      (fun p => p.1 ≠ capa),
                    free_handles := dn4.data.capabilities.free_handles ++ [capa] }) := by
              unfold CapabilityStore.remove
              rw [hdn4e]
              dsimp only
              rw [hlk]
            rw [hrem] at hok
            dsimp only at hok
            rw [Prod.mk.injEq] at hok
            obtain ⟨hs2eq, -⟩ := hok
            -- conclusion 1
            have hAll : ∀ m, DomDesc s dId m → DomDone s2 m := by
              intro m hd
              have hd4 : DomDone s4 m := P1 m (hTo3 m hd)
              have hmnc : m ≠ callerId := by
                intro he
                refine hnc ?_
                rw [← he]
                exact hd
              obtain ⟨nm, hnm, a1, a2, a3⟩ := hd4
              refine ⟨nm, ?_, a1, a2, a3⟩
              rw [← hs2eq]
              rw [getD_setD_ne s4 callerId m _ hmnc]
              exact hnm
            refine ⟨hAll, ?_⟩
            -- conclusion 2
            intro g gn hgn hlive h rid hgeth n hn m hdm
            by_cases hgsub : DomDesc s dId g
            · obtain ⟨ng, hng, hstg, -, -⟩ := hAll g hgsub
              rw [hgn] at hng
              injection hng with hng
              rw [← hng] at hstg
              exact absurd hstg hlive
            · by_cases hgc : g = callerId
              · subst hgc
                -- gn is the final caller node
                have hs2g : s2.getD g = some { dn4 with data :=
                    { dn4.data with capabilities :=
                      { dn4.data.capabilities with
                        capabilities := dn4.data.capabilities.capabilities.filter
                          (fun p => p.1 ≠ capa),
                        free_handles := dn4.data.capabilities.free_handles ++ [capa] } } } := by
                  rw [← hs2eq]
                  exact getD_setD_self s4 g _ (by rw [hdn4]; rfl)
                rw [hgn] at hs2g
                injection hs2g with hs2g
                have hcapsg : gn.data.capabilities.capabilities =
                    dn4.data.capabilities.capabilities.filter (fun p => p.1 ≠ capa) := by
                  rw [hs2g]
                have hgets : dn.data.capabilities.get h =
                    Except.ok (CapaWrapper.Region rid) := by
                  unfold CapabilityStore.get at hgeth ⊢
                  rw [hcapsg] at hgeth
                  by_cases hhc : h = capa
                  · rw [hhc, lookup_filterOut_self] at hgeth
                    cases hgeth
                  · rw [lookup_filterOut_ne capa h _ hhc] at hgeth
                    rw [hdn4e] at hgeth
                    exact hgeth
                have howner := hown g dn h rid n hdn hgets hn
                rw [howner]
                intro hcc
                injection hcc with hcc
                refine hnc ?_
                rw [hcc]
                exact hdm
              · -- g untouched anywhere
                have hs4g : s4.getD g = some gn := by
                  rw [← hs2eq] at hgn
                  rw [getD_setD_ne s4 callerId g _ hgc] at hgn
                  exact hgn
                obtain ⟨nd3, hnd3, -, hmod3⟩ := P3 g gn hs4g
                have hgn3 : nd3 = gn := by
                  rcases hmod3 with he | hdx
                  · rw [he]
                  · exact absurd (hFrom3 dId g hdx) hgsub
                have hgd : g ≠ dId := by
                  intro he
                  refine hgsub ?_
                  rw [he]
                  exact DomDesc.refl dId
                have hsg : s.getD g = some gn := by
                  rw [← hgn3]
                  rw [getD_modifyD_ne _ dId g _ hgd,
                    getD_setD_ne _ callerId g _ hgc,
                    getD_modifyD_ne s dId g _ hgd] at hnd3
                  exact hnd3
                have howner := hown g gn h rid n hsg hgeth hn
                rw [howner]
                intro hcc
                injection hcc with hcc
                refine hgsub ?_
                rw [hcc]
                exact hdm
        · rw [if_neg hmemb] at hok
          simp at hok

/-- A concrete state for the revoke witness: root domain 0 (sealed, full
api) with one sealed child domain at heap id 1, handle 1. -/
def c1state : EngineState :=
  (engineSeal (engineCreate (engineNew 1) 0 1 MonitorAPI.all
    InterruptPolicy.default_none).1 0 1).1

/-- The root domain node of c1state. -/
def c1dn : DomNode :=
  (c1state.getD 0).getD
    ⟨⟨0, DStatus.Unsealed, CapabilityStore.new,
      Policies.new 0 0 InterruptPolicy.default_none⟩, none, 0, none, []⟩

/-- C1 witness: revoking the sealed child of the concrete root leaves the
child Revoked with a reset table and no children. -/
theorem C1_witness :
    DomDone (engineRevoke 10 c1state 0 1 0).1 1 := by
  have hnc : ¬ DomDesc c1state 1 0 := by
    intro hd
    cases hd with
    | step n c m nd hn hc hrec =>
      have h4 : (c1state.getD 1).map DomNode.children = some [] := rfl
      rw [hn] at h4
      simp only [Option.map] at h4
      injection h4 with h4
      rw [h4] at hc
      simp at hc
  have hown : ∀ g gn h rid n, c1state.getD g = some gn →
      gn.data.capabilities.get h = Except.ok (CapaWrapper.Region rid) →
      c1state.getR rid = some n → n.ownerDom = some g := by
    intro g gn h rid n _ _ hr
    rw [show c1state.getR rid = none from rfl] at hr
    cases hr
  have h := C1_revoke_domain_subtree 10 c1state 0 1 0 (engineRevoke 10 c1state 0 1 0).1
    1 c1dn rfl rfl hnc hown rfl
  exact h.1 1 (DomDesc.refl 1)
